import Mathlib

/-!
Verification of the sudoku constraint-propagation engine (Rust crate `sudoku`).

This file shallowly embeds the core of the crate:
  * `src/sudoku/src/cell.rs`   — the `Cell<N>` bitset of candidate values,
  * `src/sudoku/src/lib.rs`    — positions, correlated positions, the cascading
    `remove` / `remove_all` propagation, `brute_force` search, `long_best`,
  * `src/sudoku/src/grid.rs`   — the `Sudoku<N>` grid, move log, candidate-count
    histogram (`buckets`), `best`, `remove_one`, `pop_n_moves`,
  * `src/sudoku/src/defer.rs`  — the `Defer<N>` deduplicating worklist.

Machine integers (`u64` bitsets, `usize` counters) are embedded as `Nat` with
explicit `% 2^64` where release-mode wrapping matters; bit operations use
`Nat.land`/`Nat.lor`/`Nat.xor`/`Nat.shiftLeft`, with `u64` bitwise-not rendered
as `xor (2^64 - 1)`.  Rust iterators are materialised as lists in yield order.
The `while let`-driven propagation loop is embedded with explicit fuel (the Rust
loop always terminates, so every concrete execution is captured by a large
enough fuel; running out of fuel is a distinguished `none` outcome that the Rust
code never produces).  `u64` intrinsics (`count_ones`, `trailing_zeros`) are
embedded with explicit fuel 64, matching the 64-bit width.
-/

/-! ## u64 arithmetic helpers -/

/-- `2^64`, the modulus of `u64` arithmetic. -/
def U64 : Nat := 2 ^ 64

/-- `u64` bitwise not: complement within 64 bits. -/
def u64not (x : Nat) : Nat := x ^^^ (U64 - 1)

/-- Wrapping `usize` increment (release-mode `+= 1`). -/
def u64inc (x : Nat) : Nat := (x + 1) % U64

/-- Wrapping `usize` decrement (release-mode `-= 1`). -/
def u64dec (x : Nat) : Nat := (x + (U64 - 1)) % U64

theorem u64inc_u64dec (x : Nat) (h : x < U64) : u64inc (u64dec x) = x := by
  unfold u64inc u64dec U64 at *
  omega

theorem u64dec_u64inc (x : Nat) (h : x < U64) : u64dec (u64inc x) = x := by
  unfold u64inc u64dec U64 at *
  omega

theorem u64inc_lt (x : Nat) : u64inc x < U64 := by
  unfold u64inc U64
  omega

theorem u64dec_lt (x : Nat) : u64dec x < U64 := by
  unfold u64dec U64
  omega

theorem u64dec_eq_sub_one (x : Nat) (h1 : 1 ≤ x) (h2 : x < U64) : u64dec x = x - 1 := by
  unfold u64dec U64 at *
  omega

theorem u64inc_eq_add_one (x : Nat) (h : x + 1 < U64) : u64inc x = x + 1 := by
  unfold u64inc U64 at *
  omega

/-! ## Bit counting: `count_ones`, `trailing_zeros`, `leading_zeros`

All bitsets in the program are `u64` values, so fuel 64 makes the fueled
recursions below exact on every input the program can produce. -/

/-- Binary digit-sum with fuel; `popCountAux 64` is `u64::count_ones`. -/
def popCountAux : Nat → Nat → Nat
  | 0, _ => 0
  | fuel + 1, n => if n = 0 then 0 else n % 2 + popCountAux fuel (n / 2)

/-- `u64::count_ones` (population count). -/
def popCount (n : Nat) : Nat := popCountAux 64 n

theorem popCountAux_eq_card (fuel : Nat) : ∀ n, n < 2 ^ fuel →
    popCountAux fuel n = ((Finset.range fuel).filter (fun i => n.testBit i)).card := by
  induction fuel with
  | zero =>
    intro n hn
    interval_cases n
    simp [popCountAux]
  | succ fuel ih =>
    intro n hn
    by_cases hz : n = 0
    · subst hz
      simp [popCountAux]
    · have hdiv : n / 2 < 2 ^ fuel := by
        have : n < 2 ^ fuel * 2 := by rw [Nat.pow_succ] at hn; exact hn
        omega
      have hrec := ih (n / 2) hdiv
      show (if n = 0 then 0 else n % 2 + popCountAux fuel (n / 2)) = _
      rw [if_neg hz, hrec]
      -- split the filtered set into bit 0 and the shifted bits of n / 2
      have hset : (Finset.range (fuel + 1)).filter (fun i => n.testBit i) =
          ((Finset.range 1).filter (fun i => n.testBit i)) ∪
            (((Finset.range fuel).filter (fun i => (n / 2).testBit i)).image (· + 1)) := by
        apply Finset.ext
        intro i
        simp only [Finset.mem_filter, Finset.mem_range, Finset.mem_union, Finset.mem_image]
        constructor
        · rintro ⟨hi, hbit⟩
          cases i with
          | zero => exact Or.inl ⟨by omega, hbit⟩
          | succ j =>
            refine Or.inr ⟨j, ⟨by omega, ?_⟩, rfl⟩
            rw [← Nat.testBit_succ]
            exact hbit
        · rintro (⟨hi, hbit⟩ | ⟨j, ⟨hj, hbit⟩, rfl⟩)
          · exact ⟨by omega, hbit⟩
          · exact ⟨by omega, by rw [Nat.testBit_succ]; exact hbit⟩
      have hdisj : Disjoint ((Finset.range 1).filter (fun i => n.testBit i))
          (((Finset.range fuel).filter (fun i => (n / 2).testBit i)).image (· + 1)) := by
        apply Finset.disjoint_left.2
        rintro i hi hj
        simp only [Finset.mem_filter, Finset.mem_range] at hi
        simp only [Finset.mem_image, Finset.mem_filter, Finset.mem_range] at hj
        rcases hj with ⟨j, _, hij⟩
        omega
      have hbit0 : ((Finset.range 1).filter (fun i => n.testBit i)).card = n % 2 := by
        by_cases hodd : n % 2 = 1
        · have : (Finset.range 1).filter (fun i => n.testBit i) = {0} := by
            apply Finset.ext
            intro i
            simp only [Finset.mem_filter, Finset.mem_range, Finset.mem_singleton]
            constructor
            · rintro ⟨hi, _⟩; omega
            · rintro rfl
              refine ⟨by omega, ?_⟩
              rw [Nat.testBit_zero]
              simp [hodd]
          rw [this, Finset.card_singleton, hodd]
        · have : (Finset.range 1).filter (fun i => n.testBit i) = ∅ := by
            apply Finset.ext
            intro i
            simp only [Finset.mem_filter, Finset.mem_range, Finset.not_mem_empty,
              iff_false, not_and]
            intro hi
            have hi0 : i = 0 := by omega
            subst hi0
            rw [Nat.testBit_zero]
            simp [hodd]
          rw [this, Finset.card_empty]
          omega
      rw [hset, Finset.card_union_of_disjoint hdisj,
        Finset.card_image_of_injective _ (fun a b hab => by omega), hbit0]

theorem popCount_eq_card (n : Nat) (h : n < U64) :
    popCount n = ((Finset.range 64).filter (fun i => n.testBit i)).card :=
  popCountAux_eq_card 64 n h

theorem popCount_le (n : Nat) (h : n < U64) : popCount n ≤ 64 := by
  rw [popCount_eq_card n h]
  calc ((Finset.range 64).filter (fun i => n.testBit i)).card
      ≤ (Finset.range 64).card := Finset.card_filter_le _ _
    _ = 64 := Finset.card_range 64

theorem popCount_eq_zero (n : Nat) (h : n < U64) : popCount n = 0 ↔ n = 0 := by
  rw [popCount_eq_card n h, Finset.card_eq_zero]
  constructor
  · intro hf
    apply Nat.eq_of_testBit_eq
    intro i
    rw [Nat.zero_testBit]
    by_cases hi : i < 64
    · by_contra hbit
      have : i ∈ (Finset.range 64).filter (fun i => n.testBit i) := by
        simp only [Finset.mem_filter, Finset.mem_range]
        exact ⟨hi, by revert hbit; cases n.testBit i <;> simp⟩
      rw [hf] at this
      exact absurd this (Finset.not_mem_empty i)
    · exact Nat.testBit_lt_two_pow (lt_of_lt_of_le h (Nat.pow_le_pow_right (by omega) (by omega)))
  · rintro rfl
    apply Finset.ext
    intro i
    simp

/-- `u64::trailing_zeros`, with explicit fuel 64 (64 on input `0`). -/
def ctzAux : Nat → Nat → Nat
  | 0, _ => 0
  | fuel + 1, n => if n % 2 = 1 then 0 else 1 + ctzAux fuel (n / 2)

def trailing_zeros (n : Nat) : Nat := ctzAux 64 n

/-- `u64::leading_zeros`; `Nat.size` is the bit length. -/
def leading_zeros (n : Nat) : Nat := 64 - Nat.size n

theorem ctzAux_spec (fuel : Nat) : ∀ n, n ≠ 0 → n < 2 ^ fuel →
    Nat.testBit n (ctzAux fuel n) = true ∧ ∀ j, j < ctzAux fuel n → Nat.testBit n j = false := by
  induction fuel with
  | zero =>
    intro n hn h
    interval_cases n
    exact absurd rfl hn
  | succ fuel ih =>
    intro n hn h
    by_cases hodd : n % 2 = 1
    · constructor
      · show Nat.testBit n (if n % 2 = 1 then 0 else 1 + ctzAux fuel (n / 2)) = true
        rw [if_pos hodd, Nat.testBit_zero]
        simp [hodd]
      · intro j hj
        show Nat.testBit n j = false
        exfalso
        revert hj
        show ¬ (j < ctzAux (fuel + 1) n)
        show ¬ (j < if n % 2 = 1 then 0 else 1 + ctzAux fuel (n / 2))
        rw [if_pos hodd]
        omega
    · have hdiv : n / 2 ≠ 0 := by omega
      have hdivlt : n / 2 < 2 ^ fuel := by
        have : n < 2 ^ fuel * 2 := by rw [Nat.pow_succ] at h; exact h
        omega
      rcases ih (n / 2) hdiv hdivlt with ⟨h1, h2⟩
      have hctz : ctzAux (fuel + 1) n = 1 + ctzAux fuel (n / 2) := by
        show (if n % 2 = 1 then 0 else 1 + ctzAux fuel (n / 2)) = _
        rw [if_neg hodd]
      constructor
      · rw [hctz, Nat.add_comm, Nat.testBit_succ]
        exact h1
      · intro j hj
        rw [hctz] at hj
        cases j with
        | zero =>
          rw [Nat.testBit_zero]
          simp [hodd]
        | succ i =>
          rw [Nat.testBit_succ]
          exact h2 i (by omega)

theorem trailing_zeros_spec (n : Nat) (hn : n ≠ 0) (h : n < U64) :
    Nat.testBit n (trailing_zeros n) = true ∧
      ∀ j, j < trailing_zeros n → Nat.testBit n j = false :=
  ctzAux_spec 64 n hn h

/-- On a nonzero `u64`, `trailing_zeros` is the unique index of the lowest set
bit. -/
theorem trailing_zeros_eq_of_bits (n v : Nat) (hn : n ≠ 0) (h : n < U64)
    (hv : Nat.testBit n v = true) (hlow : ∀ j, j < v → Nat.testBit n j = false) :
    trailing_zeros n = v := by
  rcases trailing_zeros_spec n hn h with ⟨h1, h2⟩
  rcases Nat.lt_trichotomy (trailing_zeros n) v with hlt | heq | hgt
  · exact absurd h1 (by rw [hlow _ hlt]; simp)
  · exact heq
  · exact absurd hv (by rw [h2 _ hgt]; simp)

theorem trailing_zeros_two_pow (v : Nat) (h : v < 64) : trailing_zeros (2 ^ v) = v := by
  apply trailing_zeros_eq_of_bits
  · exact (Nat.pow_pos (by omega)).ne'
  · exact Nat.pow_lt_pow_right (by omega) h
  · exact Nat.testBit_two_pow_self
  · intro j hj
    exact Nat.testBit_two_pow_of_ne (by omega)

theorem popCount_two_pow (v : Nat) (h : v < 64) : popCount (2 ^ v) = 1 := by
  rw [popCount_eq_card _ (Nat.pow_lt_pow_right (by omega) h)]
  have : (Finset.range 64).filter (fun i => (2 ^ v).testBit i) = {v} := by
    apply Finset.ext
    intro i
    simp only [Finset.mem_filter, Finset.mem_range, Finset.mem_singleton]
    constructor
    · rintro ⟨_, hbit⟩
      by_contra hne
      rw [Nat.testBit_two_pow_of_ne (fun he => hne he.symm)] at hbit
      exact absurd hbit (by simp)
    · rintro rfl
      exact ⟨h, Nat.testBit_two_pow_self⟩
  rw [this, Finset.card_singleton]

theorem popCount_eq_one_iff (n : Nat) (h : n < U64) :
    popCount n = 1 ↔ ∃ v, v < 64 ∧ n = 2 ^ v := by
  constructor
  · intro hpc
    rw [popCount_eq_card n h] at hpc
    rcases Finset.card_eq_one.1 hpc with ⟨v, hv⟩
    have hvmem : v ∈ (Finset.range 64).filter (fun i => n.testBit i) := by
      rw [hv]; exact Finset.mem_singleton_self v
    simp only [Finset.mem_filter, Finset.mem_range] at hvmem
    refine ⟨v, hvmem.1, ?_⟩
    apply Nat.eq_of_testBit_eq
    intro i
    by_cases hi : i = v
    · subst hi
      rw [hvmem.2, Nat.testBit_two_pow_self]
    · rw [Nat.testBit_two_pow_of_ne (fun he => hi he.symm)]
      by_cases hilt : i < 64
      · by_contra hne
        have : i ∈ (Finset.range 64).filter (fun i => n.testBit i) := by
          simp only [Finset.mem_filter, Finset.mem_range]
          exact ⟨hilt, by revert hne; cases n.testBit i <;> simp⟩
        rw [hv, Finset.mem_singleton] at this
        exact hi this
      · exact Nat.testBit_lt_two_pow (lt_of_lt_of_le h (Nat.pow_le_pow_right (by omega) (by omega)))
  · rintro ⟨v, hv, rfl⟩
    exact popCount_two_pow v hv

/-! ## `Cell<N>` (src/sudoku/src/cell.rs)

`Cell<N>` is a `u64` bitset; bit `i` set means value `i` is still possible.
`R = N*N` is the number of values. -/

structure Cell (N : Nat) where
  bitset : Nat
deriving DecidableEq, Repr

namespace Cell

/-- `Cell::R`: the range of values. -/
def R (N : Nat) : Nat := N * N

/-- `Cell::EMPTY`. -/
def EMPTY (N : Nat) : Cell N := ⟨0⟩

/-- `Cell::FULL = !(!0u64).unbounded_shl(R)`: `unbounded_shl` yields `0` when
the shift is `≥ 64`, otherwise shifts with `u64` wrap-around. -/
def FULL (N : Nat) : Cell N :=
  ⟨u64not (if 64 ≤ R N then 0 else ((U64 - 1) <<< R N) % U64)⟩

/-- For every supported size the `FULL` mask is the low `N*N` bits, matching
the `full_cell` unit test in `cell.rs`. -/
theorem FULL_eq (N : Nat) (h : N ≤ 8) : (FULL N).bitset = 2 ^ (N * N) - 1 := by
  interval_cases N <;> rfl

/-- `Cell::from_value(value)`: `1 << value` with the release-mode masked shift
amount (always called with `value < R ≤ 64`). -/
def from_value (N : Nat) (value : Nat) : Cell N := ⟨1 <<< (value % 64)⟩

theorem from_value_eq (N v : Nat) (h : v < 64) : (from_value N v).bitset = 2 ^ v := by
  unfold from_value
  rw [Nat.mod_eq_of_lt h, Nat.shiftLeft_eq, Nat.one_mul]

/-- `Cell::get_value`: the unique value iff exactly one bit is set
(`u64::is_power_of_two` is `count_ones() == 1`). -/
def get_value (c : Cell N) : Option Nat :=
  if popCount c.bitset = 1 then some (trailing_zeros c.bitset) else none

/-- `Cell::first`. -/
def first (N : Nat) (c : Cell N) : Option Nat :=
  let value := trailing_zeros c.bitset
  if value < N * N then some value else none

/-- `Cell::contains(value)`. -/
def contains (c : Cell N) (value : Nat) : Bool :=
  c.bitset &&& (1 <<< (value % 64)) != 0

/-- `Cell::remove(value)`: clears the bit. -/
def remove (c : Cell N) (value : Nat) : Cell N :=
  ⟨c.bitset &&& u64not (1 <<< (value % 64))⟩

/-- `Cell::len`: the population count. -/
def len (c : Cell N) : Nat := popCount c.bitset

/-- `|` on cells. -/
def or (a b : Cell N) : Cell N := ⟨a.bitset ||| b.bitset⟩

/-- `&` on cells. -/
def and (a b : Cell N) : Cell N := ⟨a.bitset &&& b.bitset⟩

/-- `!` on cells: `!bitset & FULL.bitset`. -/
def compl (c : Cell N) : Cell N := ⟨u64not c.bitset &&& (FULL N).bitset⟩

/-- `-` of one value: `self & !from_value(rhs)`. -/
def sub (c : Cell N) (value : Nat) : Cell N := c.and (compl (from_value N value))

/-- One step of the `Iterator for Cell` implementation: the lowest set bit is
produced and cleared. -/
def next (c : Cell N) : Option (Nat × Cell N) :=
  if c.bitset = 0 then none
  else
    let value := trailing_zeros c.bitset
    some (value, ⟨c.bitset &&& u64not (1 <<< (value % 64))⟩)

/-- The full value sequence of a cell's iterator (fuel 64 covers every `u64`
bitset, which has at most 64 set bits). -/
def toListAux : Nat → Nat → List Nat
  | 0, _ => []
  | fuel + 1, b =>
    if b = 0 then []
    else
      let value := trailing_zeros b
      value :: toListAux fuel (b &&& u64not (1 <<< (value % 64)))

def toList (c : Cell N) : List Nat := toListAux 64 c.bitset

/-- `Cell::choose(rng)`: the rng draw `random_range(0..count)` is made explicit
as the argument `k` (ignored when the cell has at most one candidate). -/
def choose (c : Cell N) (k : Nat) : Option Nat :=
  match popCount c.bitset with
  | 0 => none
  | 1 => some (trailing_zeros c.bitset)
  | _ =>
    match k with
    | 0 => some (trailing_zeros c.bitset)
    | 1 => some (63 - leading_zeros c.bitset)
    | Nat.succ (Nat.succ m) =>
      some (trailing_zeros (clearIter c.bitset (m + 1)))
where
  /-- The loop `for _ in 0..n-1 { let value = tz; bitset &= !(1 << value) }`. -/
  clearIter (b : Nat) : Nat → Nat
    | 0 => b
    | j + 1 => clearIter (b &&& u64not (1 <<< (trailing_zeros b % 64))) j

/-- `Cell::from_char`: the fixed 64-entry symbol table, in source order.
The symbol value table of the `match` in `from_char`, as an association
list. -/
def charTable : List (Char × Nat) :=
  [('1', 0), ('2', 1), ('3', 2), ('4', 3), ('5', 4), ('6', 5), ('7', 6), ('8', 7),
   ('9', 8), ('A', 9), ('B', 10), ('C', 11), ('D', 12), ('E', 13), ('F', 14),
   ('G', 15), ('H', 16), ('I', 17), ('J', 18), ('K', 19), ('L', 20), ('M', 21),
   ('N', 22), ('O', 23), ('P', 24), ('Q', 25), ('R', 26), ('S', 27), ('T', 28),
   ('U', 29), ('V', 30), ('W', 31), ('X', 32), ('Y', 33), ('Z', 34), ('0', 35),
   ('Ψ', 36), ('Ω', 37), ('Φ', 38), ('Δ', 39), ('Ξ', 40), ('Γ', 41), ('Π', 42),
   ('Σ', 43), ('Д', 44), ('Б', 45), ('Џ', 46), ('Ш', 47), ('Ч', 48), ('ก', 49),
   ('ข', 50), ('ค', 51), ('ฉ', 52), ('ช', 53), ('ง', 54), ('ด', 55), ('ฮ', 56),
   ('ล', 57), ('ห', 58), ('น', 59), ('ฯ', 60), ('ร', 61), ('ฆ', 62), ('พ', 63)]

/-- `Cell::from_char(c)`: a table symbol maps through `from_value`, `'_'` maps
to `FULL`, anything else is rejected.  The `match` arms are mutually exclusive
(and `'_'` is not a table symbol), so lookup order is immaterial. -/
def from_char (N : Nat) (c : Char) : Option (Cell N) :=
  match charTable.lookup c with
  | some v => some (from_value N v)
  | none => if c = '_' then some (FULL N) else none

end Cell

/-! ## `Pos` and position iteration (src/sudoku/src/lib.rs)

`Pos` carries block-row (`x_1`), sub-row (`x_2`), block-column (`y_1`) and
sub-column (`y_2`) selectors (`u8` values, always `< N`). -/

structure Pos where
  x_1 : Nat
  x_2 : Nat
  y_1 : Nat
  y_2 : Nat
deriving DecidableEq, Repr

namespace Pos

/-- All four components in range, as every `Pos` the program constructs. -/
def Valid (N : Nat) (p : Pos) : Prop :=
  p.x_1 < N ∧ p.x_2 < N ∧ p.y_1 < N ∧ p.y_2 < N

instance (N : Nat) (p : Pos) : Decidable (Valid N p) := by
  unfold Valid
  infer_instance

/-- The flattened index of the nested `[[[[_; N]; N]; N]; N]` array accesses
`[y_1][y_2][x_1][x_2]` performed by the `Index<Pos>` implementations. -/
def idx (N : Nat) (p : Pos) : Nat :=
  ((p.y_1 * N + p.y_2) * N + p.x_1) * N + p.x_2

/-- `Pos::iter::<N>()`: every position, nesting order `y_1, y_2, x_1, x_2`. -/
def iterList (N : Nat) : List Pos :=
  (List.range N).flatMap fun y_1 =>
    (List.range N).flatMap fun y_2 =>
      (List.range N).flatMap fun x_1 =>
        (List.range N).map fun x_2 => ⟨x_1, x_2, y_1, y_2⟩

end Pos

/-- First phase of the `correlated` generator: `// row (without square)`. -/
def correlatedRow (N : Nat) (pos : Pos) : List Pos :=
  (List.range N).flatMap fun x_1 =>
    if x_1 ≠ pos.x_1 then
      (List.range N).map fun x_2 => { pos with x_1 := x_1, x_2 := x_2 }
    else []

/-- Second phase: `// column (without square)`. -/
def correlatedColumn (N : Nat) (pos : Pos) : List Pos :=
  (List.range N).flatMap fun y_1 =>
    if y_1 ≠ pos.y_1 then
      (List.range N).map fun y_2 => { pos with y_1 := y_1, y_2 := y_2 }
    else []

/-- Third phase: `// square (full)`. -/
def correlatedSquare (N : Nat) (pos : Pos) : List Pos :=
  (List.range N).flatMap fun y_2 =>
    (List.range N).flatMap fun x_2 =>
      if y_2 ≠ pos.y_2 ∨ x_2 ≠ pos.x_2 then [{ pos with y_2 := y_2, x_2 := x_2 }]
      else []

/-- `correlated::<N>(pos)`: the row chunk sweep (skipping `pos`'s row chunk),
then the column chunk sweep (skipping `pos`'s column chunk), then the full
square sweep (skipping `pos` itself), in generator yield order. -/
def correlated (N : Nat) (pos : Pos) : List Pos :=
  correlatedRow N pos ++ correlatedColumn N pos ++ correlatedSquare N pos

/-! ## `Defer<N>` (src/sudoku/src/defer.rs) -/

structure Defer (N : Nat) where
  /-- The presence mask, the flattened `[[[[bool; N]; N]; N]; N]`. -/
  grid : List Bool
  /-- The pending positions; the list head is the top of the Rust `Vec`. -/
  queue : List Pos
deriving DecidableEq, Repr

namespace Defer

def new (N : Nat) : Defer N := ⟨List.replicate (N * N * N * N) false, []⟩

def push (d : Defer N) (pos : Pos) : Defer N :=
  if d.grid.getD (pos.idx N) false then d
  else ⟨d.grid.set (pos.idx N) true, pos :: d.queue⟩

def pop (d : Defer N) : Option (Pos × Defer N) :=
  match d.queue with
  | [] => none
  | pos :: rest => some (pos, ⟨d.grid.set (pos.idx N) false, rest⟩)

def clear (N : Nat) : Defer N := ⟨List.replicate (N * N * N * N) false, []⟩

end Defer

/-! ## `Sudoku<N>` (src/sudoku/src/grid.rs) -/

structure Sudoku (N : Nat) where
  /-- The flattened `[[[[Cell<N>; N]; N]; N]; N]`, indexed by `Pos.idx`. -/
  grid : List (Cell N)
  /-- The move log; the list head is the top of the Rust `Vec`. -/
  moves : List (Nat × Pos)
  /-- The flattened `[[usize; N]; N]` histogram; `bucket(i)` addresses
  `buckets[i / N][i % N]`, which is flat index `i`. -/
  buckets : List Nat
deriving DecidableEq, Repr

namespace Sudoku

/-- Read the cell at a position (`Index<Pos>` via `get_unchecked`; positions
are always in bounds, see claim C9). -/
def get (s : Sudoku N) (p : Pos) : Cell N := s.grid.getD (p.idx N) (Cell.EMPTY N)

/-- The accessor `fn bucket(&mut self, index) = &mut buckets[index / N][index % N]`,
i.e. flat index `index`; read form. -/
def bucketGet (s : Sudoku N) (i : Nat) : Nat := s.buckets.getD i 0

/-- `Sudoku::default()`: all cells `FULL`, empty log, histogram with all
`N^4` cells in the `N*N` candidate-count bucket (`best[N-1][N-1]`, flat index
`N*N - 1`). -/
def default (N : Nat) : Sudoku N :=
  { grid := List.replicate (N * N * N * N) (Cell.FULL N)
    moves := []
    buckets := (List.replicate (N * N) 0).set (N * N - 1) (N * N * N * N) }

/-- `Sudoku::best()`: scan bucket row 0 at columns `1..N`, then rows `1..N`
at all columns, returning `count = flat index + 1` for the first non-empty
bucket; `1` if all scanned buckets are empty. -/
def best (s : Sudoku N) : Nat :=
  match (List.range' 1 (N - 1)).find? (fun v_2 => s.bucketGet v_2 != 0) with
  | some v_2 => v_2 + 1
  | none =>
    match ((List.range' 1 (N - 1)).flatMap fun v_1 =>
        (List.range N).map fun v_2 => (v_1, v_2)).find?
        (fun q => s.bucketGet (q.1 * N + q.2) != 0) with
    | some q => q.1 * N + q.2 + 1
    | none => 1

/-- `Sudoku::remove_one(value, pos, pushed, defer)`: clear the bit, move the
cell from its old count bucket to the new one, log the move, enqueue the
position, increment `pushed`. -/
def remove_one (value : Nat) (pos : Pos) :
    Sudoku N × Defer N × Nat → Sudoku N × Defer N × Nat
  | (s, d, pushed) =>
    let grid := s.grid.set (pos.idx N) ((s.get pos).remove value)
    let s : Sudoku N := { s with grid := grid }
    let len := (s.get pos).len
    let s : Sudoku N := { s with buckets := s.buckets.set (len - 0) (u64dec (s.bucketGet (len - 0))) }
    let s : Sudoku N := { s with buckets := s.buckets.set (len - 1) (u64inc (s.bucketGet (len - 1))) }
    let s : Sudoku N := { s with moves := (value, pos) :: s.moves }
    (s, d.push pos, pushed + 1)

/-- One iteration of the `pop_n_moves` loop: pop the most recent move, move
the cell back from its current count bucket to the incremented one, restore
the removed bit.  (Popping an empty log panics in Rust; embedded as the
identity, and never exercised by the theorems below.) -/
def pop_one (s : Sudoku N) : Sudoku N :=
  match s.moves with
  | [] => s
  | (value, pos) :: rest =>
    let s : Sudoku N := { s with moves := rest }
    let len := (s.get pos).len
    let s : Sudoku N := { s with buckets := s.buckets.set (len - 0) (u64inc (s.bucketGet (len - 0))) }
    let s : Sudoku N := { s with buckets := s.buckets.set (len - 1) (u64dec (s.bucketGet (len - 1))) }
    { s with grid := s.grid.set (pos.idx N) ((s.get pos).or (Cell.from_value N value)) }

/-- `Sudoku::pop_n_moves(n)`. -/
def pop_n_moves (s : Sudoku N) : Nat → Sudoku N
  | 0 => s
  | n + 1 => pop_n_moves (pop_one s) n

end Sudoku

/-! ## Propagation engine (src/sudoku/src/lib.rs, `remove` / `remove_all`) -/

namespace Sudoku

/-- The chunk loop of `unic_on_row`: for each `x_1`, OR in all other cells of
the row, early-returning `EMPTY` as soon as `possibles == FULL`; at the end
return `!possibles`. -/
def unicRowAux (s : Sudoku N) (pos : Pos) : List Nat → Cell N → Cell N
  | [], possibles => possibles.compl
  | x_1 :: rest, possibles =>
    let possibles := (List.range N).foldl
      (fun acc x_2 =>
        if x_1 ≠ pos.x_1 ∨ x_2 ≠ pos.x_2 then
          acc.or (s.get { pos with x_1 := x_1, x_2 := x_2 })
        else acc)
      possibles
    if possibles = Cell.FULL N then Cell.EMPTY N else unicRowAux s pos rest possibles

/-- `Sudoku::unic_on_row(pos)`: candidates of `pos` absent from every other
cell of its row. -/
def unic_on_row (s : Sudoku N) (pos : Pos) : Cell N :=
  unicRowAux s pos (List.range N) (Cell.EMPTY N)

def unicColumnAux (s : Sudoku N) (pos : Pos) : List Nat → Cell N → Cell N
  | [], possibles => possibles.compl
  | y_1 :: rest, possibles =>
    let possibles := (List.range N).foldl
      (fun acc y_2 =>
        if y_1 ≠ pos.y_1 ∨ y_2 ≠ pos.y_2 then
          acc.or (s.get { pos with y_1 := y_1, y_2 := y_2 })
        else acc)
      possibles
    if possibles = Cell.FULL N then Cell.EMPTY N else unicColumnAux s pos rest possibles

/-- `Sudoku::unic_on_column(pos)`. -/
def unic_on_column (s : Sudoku N) (pos : Pos) : Cell N :=
  unicColumnAux s pos (List.range N) (Cell.EMPTY N)

def unicSquareAux (s : Sudoku N) (pos : Pos) : List Nat → Cell N → Cell N
  | [], possibles => possibles.compl
  | y_2 :: rest, possibles =>
    let possibles := (List.range N).foldl
      (fun acc x_2 =>
        if y_2 ≠ pos.y_2 ∨ x_2 ≠ pos.x_2 then
          acc.or (s.get { pos with y_2 := y_2, x_2 := x_2 })
        else acc)
      possibles
    if possibles = Cell.FULL N then Cell.EMPTY N else unicSquareAux s pos rest possibles

/-- `Sudoku::unic_on_square(pos)`. -/
def unic_on_square (s : Sudoku N) (pos : Pos) : Cell N :=
  unicSquareAux s pos (List.range N) (Cell.EMPTY N)

/-- The cascade state: grid, worklist, `pushed` counter.  A contradiction is
reported as `Except.error` carrying the state at the failure site (the Rust
code there runs `pop_n_moves(pushed); return None`, performed by `remove`
below). -/
abbrev CascadeSt (N : Nat) := Sudoku N × Defer N × Nat

/-- The naked-single sweep (`remove` lines 54–65): the popped cell has unique
value `value`; every correlated cell still containing it loses it, a
correlated cell *equal* to the singleton is a contradiction. -/
def cascadeNaked (value : Nat) : List Pos → CascadeSt N → Except (CascadeSt N) (CascadeSt N)
  | [], st => .ok st
  | q :: rest, (s, d, pushed) =>
    if (s.get q).contains value then
      if s.get q = Cell.from_value N value then .error (s, d, pushed)
      else cascadeNaked value rest (remove_one value q (s, d, pushed))
    else cascadeNaked value rest (s, d, pushed)

/-- The inner loop `for iv in self[pos] - value` (`remove` lines 93–100):
strip every other candidate of the forced cell one at a time. -/
def removeExtras (value : Nat) (q : Pos) :
    List Nat → CascadeSt N → Except (CascadeSt N) (CascadeSt N)
  | [], st => .ok st
  | iv :: rest, (s, d, pushed) =>
    if s.get q = Cell.from_value N value then .error (s, d, pushed)
    else removeExtras value q rest (remove_one iv q (s, d, pushed))

/-- The hidden-single sweep (`remove` lines 70–101): for every correlated,
undetermined cell, combine the row/column/square forced-value masks; a
multi-bit result or a forced value the cell lacks is a contradiction,
otherwise the other candidates are removed. -/
def cascadeHidden : List Pos → CascadeSt N → Except (CascadeSt N) (CascadeSt N)
  | [], st => .ok st
  | q :: rest, (s, d, pushed) =>
    if (s.get q).len = 1 then cascadeHidden rest (s, d, pushed)
    else
      let unic := ((s.unic_on_row q).or (s.unic_on_column q)).or (s.unic_on_square q)
      if unic.len = 0 then cascadeHidden rest (s, d, pushed)
      else
        match unic.get_value with
        | none => .error (s, d, pushed)
        | some value =>
          if ¬ (s.get q).contains value then .error (s, d, pushed)
          else
            match removeExtras value q ((s.get q).sub value).toList (s, d, pushed) with
            | .error st => .error st
            | .ok st => cascadeHidden rest st

/-- The `while let Some(pos) = defer.pop()` loop of `remove`, with fuel.
`none` is fuel exhaustion (never produced by the Rust loop, which always
terminates). -/
def removeLoop : Nat → CascadeSt N → Option (Except (CascadeSt N) (CascadeSt N))
  | 0, _ => none
  | fuel + 1, (s, d, pushed) =>
    match d.pop with
    | none => some (.ok (s, d, pushed))
    | some (pos, d) =>
      let afterNaked :=
        match (s.get pos).get_value with
        | some value => cascadeNaked value (correlated N pos) (s, d, pushed)
        | none => .ok (s, d, pushed)
      match afterNaked with
      | .error st => some (.error st)
      | .ok st =>
        match cascadeHidden (correlated N pos) st with
        | .error st => some (.error st)
        | .ok st => removeLoop fuel st

/-- `Sudoku::remove(value, pos, defer)`: trying to reduce a matching singleton
is an immediate contradiction (nothing pushed); otherwise clear the worklist,
perform the elementary removal and run the cascade; on contradiction pop all
pushed moves.  The state is returned alongside (`self` is `&mut` in Rust);
the worklist is local because `remove` clears it on entry and no caller reads
it in between. -/
def remove (fuel : Nat) (s : Sudoku N) (value : Nat) (pos : Pos) :
    Option (Sudoku N × Option Nat) :=
  if s.get pos = Cell.from_value N value then some (s, none)
  else
    match removeLoop fuel (remove_one value pos (s, Defer.clear N, 0)) with
    | none => none
    | some (.error (s, _, pushed)) => some (s.pop_n_moves pushed, none)
    | some (.ok (s, _, pushed)) => some (s, some pushed)

/-- The `for iv in self[pos] & values` loop of `remove_all`, accumulating the
removal count; on an inner contradiction pop this call's accumulated moves. -/
def removeAllGo (fuel : Nat) (pos : Pos) :
    List Nat → Sudoku N → Nat → Option (Sudoku N × Option Nat)
  | [], s, count => some (s, some count)
  | iv :: rest, s, count =>
    if (s.get pos).contains iv then
      match remove fuel s iv pos with
      | none => none
      | some (s, some n) => removeAllGo fuel pos rest s (count + n)
      | some (s, none) => some (s.pop_n_moves count, none)
    else removeAllGo fuel pos rest s count

/-- `Sudoku::remove_all(values, pos, defer)`. -/
def remove_all (fuel : Nat) (s : Sudoku N) (values : Cell N) (pos : Pos) :
    Option (Sudoku N × Option Nat) :=
  removeAllGo fuel pos ((s.get pos).and values).toList s 0

/-- `Sudoku::long_best()`: full scan for the smallest candidate count `> 1`,
`1` if every cell is determined. -/
def long_best (s : Sudoku N) : Nat :=
  let min := (Pos.iterList N).foldl
    (fun min pos =>
      let len := (s.get pos).len
      if 1 < len ∧ len < min then len else min)
    (N * N + 1)
  if min = N * N + 1 then 1 else min

/-- `Sudoku::min_bifurc(min)`: the first position (iteration order) whose cell
has exactly `min` candidates (`unreachable!()` otherwise, embedded as a
default). -/
def min_bifurc (s : Sudoku N) (min : Nat) : Pos :=
  ((Pos.iterList N).find? (fun pos => (s.get pos).len == min)).getD ⟨0, 0, 0, 0⟩

end Sudoku

/-! ## Search engine (`Sudoku::brute_force`) -/

/-- A `Choose<N>` strategy, abstracted by its (possibly overridden)
`choose_pop_value_in_cell`: given the strategy state and the tracked candidate
cell it returns the chosen value (or none), the updated cell, and the updated
state.  Both built-in strategies are instances: `ChooseFirst` pops the lowest
set bit, `ChooseAtRandom` pops the value `Cell::choose` picks for the rng
draw. -/
structure Chooser (N : Nat) (σ : Type) where
  step : σ → Cell N → Option Nat × Cell N × σ

namespace Sudoku

/-- The `for i in ttl` loop body of `brute_force`, as a recursion over the
remaining budget.  Arguments mirror the generator's locals: strategy state,
grid, current bifurcation position and its tracked candidate cell, the
explicit frame stack, and the accumulated yields (in yield order on return).
The result is `none` only on cascade fuel exhaustion (an embedding artifact,
see `removeLoop`). -/
def bruteForceGo (fuel : Nat) (ch : Chooser N σ) :
    Nat → σ → Sudoku N → Pos → Cell N → List (Nat × Cell N × Pos) →
      List (Sudoku N) → Option (List (Sudoku N))
  | 0, _, _, _, _, _, acc => some acc.reverse
  | n + 1, cst, s, pos, cell, stack, acc =>
    match ch.step cst cell with
    | (some value, cell, cst) =>
      match s.remove_all fuel ((Cell.from_value N value).compl) pos with
      | none => none
      | some (s, some moved) =>
        match s.best with
        | 1 => bruteForceGo fuel ch n cst (s.pop_n_moves moved) pos cell stack (s :: acc)
        | min =>
          let nextPos := s.min_bifurc min
          bruteForceGo fuel ch n cst s nextPos (s.get nextPos) ((moved, cell, pos) :: stack) acc
      | some (s, none) => bruteForceGo fuel ch n cst s pos cell stack acc
    | (none, _, cst) =>
      match stack with
      | [] => some acc.reverse
      | (unpush, prev_cell, prev_pos) :: stack =>
        bruteForceGo fuel ch n cst (s.pop_n_moves unpush) prev_pos prev_cell stack acc

/-- `Sudoku::brute_force(chooser, ttl)`: the list of yielded solution grids.
The budget iterator only drives the iteration count, embedded as `ttl : Nat`;
any yield of any run with any budget iterator appears in the run with some
finite `ttl`. -/
def brute_force (fuel : Nat) (ch : Chooser N σ) (cst : σ) (ttl : Nat) (s : Sudoku N) :
    Option (List (Sudoku N)) :=
  match s.best with
  | 1 => some [s]
  | min =>
    let pos := s.min_bifurc min
    bruteForceGo fuel ch ttl cst s pos (s.get pos) [] []

end Sudoku

/-! ## Shape of `Pos.iterList`, `correlated`, and index bounds -/

namespace Pos

theorem mem_iterList (N : Nat) (q : Pos) : q ∈ iterList N ↔ q.Valid N := by
  unfold iterList Valid
  simp only [List.mem_flatMap, List.mem_range, List.mem_map]
  constructor
  · rintro ⟨y_1, h1, y_2, h2, x_1, h3, x_2, h4, rfl⟩
    exact ⟨h3, h4, h1, h2⟩
  · rintro ⟨h1, h2, h3, h4⟩
    exact ⟨q.y_1, h3, q.y_2, h4, q.x_1, h1, q.x_2, h2, rfl⟩

theorem idx_lt (N : Nat) (p : Pos) (h : p.Valid N) : p.idx N < N * N * N * N := by
  obtain ⟨h1, h2, h3, h4⟩ := h
  unfold idx
  have a1 : p.y_1 * N + p.y_2 < N * N := by
    calc p.y_1 * N + p.y_2 < p.y_1 * N + N := by omega
      _ = (p.y_1 + 1) * N := by ring
      _ ≤ N * N := Nat.mul_le_mul_right N h3
  have a2 : (p.y_1 * N + p.y_2) * N + p.x_1 < N * N * N := by
    calc (p.y_1 * N + p.y_2) * N + p.x_1 < (p.y_1 * N + p.y_2) * N + N := by omega
      _ = ((p.y_1 * N + p.y_2) + 1) * N := by ring
      _ ≤ (N * N) * N := Nat.mul_le_mul_right N a1
  calc ((p.y_1 * N + p.y_2) * N + p.x_1) * N + p.x_2
      < ((p.y_1 * N + p.y_2) * N + p.x_1) * N + N := by omega
    _ = (((p.y_1 * N + p.y_2) * N + p.x_1) + 1) * N := by ring
    _ ≤ (N * N * N) * N := Nat.mul_le_mul_right N a2

theorem idx_decomp (N : Nat) (p : Pos) (h : p.Valid N) :
    p.idx N % N = p.x_2 ∧ p.idx N / N % N = p.x_1 ∧
      p.idx N / N / N % N = p.y_2 ∧ p.idx N / N / N / N = p.y_1 := by
  obtain ⟨h1, h2, h3, h4⟩ := h
  have hN : 0 < N := by omega
  have e : ∀ A r : Nat, r < N → (A * N + r) % N = r ∧ (A * N + r) / N = A := by
    intro A r hr
    constructor
    · rw [Nat.mul_comm, Nat.mul_add_mod, Nat.mod_eq_of_lt hr]
    · rw [Nat.mul_comm, Nat.mul_add_div hN, Nat.div_eq_of_lt hr, Nat.add_zero]
  unfold idx
  rw [(e _ _ h2).1, (e _ _ h2).2, (e _ _ h1).1, (e _ _ h1).2, (e _ _ h4).1, (e _ _ h4).2]
  exact ⟨rfl, rfl, rfl, rfl⟩

theorem idx_inj (N : Nat) (p q : Pos) (hp : p.Valid N) (hq : q.Valid N)
    (h : p.idx N = q.idx N) : p = q := by
  obtain ⟨p1, p2, p3, p4⟩ := idx_decomp N p hp
  obtain ⟨q1, q2, q3, q4⟩ := idx_decomp N q hq
  cases p
  cases q
  simp only [mk.injEq]
  rw [h] at p1 p2 p3 p4
  refine ⟨?_, ?_, ?_, ?_⟩ <;> simp_all

end Pos

theorem mem_correlatedRow (N : Nat) (pos q : Pos) :
    q ∈ correlatedRow N pos ↔
      q.y_1 = pos.y_1 ∧ q.y_2 = pos.y_2 ∧ q.x_1 < N ∧ q.x_1 ≠ pos.x_1 ∧ q.x_2 < N := by
  unfold correlatedRow
  simp only [List.mem_flatMap, List.mem_range]
  constructor
  · rintro ⟨x_1, hx1, hmem⟩
    by_cases hne : x_1 ≠ pos.x_1
    · rw [if_pos hne] at hmem
      simp only [List.mem_map, List.mem_range] at hmem
      rcases hmem with ⟨x_2, hx2, rfl⟩
      exact ⟨rfl, rfl, hx1, hne, hx2⟩
    · rw [if_neg hne] at hmem
      exact absurd hmem (List.not_mem_nil q)
  · rintro ⟨hy1, hy2, hx1, hne, hx2⟩
    refine ⟨q.x_1, hx1, ?_⟩
    rw [if_pos hne]
    simp only [List.mem_map, List.mem_range]
    refine ⟨q.x_2, hx2, ?_⟩
    cases pos
    cases q
    simp_all

theorem mem_correlatedColumn (N : Nat) (pos q : Pos) :
    q ∈ correlatedColumn N pos ↔
      q.x_1 = pos.x_1 ∧ q.x_2 = pos.x_2 ∧ q.y_1 < N ∧ q.y_1 ≠ pos.y_1 ∧ q.y_2 < N := by
  unfold correlatedColumn
  simp only [List.mem_flatMap, List.mem_range]
  constructor
  · rintro ⟨y_1, hy1, hmem⟩
    by_cases hne : y_1 ≠ pos.y_1
    · rw [if_pos hne] at hmem
      simp only [List.mem_map, List.mem_range] at hmem
      rcases hmem with ⟨y_2, hy2, rfl⟩
      exact ⟨rfl, rfl, hy1, hne, hy2⟩
    · rw [if_neg hne] at hmem
      exact absurd hmem (List.not_mem_nil q)
  · rintro ⟨hx1, hx2, hy1, hne, hy2⟩
    refine ⟨q.y_1, hy1, ?_⟩
    rw [if_pos hne]
    simp only [List.mem_map, List.mem_range]
    refine ⟨q.y_2, hy2, ?_⟩
    cases pos
    cases q
    simp_all

theorem mem_correlatedSquare (N : Nat) (pos q : Pos) :
    q ∈ correlatedSquare N pos ↔
      q.y_1 = pos.y_1 ∧ q.x_1 = pos.x_1 ∧ q.y_2 < N ∧ q.x_2 < N ∧ q ≠ pos := by
  unfold correlatedSquare
  simp only [List.mem_flatMap, List.mem_range]
  constructor
  · rintro ⟨y_2, hy2, x_2, hx2, hmem⟩
    by_cases hc : y_2 ≠ pos.y_2 ∨ x_2 ≠ pos.x_2
    · rw [if_pos hc] at hmem
      simp only [List.mem_singleton] at hmem
      subst hmem
      refine ⟨rfl, rfl, hy2, hx2, ?_⟩
      intro he
      cases pos
      simp_all
    · rw [if_neg hc] at hmem
      exact absurd hmem (List.not_mem_nil q)
  · rintro ⟨hy1, hx1, hy2, hx2, hne⟩
    refine ⟨q.y_2, hy2, q.x_2, hx2, ?_⟩
    have hc : q.y_2 ≠ pos.y_2 ∨ q.x_2 ≠ pos.x_2 := by
      by_contra hcon
      push_neg at hcon
      apply hne
      cases pos
      cases q
      simp_all
    rw [if_pos hc]
    simp only [List.mem_singleton]
    cases pos
    cases q
    simp_all

/-- Membership in `correlated`: exactly the positions sharing `pos`'s row
outside its row chunk, sharing its column outside its column chunk, or
sharing its box and differing from `pos`. -/
theorem mem_correlated (N : Nat) (pos q : Pos) :
    q ∈ correlated N pos ↔
      ((q.y_1 = pos.y_1 ∧ q.y_2 = pos.y_2 ∧ q.x_1 < N ∧ q.x_1 ≠ pos.x_1 ∧ q.x_2 < N) ∨
       (q.x_1 = pos.x_1 ∧ q.x_2 = pos.x_2 ∧ q.y_1 < N ∧ q.y_1 ≠ pos.y_1 ∧ q.y_2 < N) ∨
       (q.y_1 = pos.y_1 ∧ q.x_1 = pos.x_1 ∧ q.y_2 < N ∧ q.x_2 < N ∧ q ≠ pos)) := by
  unfold correlated
  simp only [List.mem_append, mem_correlatedRow, mem_correlatedColumn, mem_correlatedSquare]
  tauto

theorem self_not_mem_correlated (N : Nat) (pos : Pos) : pos ∉ correlated N pos := by
  rw [mem_correlated]
  rintro (⟨_, _, _, hne, _⟩ | ⟨_, _, _, hne, _⟩ | ⟨_, _, _, _, hne⟩)
  · exact hne rfl
  · exact hne rfl
  · exact hne rfl

/-- Every correlated position of a valid position is valid. -/
theorem mem_correlated_valid (N : Nat) (pos q : Pos) (hpos : pos.Valid N)
    (hq : q ∈ correlated N pos) : q.Valid N := by
  obtain ⟨h1, h2, h3, h4⟩ := hpos
  rw [mem_correlated] at hq
  unfold Pos.Valid
  rcases hq with ⟨e1, e2, l1, _, l2⟩ | ⟨e1, e2, l1, _, l2⟩ | ⟨e1, e2, l1, l2, _⟩ <;>
    simp_all

theorem sum_ite_ne_card (N a c : Nat) (ha : a < N) :
    (∑ x in Finset.range N, if x ≠ a then c else 0) = (N - 1) * c := by
  classical
  rw [Finset.sum_ite, Finset.sum_const, Finset.sum_const, Finset.filter_ne',
    Finset.card_erase_of_mem (Finset.mem_range.2 ha), Finset.card_range,
    smul_eq_mul, smul_eq_mul]
  omega

theorem length_correlatedRow (N : Nat) (pos : Pos) (h : pos.x_1 < N) :
    (correlatedRow N pos).length = (N - 1) * N := by
  unfold correlatedRow
  rw [List.length_flatMap]
  have he : (List.range N).map (List.length ∘ fun x_1 =>
      if x_1 ≠ pos.x_1 then
        (List.range N).map fun x_2 => { pos with x_1 := x_1, x_2 := x_2 }
      else []) = (List.range N).map (fun x_1 => if x_1 ≠ pos.x_1 then N else 0) := by
    apply List.map_congr_left
    intro x_1 _
    by_cases hx : x_1 ≠ pos.x_1
    · simp [hx]
    · simp [hx]
  rw [he]
  show (∑ x in Finset.range N, if x ≠ pos.x_1 then N else 0) = (N - 1) * N
  exact sum_ite_ne_card N pos.x_1 N h

theorem length_correlatedColumn (N : Nat) (pos : Pos) (h : pos.y_1 < N) :
    (correlatedColumn N pos).length = (N - 1) * N := by
  unfold correlatedColumn
  rw [List.length_flatMap]
  have he : (List.range N).map (List.length ∘ fun y_1 =>
      if y_1 ≠ pos.y_1 then
        (List.range N).map fun y_2 => { pos with y_1 := y_1, y_2 := y_2 }
      else []) = (List.range N).map (fun y_1 => if y_1 ≠ pos.y_1 then N else 0) := by
    apply List.map_congr_left
    intro y_1 _
    by_cases hy : y_1 ≠ pos.y_1
    · simp [hy]
    · simp [hy]
  rw [he]
  show (∑ y in Finset.range N, if y ≠ pos.y_1 then N else 0) = (N - 1) * N
  exact sum_ite_ne_card N pos.y_1 N h

theorem length_correlatedSquare (N : Nat) (pos : Pos) (hy : pos.y_2 < N) (hx : pos.x_2 < N) :
    (correlatedSquare N pos).length = N * N - 1 := by
  unfold correlatedSquare
  rw [List.length_flatMap]
  have he : (List.range N).map (List.length ∘ fun y_2 =>
      (List.range N).flatMap fun x_2 =>
        if y_2 ≠ pos.y_2 ∨ x_2 ≠ pos.x_2 then [{ pos with y_2 := y_2, x_2 := x_2 }]
        else []) = (List.range N).map (fun y_2 => if y_2 ≠ pos.y_2 then N else N - 1) := by
    apply List.map_congr_left
    intro y_2 _
    simp only [Function.comp_apply]
    rw [List.length_flatMap]
    by_cases hyy : y_2 ≠ pos.y_2
    · have : (List.range N).map (List.length ∘ fun x_2 =>
          if y_2 ≠ pos.y_2 ∨ x_2 ≠ pos.x_2 then [{ pos with y_2 := y_2, x_2 := x_2 }]
          else []) = (List.range N).map (fun _ => 1) := by
        apply List.map_congr_left
        intro x_2 _
        simp [hyy]
      rw [this, if_pos hyy]
      simp [List.map_const]
    · have : (List.range N).map (List.length ∘ fun x_2 =>
          if y_2 ≠ pos.y_2 ∨ x_2 ≠ pos.x_2 then [{ pos with y_2 := y_2, x_2 := x_2 }]
          else []) = (List.range N).map (fun x_2 => if x_2 ≠ pos.x_2 then 1 else 0) := by
        apply List.map_congr_left
        intro x_2 _
        by_cases hxx : x_2 ≠ pos.x_2
        · simp [hxx]
        · simp [hxx, hyy]
      rw [this, if_neg hyy]
      show (∑ x in Finset.range N, if x ≠ pos.x_2 then 1 else 0) = N - 1
      rw [sum_ite_ne_card N pos.x_2 1 hx]
      omega
  rw [he]
  show (∑ y in Finset.range N, if y ≠ pos.y_2 then N else N - 1) = N * N - 1
  classical
  rw [Finset.sum_ite, Finset.sum_const, Finset.sum_const, Finset.filter_ne',
    Finset.card_erase_of_mem (Finset.mem_range.2 hy), Finset.card_range,
    smul_eq_mul, smul_eq_mul]
  have hfilter : ((Finset.range N).filter (fun y => ¬ y ≠ pos.y_2)).card = 1 := by
    have : (Finset.range N).filter (fun y => ¬ y ≠ pos.y_2) = {pos.y_2} := by
      apply Finset.ext
      intro y
      simp only [Finset.mem_filter, Finset.mem_range, Finset.mem_singleton, ne_eq, not_not]
      constructor
      · rintro ⟨_, h2⟩; exact h2
      · rintro rfl; exact ⟨hy, rfl⟩
    rw [this, Finset.card_singleton]
  rw [hfilter]
  have h1 : (N - 1) * N = N * N - N := by
    rw [Nat.sub_mul, Nat.one_mul]
  have h2 : N ≤ N * N := Nat.le_mul_of_pos_left N (by omega)
  rw [h1]
  omega

theorem length_correlated (N : Nat) (pos : Pos) (h : pos.Valid N) :
    (correlated N pos).length = 2 * (N * N - N) + (N * N - 1) := by
  obtain ⟨h1, h2, h3, h4⟩ := h
  unfold correlated
  rw [List.length_append, List.length_append,
    length_correlatedRow N pos h1, length_correlatedColumn N pos h3,
    length_correlatedSquare N pos h4 h2]
  have e1 : (N - 1) * N = N * N - N := by rw [Nat.sub_mul, Nat.one_mul]
  rw [e1]
  omega

theorem nodup_correlatedRow (N : Nat) (pos : Pos) : (correlatedRow N pos).Nodup := by
  unfold correlatedRow
  rw [List.nodup_flatMap]
  constructor
  · intro x_1 _
    by_cases hx : x_1 ≠ pos.x_1
    · rw [if_pos hx]
      refine List.Nodup.map ?_ (List.nodup_range N)
      intro a b hab
      cases pos
      simp_all
    · rw [if_neg hx]
      exact List.nodup_nil
  · have hlt := List.pairwise_lt_range N
    apply hlt.imp
    intro a b hab q hqa hqb
    beta_reduce at hqa hqb
    by_cases ha : a ≠ pos.x_1
    · rw [if_pos ha] at hqa
      by_cases hb : b ≠ pos.x_1
      · rw [if_pos hb] at hqb
        simp only [List.mem_map, List.mem_range] at hqa hqb
        rcases hqa with ⟨a2, _, rfl⟩
        rcases hqb with ⟨b2, _, he⟩
        cases pos
        simp_all
      · rw [if_neg hb] at hqb
        exact absurd hqb (List.not_mem_nil q)
    · rw [if_neg ha] at hqa
      exact absurd hqa (List.not_mem_nil q)

theorem nodup_correlatedColumn (N : Nat) (pos : Pos) : (correlatedColumn N pos).Nodup := by
  unfold correlatedColumn
  rw [List.nodup_flatMap]
  constructor
  · intro y_1 _
    by_cases hy : y_1 ≠ pos.y_1
    · rw [if_pos hy]
      refine List.Nodup.map ?_ (List.nodup_range N)
      intro a b hab
      cases pos
      simp_all
    · rw [if_neg hy]
      exact List.nodup_nil
  · have hlt := List.pairwise_lt_range N
    apply hlt.imp
    intro a b hab q hqa hqb
    beta_reduce at hqa hqb
    by_cases ha : a ≠ pos.y_1
    · rw [if_pos ha] at hqa
      by_cases hb : b ≠ pos.y_1
      · rw [if_pos hb] at hqb
        simp only [List.mem_map, List.mem_range] at hqa hqb
        rcases hqa with ⟨a2, _, rfl⟩
        rcases hqb with ⟨b2, _, he⟩
        cases pos
        simp_all
      · rw [if_neg hb] at hqb
        exact absurd hqb (List.not_mem_nil q)
    · rw [if_neg ha] at hqa
      exact absurd hqa (List.not_mem_nil q)

theorem nodup_correlatedSquare (N : Nat) (pos : Pos) : (correlatedSquare N pos).Nodup := by
  unfold correlatedSquare
  rw [List.nodup_flatMap]
  constructor
  · intro y_2 _
    rw [List.nodup_flatMap]
    constructor
    · intro x_2 _
      by_cases hc : y_2 ≠ pos.y_2 ∨ x_2 ≠ pos.x_2
      · rw [if_pos hc]
        exact List.nodup_singleton _
      · rw [if_neg hc]
        exact List.nodup_nil
    · have hlt := List.pairwise_lt_range N
      apply hlt.imp
      intro a b hab q hqa hqb
      beta_reduce at hqa hqb
      split at hqa
      · simp only [List.mem_singleton] at hqa
        split at hqb
        · simp only [List.mem_singleton] at hqb
          subst hqa
          cases pos
          simp_all
        · exact absurd hqb (List.not_mem_nil q)
      · exact absurd hqa (List.not_mem_nil q)
  · have hlt := List.pairwise_lt_range N
    apply hlt.imp
    intro a b hab q hqa hqb
    beta_reduce at hqa hqb
    simp only [List.mem_flatMap, List.mem_range] at hqa hqb
    rcases hqa with ⟨xa, _, hqa⟩
    rcases hqb with ⟨xb, _, hqb⟩
    split at hqa
    · simp only [List.mem_singleton] at hqa
      split at hqb
      · simp only [List.mem_singleton] at hqb
        subst hqa
        cases pos
        simp_all
      · exact absurd hqb (List.not_mem_nil q)
    · exact absurd hqa (List.not_mem_nil q)

theorem nodup_correlated (N : Nat) (pos : Pos) : (correlated N pos).Nodup := by
  unfold correlated
  rw [List.append_assoc, List.nodup_append]
  refine ⟨nodup_correlatedRow N pos, ?_, ?_⟩
  · rw [List.nodup_append]
    refine ⟨nodup_correlatedColumn N pos, nodup_correlatedSquare N pos, ?_⟩
    intro q hq hq2
    rw [mem_correlatedColumn] at hq
    rw [mem_correlatedSquare] at hq2
    exact absurd hq2.1 hq.2.2.2.1
  · intro q hq hq2
    rw [mem_correlatedRow] at hq
    rw [List.mem_append] at hq2
    rcases hq2 with hq2 | hq2
    · rw [mem_correlatedColumn] at hq2
      exact absurd hq2.1 hq.2.2.2.1
    · rw [mem_correlatedSquare] at hq2
      exact absurd hq2.2.1 hq.2.2.2.1

/-! ## The set bits of a `u64`, in ascending order (specification side of C7) -/

/-- The set bits of a `u64` bitset, lowest first. -/
def sortedBits (b : Nat) : List Nat := (List.range 64).filter (fun i => b.testBit i)

theorem testBit_ge (b i : Nat) (h : b.testBit i = true) : 2 ^ i ≤ b := by
  rw [Nat.testBit_to_div_mod] at h
  simp only [decide_eq_true_eq] at h
  by_contra hlt
  push_neg at hlt
  rw [Nat.div_eq_of_lt hlt] at h
  simp at h

theorem testBit_lt_64 (b i : Nat) (hb : b < U64) (h : b.testBit i = true) : i < 64 := by
  by_contra hge
  push_neg at hge
  have := testBit_ge b i h
  have : (2 : Nat) ^ 64 ≤ 2 ^ i := Nat.pow_le_pow_right (by omega) hge
  unfold U64 at hb
  omega

theorem mem_sortedBits (b i : Nat) : i ∈ sortedBits b ↔ i < 64 ∧ b.testBit i = true := by
  unfold sortedBits
  rw [List.mem_filter, List.mem_range]

theorem sortedBits_pairwise (b : Nat) : (sortedBits b).Pairwise (· < ·) :=
  (List.pairwise_lt_range 64).filter _

theorem sortedBits_nodup (b : Nat) : (sortedBits b).Nodup :=
  (sortedBits_pairwise b).imp Nat.ne_of_lt

theorem sortedBits_length (b : Nat) (h : b < U64) : (sortedBits b).length = popCount b := by
  rw [popCount_eq_card b h]
  unfold sortedBits
  rw [Finset.card, Finset.filter_val, Finset.range_val, Multiset.range, Multiset.filter_coe]
  simp

/-- Clearing the lowest set bit, as performed by `Cell::choose`'s loop and the
cell iterator. -/
def clearLowest (b : Nat) : Nat := b &&& u64not (1 <<< (trailing_zeros b % 64))

theorem trailing_zeros_lt_64 (b : Nat) (hb : b ≠ 0) (h : b < U64) : trailing_zeros b < 64 :=
  testBit_lt_64 b _ h (trailing_zeros_spec b hb h).1

theorem testBit_clearLowest (b i : Nat) (hb : b ≠ 0) (h : b < U64) :
    (clearLowest b).testBit i = (b.testBit i && decide (i ≠ trailing_zeros b)) := by
  have htz := trailing_zeros_lt_64 b hb h
  unfold clearLowest u64not
  rw [Nat.mod_eq_of_lt htz, Nat.shiftLeft_eq, Nat.one_mul]
  rw [Nat.testBit_land, Nat.testBit_xor]
  by_cases hi : i < 64
  · have h1 : Nat.testBit (U64 - 1) i = true := by
      unfold U64
      rw [Nat.testBit_two_pow_sub_one]
      simp [hi]
    rw [h1]
    by_cases he : i = trailing_zeros b
    · subst he
      rw [Nat.testBit_two_pow_self]
      simp
    · rw [Nat.testBit_two_pow_of_ne (fun hc => he hc.symm)]
      simp [he]
  · push_neg at hi
    have h1 : b.testBit i = false :=
      Nat.testBit_lt_two_pow (lt_of_lt_of_le h (Nat.pow_le_pow_right (by omega) hi))
    have h2 : Nat.testBit (2 ^ trailing_zeros b) i = false :=
      Nat.testBit_two_pow_of_ne (by omega)
    have h3 : Nat.testBit (U64 - 1) i = false := by
      unfold U64
      rw [Nat.testBit_two_pow_sub_one]
      simp
      omega
    rw [h1, h2, h3]
    simp

theorem sortedBits_cons (b : Nat) (hb : b ≠ 0) (h : b < U64) :
    sortedBits b = trailing_zeros b :: sortedBits (clearLowest b) := by
  have htz := trailing_zeros_lt_64 b hb h
  obtain ⟨htzbit, htzlow⟩ := trailing_zeros_spec b hb h
  have hsplit : List.range 64 =
      List.range' 0 (trailing_zeros b) ++
        (trailing_zeros b :: List.range' (trailing_zeros b + 1) (63 - trailing_zeros b)) := by
    rw [List.range_eq_range', ← List.range'_succ]
    have := List.range'_append 0 (trailing_zeros b) (64 - trailing_zeros b) 1
    simp only [Nat.one_mul, Nat.zero_add] at this
    rw [show 63 - trailing_zeros b + 1 = 64 - trailing_zeros b by omega, this]
    congr 1
    omega
  unfold sortedBits
  rw [hsplit]
  rw [List.filter_append, List.filter_append]
  have hleft : ∀ p : Nat → Bool, (∀ i, i < trailing_zeros b → p i = false) →
      (List.range' 0 (trailing_zeros b)).filter p = [] := by
    intro p hp
    rw [List.filter_eq_nil_iff]
    intro i hi
    rw [List.mem_range'_1] at hi
    rw [hp i (by omega)]
    simp
  rw [hleft _ (fun i hi => htzlow i hi),
    hleft _ (fun i hi => by
      rw [testBit_clearLowest b i hb h, htzlow i hi]
      simp)]
  simp only [List.nil_append, List.filter_cons]
  rw [htzbit]
  have hmid : Nat.testBit (clearLowest b) (trailing_zeros b) = false := by
    rw [testBit_clearLowest b _ hb h]
    simp
  rw [hmid]
  simp only [if_true, if_false]
  congr 1
  apply List.filter_congr
  intro i hi
  rw [List.mem_range'_1] at hi
  rw [testBit_clearLowest b i hb h]
  have : i ≠ trailing_zeros b := by omega
  simp [this]

theorem clearLowest_lt (b : Nat) (h : b < U64) : clearLowest b < U64 :=
  lt_of_le_of_lt (Nat.and_le_left) h

theorem popCount_clearLowest (b : Nat) (hb : b ≠ 0) (h : b < U64) :
    popCount (clearLowest b) = popCount b - 1 := by
  have h1 := sortedBits_length b h
  have h2 := sortedBits_length (clearLowest b) (clearLowest_lt b h)
  rw [sortedBits_cons b hb h] at h1
  simp only [List.length_cons] at h1
  omega

theorem choose_clearIter_succ (b j : Nat) :
    Cell.choose.clearIter b (j + 1) = Cell.choose.clearIter (clearLowest b) j := rfl

theorem choose_clearIter_get (j : Nat) : ∀ b, b < U64 → j < popCount b →
    (sortedBits b)[j]? = some (trailing_zeros (Cell.choose.clearIter b j)) := by
  induction j with
  | zero =>
    intro b hb hj
    have hne : b ≠ 0 := by
      intro he
      subst he
      simp [popCount, popCountAux] at hj
    rw [sortedBits_cons b hne hb, List.getElem?_cons_zero]
    rfl
  | succ j ih =>
    intro b hb hj
    have hne : b ≠ 0 := by
      intro he
      subst he
      simp [popCount, popCountAux] at hj
    rw [sortedBits_cons b hne hb, choose_clearIter_succ]
    have hpc := popCount_clearLowest b hne hb
    have := ih (clearLowest b) (clearLowest_lt b hb) (by omega)
    simpa using this

theorem size_pred_testBit (b : Nat) (hb : b ≠ 0) : b.testBit (Nat.size b - 1) = true := by
  have hs : 1 ≤ Nat.size b := by
    by_contra hc
    push_neg at hc
    interval_cases hsz : Nat.size b
    · rw [Nat.size_eq_zero] at hsz
      exact hb hsz
  have hlow : 2 ^ (Nat.size b - 1) ≤ b := Nat.lt_size.1 (by omega)
  have hhigh : b < 2 ^ Nat.size b := Nat.lt_size_self b
  rw [Nat.testBit_to_div_mod]
  have hdiv : b / 2 ^ (Nat.size b - 1) = 1 := by
    have h2 : b < 2 ^ (Nat.size b - 1) * 2 := by
      have : 2 ^ Nat.size b = 2 ^ (Nat.size b - 1) * 2 := by
        rw [← Nat.pow_succ]
        congr 1
        omega
      omega
    have hge : 1 ≤ b / 2 ^ (Nat.size b - 1) := (Nat.one_le_div_iff (Nat.pow_pos (by omega))).2 hlow
    have hlt : b / 2 ^ (Nat.size b - 1) < 2 := Nat.div_lt_of_lt_mul h2
    omega
  rw [hdiv]
  rfl

theorem testBit_lt_size (b i : Nat) (h : b.testBit i = true) : i < Nat.size b :=
  Nat.lt_size.2 (testBit_ge b i h)

theorem sortedBits_last (b : Nat) (hb : b ≠ 0) (h : b < U64) :
    (sortedBits b)[popCount b - 1]? = some (Nat.size b - 1) := by
  have hlen := sortedBits_length b h
  have hm : 1 ≤ popCount b := by
    by_contra hc
    push_neg at hc
    interval_cases hpc : popCount b
    · exact hb ((popCount_eq_zero b h).1 hpc)
  have hmem : Nat.size b - 1 ∈ sortedBits b := by
    rw [mem_sortedBits]
    constructor
    · have : Nat.size b ≤ 64 := Nat.size_le.2 h
      omega
    · exact size_pred_testBit b hb
  have hmax : ∀ y ∈ sortedBits b, y ≤ Nat.size b - 1 := by
    intro y hy
    rw [mem_sortedBits] at hy
    have := testBit_lt_size b y hy.2
    omega
  rcases List.mem_iff_get.1 hmem with ⟨i, hi⟩
  have hieq : i.val = popCount b - 1 := by
    by_contra hne
    have hilt : i.val < popCount b - 1 := by
      have := i.isLt
      omega
    have hlast : (sortedBits b).get ⟨popCount b - 1, by omega⟩ ∈ sortedBits b :=
      List.get_mem _ _ _
    have := List.pairwise_iff_get.1 (sortedBits_pairwise b) i ⟨popCount b - 1, by omega⟩
      (by simp only [Fin.mk_lt_mk, Fin.lt_def]; omega)
    rw [hi] at this
    have := hmax _ hlast
    omega
  rw [List.getElem?_eq_getElem (by omega), ← hi]
  refine congrArg some ?_
  rw [List.get_eq_getElem]
  congr 1
  omega

theorem popCount_ne_zero_of_le (b m : Nat) (h : m ≤ popCount b) (hm : 1 ≤ m) : b ≠ 0 := by
  intro he
  subst he
  simp [popCount, popCountAux] at h
  omega

theorem choose_eq_getElem (N : Nat) (c : Cell N) (hb : c.bitset < U64) (h2 : 2 ≤ c.len)
    (k : Nat) (hk : k < c.len) :
    c.choose k =
      (sortedBits c.bitset)[if k = 0 then 0 else if k = 1 then c.len - 1 else k - 1]? := by
  unfold Cell.len at h2 hk
  have hne : c.bitset ≠ 0 := popCount_ne_zero_of_le c.bitset 2 h2 (by omega)
  obtain ⟨m, hm⟩ : ∃ m, popCount c.bitset = m + 2 := ⟨popCount c.bitset - 2, by omega⟩
  unfold Cell.choose Cell.len
  rw [hm]
  match k with
  | 0 =>
    show some (trailing_zeros c.bitset) = _
    rw [if_pos rfl]
    rw [sortedBits_cons c.bitset hne hb, List.getElem?_cons_zero]
  | 1 =>
    show some (63 - leading_zeros c.bitset) = _
    rw [if_neg (by omega), if_pos rfl]
    have hsle : Nat.size c.bitset ≤ 64 := Nat.size_le.2 hb
    have hsge : 1 ≤ Nat.size c.bitset := by
      by_contra hc
      push_neg at hc
      interval_cases hsz : Nat.size c.bitset
      · exact hne (Nat.size_eq_zero.1 hsz)
    have heq : 63 - leading_zeros c.bitset = Nat.size c.bitset - 1 := by
      unfold leading_zeros
      omega
    have hlast := sortedBits_last c.bitset hne hb
    rw [hm] at hlast
    rw [heq]
    exact hlast.symm
  | j + 2 =>
    show some (trailing_zeros (Cell.choose.clearIter c.bitset (j + 1))) = _
    rw [if_neg (by omega), if_neg (by omega)]
    have := choose_clearIter_get (j + 1) c.bitset hb (by omega)
    rw [show j + 2 - 1 = j + 1 by omega, this]

/-- C7: `Cell::choose` (claim theorem below assembles all the pieces). -/
theorem choose_none_iff (N : Nat) (c : Cell N) (k : Nat) :
    c.choose k = none ↔ c.len = 0 := by
  unfold Cell.choose Cell.len
  cases hm : popCount c.bitset with
  | zero => simp
  | succ n =>
    cases n with
    | zero => simp
    | succ n2 =>
      match k with
      | 0 => simp
      | 1 => simp
      | j + 2 => simp

theorem choose_mem (N : Nat) (c : Cell N) (hb : c.bitset < U64) (k : Nat) (hk : k < c.len) :
    ∃ v, c.choose k = some v ∧ c.bitset.testBit v = true := by
  by_cases h2 : 2 ≤ c.len
  · have hch := choose_eq_getElem N c hb h2 k hk
    set j := if k = 0 then 0 else if k = 1 then c.len - 1 else k - 1 with hj
    have hjlt : j < (sortedBits c.bitset).length := by
      rw [sortedBits_length c.bitset hb]
      unfold Cell.len at *
      rw [hj]
      split
      · omega
      · split <;> omega
    rw [List.getElem?_eq_getElem hjlt] at hch
    refine ⟨(sortedBits c.bitset)[j], hch, ?_⟩
    have hmem : (sortedBits c.bitset)[j] ∈ sortedBits c.bitset := List.getElem_mem hjlt
    exact ((mem_sortedBits _ _).1 hmem).2
  · have h1 : c.len = 1 := by
      unfold Cell.len at *
      by_contra hc
      have h0 : popCount c.bitset = 0 := by omega
      omega
    have hne : c.bitset ≠ 0 := by
      intro he
      unfold Cell.len at h1
      rw [he] at h1
      simp [popCount, popCountAux] at h1
    refine ⟨trailing_zeros c.bitset, ?_, (trailing_zeros_spec c.bitset hne hb).1⟩
    unfold Cell.len at h1
    unfold Cell.choose
    rw [h1]

theorem choose_inj (N : Nat) (c : Cell N) (hb : c.bitset < U64) (h2 : 2 ≤ c.len)
    (k1 k2 : Nat) (hk1 : k1 < c.len) (hk2 : k2 < c.len)
    (he : c.choose k1 = c.choose k2) : k1 = k2 := by
  rw [choose_eq_getElem N c hb h2 k1 hk1, choose_eq_getElem N c hb h2 k2 hk2] at he
  have hlen := sortedBits_length c.bitset hb
  have hnd := sortedBits_nodup c.bitset
  set j1 := if k1 = 0 then 0 else if k1 = 1 then c.len - 1 else k1 - 1 with hj1
  set j2 := if k2 = 0 then 0 else if k2 = 1 then c.len - 1 else k2 - 1 with hj2
  have hjl1 : j1 < (sortedBits c.bitset).length := by
    rw [hlen]; unfold Cell.len at *; rw [hj1]; split
    · omega
    · split <;> omega
  have hjl2 : j2 < (sortedBits c.bitset).length := by
    rw [hlen]; unfold Cell.len at *; rw [hj2]; split
    · omega
    · split <;> omega
  rw [List.getElem?_eq_getElem hjl1, List.getElem?_eq_getElem hjl2] at he
  have hgete : (sortedBits c.bitset).get ⟨j1, hjl1⟩ = (sortedBits c.bitset).get ⟨j2, hjl2⟩ := by
    simpa using he
  have hje : j1 = j2 := by
    have := List.nodup_iff_injective_get.1 hnd hgete
    simpa using this
  unfold Cell.len at *
  rw [hj1, hj2] at hje
  split_ifs at hje <;> omega

theorem choose_surj (N : Nat) (c : Cell N) (hb : c.bitset < U64) (h2 : 2 ≤ c.len)
    (v : Nat) (hv : c.bitset.testBit v = true) : ∃ k, k < c.len ∧ c.choose k = some v := by
  have hlen := sortedBits_length c.bitset hb
  have hmem : v ∈ sortedBits c.bitset := by
    rw [mem_sortedBits]
    exact ⟨testBit_lt_64 c.bitset v hb hv, hv⟩
  rcases List.mem_iff_get.1 hmem with ⟨i, hi⟩
  have hilen : i.val < c.len := by
    have := i.isLt
    unfold Cell.len
    omega
  -- invert the index map
  by_cases hi0 : i.val = 0
  · refine ⟨0, by omega, ?_⟩
    rw [choose_eq_getElem N c hb h2 0 (by omega), if_pos rfl,
      List.getElem?_eq_getElem (by omega)]
    refine congrArg some ?_
    rw [← hi, List.get_eq_getElem]
    congr 1
    omega
  · by_cases hitop : i.val = c.len - 1
    · refine ⟨1, by omega, ?_⟩
      rw [choose_eq_getElem N c hb h2 1 (by omega), if_neg (by omega), if_pos rfl,
        List.getElem?_eq_getElem (by rw [hlen]; unfold Cell.len at *; omega)]
      refine congrArg some ?_
      rw [← hi, List.get_eq_getElem]
      congr 1 <;> omega
    · refine ⟨i.val + 1, by omega, ?_⟩
      rw [choose_eq_getElem N c hb h2 (i.val + 1) (by omega), if_neg (by omega),
        if_neg (by omega), List.getElem?_eq_getElem (by omega)]
      refine congrArg some ?_
      rw [← hi, List.get_eq_getElem]
      congr 1 <;> omega

/-! ## Claim C7 -/

/-- C7: for every `Cell<N>` (a `u64` bitset), `choose` returns `none` exactly
when no bit is set; any in-range rng draw `k < len` yields a set bit; for
`len ≥ 2` the draw-to-value map is `k = 0 ↦` lowest set bit (`sortedBits[0]`),
`k = 1 ↦` highest set bit (`sortedBits[len-1]`), `k ≥ 2 ↦` the `(k-1)`-th
lowest set bit, and this map is injective on `0..len` and onto the set bits —
a bijection, so a uniform draw yields a uniform choice over the current set
bits. -/
theorem claim_C7 (N : Nat) (c : Cell N) (hb : c.bitset < U64) :
    (∀ k, c.choose k = none ↔ c.len = 0) ∧
    (∀ k, k < c.len → ∃ v, c.choose k = some v ∧ c.bitset.testBit v = true) ∧
    (2 ≤ c.len → ∀ k, k < c.len →
      c.choose k =
        (sortedBits c.bitset)[if k = 0 then 0 else if k = 1 then c.len - 1 else k - 1]?) ∧
    (2 ≤ c.len → ∀ k1 k2, k1 < c.len → k2 < c.len → c.choose k1 = c.choose k2 → k1 = k2) ∧
    (2 ≤ c.len → ∀ v, c.bitset.testBit v = true → ∃ k, k < c.len ∧ c.choose k = some v) :=
  ⟨fun k => choose_none_iff N c k,
   fun k hk => choose_mem N c hb k hk,
   fun h2 k hk => choose_eq_getElem N c hb h2 k hk,
   fun h2 k1 k2 hk1 hk2 he => choose_inj N c hb h2 k1 k2 hk1 hk2 he,
   fun h2 v hv => choose_surj N c hb h2 v hv⟩

/-- C7 witness: the cell `{0,2,3,5}` (bitset 45) in a 9-value domain. -/
theorem claim_C7_witness :
    (Cell.mk 45 : Cell 3).bitset < U64 ∧
    (∃ k, k < (Cell.mk 45 : Cell 3).len ∧ (Cell.mk 45 : Cell 3).choose k = some 5) :=
  ⟨by decide, (claim_C7 3 (Cell.mk 45) (by decide)).2.2.2.2 (by decide) 5 (by decide)⟩

/-! ## Claim C8 (corrected count) -/

/-- C8 counterexample: at `N = 2` the `correlated` sequence has 7 positions,
not `3·(N²−N) = 6` as claimed. -/
theorem claim_C8_counterexample :
    ¬ ((correlated 2 ⟨0, 0, 0, 0⟩).length = 3 * (2 * 2 - 2)) := by decide

/-- C8 (amended): for every `N` and valid `pos`, `correlated::<N>(pos)` yields
exactly the `2·(N²−N) + (N²−1)` positions sharing `pos`'s row (excluding its
row chunk), sharing its column (excluding its column chunk), or sharing its
box (excluding `pos` itself); no position is yielded twice and `pos` itself is
never yielded. -/
theorem claim_C8 (N : Nat) (pos : Pos) (hpos : pos.Valid N) :
    (correlated N pos).length = 2 * (N * N - N) + (N * N - 1) ∧
    (correlated N pos).Nodup ∧
    pos ∉ correlated N pos ∧
    (∀ q, q ∈ correlated N pos ↔
      ((q.y_1 = pos.y_1 ∧ q.y_2 = pos.y_2 ∧ q.x_1 < N ∧ q.x_1 ≠ pos.x_1 ∧ q.x_2 < N) ∨
       (q.x_1 = pos.x_1 ∧ q.x_2 = pos.x_2 ∧ q.y_1 < N ∧ q.y_1 ≠ pos.y_1 ∧ q.y_2 < N) ∨
       (q.y_1 = pos.y_1 ∧ q.x_1 = pos.x_1 ∧ q.y_2 < N ∧ q.x_2 < N ∧ q ≠ pos))) :=
  ⟨length_correlated N pos hpos, nodup_correlated N pos, self_not_mem_correlated N pos,
   fun q => mem_correlated N pos q⟩

theorem claim_C8_witness :
    (⟨0, 0, 0, 0⟩ : Pos).Valid 2 ∧ (correlated 2 ⟨0, 0, 0, 0⟩).length = 2 * (2 * 2 - 2) + (2 * 2 - 1) :=
  ⟨by decide, (claim_C8 2 ⟨0, 0, 0, 0⟩ (by decide)).1⟩

/-! ## Claim C9 -/

/-- C9: every position produced by `Pos::iter` has all four components below
`N`; `correlated` maps valid positions to valid positions; and a valid
position's flattened index into the `N×N×N×N` arrays is in bounds, so the
`get_unchecked` chains of the `Index<Pos>`/`IndexMut<Pos>` implementations
stay in bounds. -/
theorem claim_C9 (N : Nat) :
    (∀ q, q ∈ Pos.iterList N → q.Valid N) ∧
    (∀ pos, pos.Valid N → ∀ q, q ∈ correlated N pos → q.Valid N) ∧
    (∀ p : Pos, p.Valid N → p.idx N < N * N * N * N) :=
  ⟨fun q hq => (Pos.mem_iterList N q).1 hq,
   fun pos hpos q hq => mem_correlated_valid N pos q hpos hq,
   fun p hp => Pos.idx_lt N p hp⟩

theorem claim_C9_witness :
    (⟨0, 1, 2, 0⟩ : Pos).Valid 3 ∧ (⟨0, 1, 2, 0⟩ : Pos).idx 3 < 3 * 3 * 3 * 3 :=
  ⟨by decide, (claim_C9 3).2.2 ⟨0, 1, 2, 0⟩ (by decide)⟩

/-! ## Claim C10 -/

/-- C10: `Cell::from_char` accepts exactly the 64 table symbols plus the
wildcard `'_'`, independently of `N`; the value 35 is the table entry for
`'0'`; and for every `N < 8` some accepted symbol maps to a value `v ≥ N²`,
for which `from_char` returns the single-bit cell `1 << v` lying entirely
outside `FULL` instead of rejecting the symbol. -/
theorem claim_C10 :
    (∀ N M : Nat, ∀ c : Char, (Cell.from_char N c = none) ↔ (Cell.from_char M c = none)) ∧
    (∀ N : Nat, ∀ c : Char, Cell.from_char N c = none ↔ Cell.charTable.lookup c = none ∧ c ≠ '_') ∧
    Cell.charTable.lookup '0' = some 35 ∧
    (∀ N : Nat, N < 8 → ∃ c v, Cell.charTable.lookup c = some v ∧ N * N ≤ v ∧
      Cell.from_char N c = some (Cell.from_value N v) ∧
      Nat.land (Cell.from_value N v).bitset (Cell.FULL N).bitset = 0) := by
  have key : ∀ N : Nat, ∀ c : Char,
      Cell.from_char N c = none ↔ Cell.charTable.lookup c = none ∧ c ≠ '_' := by
    intro N c
    unfold Cell.from_char
    cases h : Cell.charTable.lookup c with
    | some v => simp
    | none =>
      by_cases hc : c = '_'
      · simp [hc]
      · simp [hc]
  refine ⟨fun N M c => by rw [key N c, key M c], key, by decide, ?_⟩
  intro N hN
  refine ⟨'พ', 63, by decide, ?_, ?_, ?_⟩
  · interval_cases N <;> decide
  · unfold Cell.from_char
    have hl : Cell.charTable.lookup 'พ' = some 63 := by decide
    rw [hl]
  · interval_cases N <;> decide

theorem claim_C10_witness :
    ∃ c v, Cell.charTable.lookup c = some v ∧ 5 * 5 ≤ v ∧
      Cell.from_char 5 c = some (Cell.from_value 5 v) ∧
      Nat.land (Cell.from_value 5 v).bitset (Cell.FULL 5).bitset = 0 :=
  claim_C10.2.2.2 5 (by decide)

/-! ## Claim C6: `best` equals `long_best` on histogram-consistent grids -/

/-- Histogram consistency: bucket flat index `i` (i.e. `buckets[i/N][i%N]`)
holds the number of cells whose domain currently has `i + 1` candidates —
the invariant a fresh recount would establish. -/
def Consistent (N : Nat) (s : Sudoku N) : Prop :=
  ∀ i, i < N * N →
    s.bucketGet i = (Pos.iterList N).countP (fun p => (s.get p).len == i + 1)

instance (N : Nat) (s : Sudoku N) : Decidable (Consistent N s) := by
  unfold Consistent
  infer_instance

theorem find?_range'_eq_some (p : Nat → Bool) (i : Nat) :
    ∀ n s, ((List.range' s n).find? p = some i ↔
      (s ≤ i ∧ i < s + n ∧ p i = true ∧ ∀ j, s ≤ j → j < i → p j = false)) := by
  intro n
  induction n with
  | zero =>
    intro s
    constructor
    · intro h
      simp [List.range'] at h
    · rintro ⟨h1, h2, _, _⟩
      omega
  | succ n ih =>
    intro s
    rw [List.range'_succ, List.find?_cons]
    by_cases hs : p s = true
    · rw [hs]
      constructor
      · rintro h
        injection h with h
        subst h
        exact ⟨Nat.le_refl s, by omega, hs, fun j h1 h2 => by omega⟩
      · rintro ⟨h1, h2, h3, h4⟩
        have : s = i := by
          by_contra hne
          have := h4 s (Nat.le_refl s) (by omega)
          rw [hs] at this
          exact absurd this (by simp)
        rw [this]
    · have hs2 : p s = false := by
        revert hs
        cases p s <;> simp
      rw [hs2]
      rw [ih (s + 1)]
      constructor
      · rintro ⟨h1, h2, h3, h4⟩
        refine ⟨by omega, by omega, h3, ?_⟩
        intro j hj1 hj2
        by_cases hjs : j = s
        · rw [hjs]; exact hs2
        · exact h4 j (by omega) hj2
      · rintro ⟨h1, h2, h3, h4⟩
        have hsi : s ≠ i := by
          intro he
          rw [← he, hs2] at h3
          exact absurd h3 (by simp)
        exact ⟨by omega, by omega, h3, fun j hj1 hj2 => h4 j (by omega) hj2⟩

theorem flatMap_range'_mul (N : Nat) :
    ∀ k a, (List.range' a k).flatMap (fun v => List.range' (v * N) N) =
      List.range' (a * N) (k * N) := by
  intro k
  induction k with
  | zero =>
    intro a
    simp
  | succ k ih =>
    intro a
    rw [List.range'_succ, List.flatMap_cons, ih (a + 1)]
    have := List.range'_append (a * N) N (k * N) 1
    simp only [Nat.one_mul] at this
    rw [show (a + 1) * N = a * N + N by ring, this]
    congr 1
    ring

/-- The two-phase bucket scan of `best` is a single ascending scan of flat
indices `1 .. N*N-1`. -/
theorem best_eq_single_scan (N : Nat) (s : Sudoku N) :
    s.best = match (List.range' 1 (N * N - 1)).find? (fun i => s.bucketGet i != 0) with
      | some i => i + 1
      | none => 1 := by
  unfold Sudoku.best
  by_cases hN : N = 0
  · subst hN
    simp [List.range']
  have hsplit : List.range' 1 (N * N - 1) =
      List.range' 1 (N - 1) ++ List.range' N ((N - 1) * N) := by
    have := List.range'_append 1 (N - 1) ((N - 1) * N) 1
    simp only [Nat.one_mul] at this
    rw [show 1 + (N - 1) = N by omega] at this
    rw [this]
    congr 1
    have : (N - 1) * N = N * N - N := by rw [Nat.sub_mul, Nat.one_mul]
    have h2 : N ≤ N * N := Nat.le_mul_of_pos_left N (by omega)
    omega
  have hpairs : (((List.range' 1 (N - 1)).flatMap fun v_1 =>
      (List.range N).map fun v_2 => (v_1, v_2)).map (fun q : Nat × Nat => q.1 * N + q.2)) =
      List.range' N ((N - 1) * N) := by
    rw [List.map_flatMap]
    have he : ∀ v_1, (((List.range N).map fun v_2 => (v_1, v_2)).map
        (fun q : Nat × Nat => q.1 * N + q.2)) = List.range' (v_1 * N) N := by
      intro v_1
      rw [List.map_map, List.range'_eq_map_range]
      apply List.map_congr_left
      intro x _
      simp [Nat.add_comm]
    have : (fun v_1 => (((List.range N).map fun v_2 => (v_1, v_2)).map
        (fun q : Nat × Nat => q.1 * N + q.2))) = fun v_1 => List.range' (v_1 * N) N := by
      funext v_1
      exact he v_1
    rw [show ((List.range' 1 (N - 1)).flatMap fun v_1 =>
        (((List.range N).map fun v_2 => (v_1, v_2)).map (fun q : Nat × Nat => q.1 * N + q.2))) =
        (List.range' 1 (N - 1)).flatMap (fun v_1 => List.range' (v_1 * N) N) by
      rw [this]]
    rw [flatMap_range'_mul N (N - 1) 1, Nat.one_mul]
  rw [hsplit, List.find?_append]
  have hcomp : ((fun i => s.bucketGet i != 0) ∘ fun q : Nat × Nat => q.1 * N + q.2) =
      (fun q : Nat × Nat => s.bucketGet (q.1 * N + q.2) != 0) := rfl
  cases h1 : (List.range' 1 (N - 1)).find? (fun i => s.bucketGet i != 0) with
  | some v_2 => rfl
  | none =>
    have hmapped := List.find?_map (fun q : Nat × Nat => q.1 * N + q.2)
      ((List.range' 1 (N - 1)).flatMap fun v_1 => (List.range N).map fun v_2 => (v_1, v_2))
      (p := fun i => s.bucketGet i != 0)
    rw [hpairs, hcomp] at hmapped
    rw [hmapped]
    cases h2 : ((List.range' 1 (N - 1)).flatMap fun v_1 =>
        (List.range N).map fun v_2 => (v_1, v_2)).find?
        (fun q : Nat × Nat => s.bucketGet (q.1 * N + q.2) != 0) with
    | some q => rfl
    | none => rfl

theorem long_best_foldl_spec (N : Nat) (s : Sudoku N) :
    ∀ (l : List Pos) (M : Nat),
      (l.foldl (fun min pos =>
          let len := (s.get pos).len
          if 1 < len ∧ len < min then len else min) M) ≤ M ∧
      ((l.foldl (fun min pos =>
          let len := (s.get pos).len
          if 1 < len ∧ len < min then len else min) M) = M ∨
        ∃ p ∈ l, (s.get p).len = (l.foldl (fun min pos =>
          let len := (s.get pos).len
          if 1 < len ∧ len < min then len else min) M) ∧
          1 < (l.foldl (fun min pos =>
            let len := (s.get pos).len
            if 1 < len ∧ len < min then len else min) M)) ∧
      (∀ p ∈ l, 1 < (s.get p).len → (l.foldl (fun min pos =>
          let len := (s.get pos).len
          if 1 < len ∧ len < min then len else min) M) ≤ (s.get p).len) := by
  intro l
  induction l with
  | nil =>
    intro M
    refine ⟨Nat.le_refl M, Or.inl rfl, ?_⟩
    intro p hp
    exact absurd hp (List.not_mem_nil p)
  | cons pos rest ih =>
    intro M
    rw [List.foldl_cons]
    by_cases hcond : 1 < (s.get pos).len ∧ (s.get pos).len < M
    · have hstep : (let len := (s.get pos).len
          if 1 < len ∧ len < M then len else M) = (s.get pos).len := by
        show (if 1 < (s.get pos).len ∧ (s.get pos).len < M then (s.get pos).len else M) = _
        rw [if_pos hcond]
      rw [hstep]
      rcases ih ((s.get pos).len) with ⟨ih1, ih2, ih3⟩
      refine ⟨by omega, ?_, ?_⟩
      · rcases ih2 with he | ⟨p, hp, h1, h2⟩
        · exact Or.inr ⟨pos, List.mem_cons_self pos rest, he.symm, by omega⟩
        · exact Or.inr ⟨p, List.mem_cons_of_mem pos hp, h1, h2⟩
      · intro p hp hlen
        rcases List.mem_cons.1 hp with rfl | hp2
        · omega
        · exact ih3 p hp2 hlen
    · have hstep : (let len := (s.get pos).len
          if 1 < len ∧ len < M then len else M) = M := by
        show (if 1 < (s.get pos).len ∧ (s.get pos).len < M then (s.get pos).len else M) = _
        rw [if_neg hcond]
      rw [hstep]
      rcases ih M with ⟨ih1, ih2, ih3⟩
      refine ⟨ih1, ?_, ?_⟩
      · rcases ih2 with he | ⟨p, hp, h1, h2⟩
        · exact Or.inl he
        · exact Or.inr ⟨p, List.mem_cons_of_mem pos hp, h1, h2⟩
      · intro p hp hlen
        rcases List.mem_cons.1 hp with rfl | hp2
        · push_neg at hcond
          have := hcond hlen
          omega
        · exact ih3 p hp2 hlen

theorem bucket_ne_zero_iff (N : Nat) (s : Sudoku N) (hcons : Consistent N s)
    (i : Nat) (hi : i < N * N) :
    s.bucketGet i ≠ 0 ↔ ∃ p : Pos, p.Valid N ∧ (s.get p).len = i + 1 := by
  rw [hcons i hi]
  constructor
  · intro h
    rcases List.countP_pos_iff.1 (Nat.pos_of_ne_zero h) with ⟨p, hp, hpred⟩
    refine ⟨p, (Pos.mem_iterList N p).1 hp, ?_⟩
    simpa using hpred
  · rintro ⟨p, hp, hlen⟩
    intro hzero
    rw [List.countP_eq_zero] at hzero
    have := hzero p ((Pos.mem_iterList N p).2 hp)
    simp [hlen] at this

theorem best_min_spec (N : Nat) (s : Sudoku N) (hcons : Consistent N s)
    (hhigh : ∀ p : Pos, p.Valid N → (s.get p).len ≤ N * N)
    (p0 : Pos) (hp0 : p0.Valid N) (h2 : 2 ≤ (s.get p0).len) :
    (∃ p : Pos, p.Valid N ∧ (s.get p).len = s.best) ∧ 2 ≤ s.best ∧
      (∀ p : Pos, p.Valid N → 2 ≤ (s.get p).len → s.best ≤ (s.get p).len) := by
  have hNN : 2 ≤ N * N := le_trans h2 (hhigh p0 hp0)
  have hfind : ∃ i, (List.range' 1 (N * N - 1)).find? (fun i => s.bucketGet i != 0) = some i := by
    cases hf : (List.range' 1 (N * N - 1)).find? (fun i => s.bucketGet i != 0) with
    | some i => exact ⟨i, rfl⟩
    | none =>
      exfalso
      rw [List.find?_eq_none] at hf
      have hj : (s.get p0).len - 1 ∈ List.range' 1 (N * N - 1) := by
        rw [List.mem_range'_1]
        have := hhigh p0 hp0
        omega
      have := hf _ hj
      have hb : s.bucketGet ((s.get p0).len - 1) ≠ 0 := by
        rw [bucket_ne_zero_iff N s hcons _ (by have := hhigh p0 hp0; omega)]
        exact ⟨p0, hp0, by omega⟩
      simp [hb] at this
  rcases hfind with ⟨i, hi⟩
  have hbest : s.best = i + 1 := by
    rw [best_eq_single_scan, hi]
  rcases (find?_range'_eq_some _ i (N * N - 1) 1).1 hi with ⟨hge, hlt, hp, hmin⟩
  have hwit : ∃ p : Pos, p.Valid N ∧ (s.get p).len = i + 1 := by
    rw [← bucket_ne_zero_iff N s hcons i (by omega)]
    simpa using hp
  refine ⟨by rw [hbest]; exact hwit, by omega, ?_⟩
  intro p hpv hp2
  rw [hbest]
  by_contra hc
  push_neg at hc
  have hj : s.bucketGet ((s.get p).len - 1) ≠ 0 := by
    rw [bucket_ne_zero_iff N s hcons _ (by have := hhigh p hpv; omega)]
    exact ⟨p, hpv, by omega⟩
  have := hmin ((s.get p).len - 1) (by omega) (by omega)
  simp [hj] at this

theorem best_all_singleton (N : Nat) (s : Sudoku N) (hcons : Consistent N s)
    (hnone : ∀ p : Pos, p.Valid N → ¬ 2 ≤ (s.get p).len) : s.best = 1 := by
  rw [best_eq_single_scan]
  have hf : (List.range' 1 (N * N - 1)).find? (fun i => s.bucketGet i != 0) = none := by
    rw [List.find?_eq_none]
    intro j hj
    rw [List.mem_range'_1] at hj
    have hb : s.bucketGet j = 0 := by
      by_contra hne
      rcases (bucket_ne_zero_iff N s hcons j (by omega)).1 hne with ⟨p, hpv, hlen⟩
      exact hnone p hpv (by omega)
    simp [hb]
  rw [hf]

/-- C6: on every grid whose histogram is consistent with a fresh recount and
whose cells all hold between 1 and `N²` candidates, the `O(N)` bucket scan
`best()` returns the smallest candidate count `≥ 2` present in any cell
(with a witness cell at that count) when one exists, and `1` when every cell
is a singleton; in particular it coincides with the naive full scan
`long_best()`. -/
theorem claim_C6 (N : Nat) (s : Sudoku N) (hcons : Consistent N s)
    (hlow : ∀ p ∈ Pos.iterList N, 1 ≤ (s.get p).len)
    (hhighm : ∀ p ∈ Pos.iterList N, (s.get p).len ≤ N * N) :
    s.best = s.long_best ∧
    (∀ p0 : Pos, p0.Valid N → 2 ≤ (s.get p0).len →
      (∃ p : Pos, p.Valid N ∧ (s.get p).len = s.best) ∧ 2 ≤ s.best ∧
        (∀ p : Pos, p.Valid N → 2 ≤ (s.get p).len → s.best ≤ (s.get p).len)) ∧
    ((∀ p : Pos, p.Valid N → (s.get p).len = 1) → s.best = 1) := by
  have hhigh : ∀ p : Pos, p.Valid N → (s.get p).len ≤ N * N :=
    fun p hv => hhighm p ((Pos.mem_iterList N p).2 hv)
  refine ⟨?_, fun p0 hp0 h2 => best_min_spec N s hcons hhigh p0 hp0 h2, ?_⟩
  · rcases long_best_foldl_spec N s (Pos.iterList N) (N * N + 1) with ⟨hle, hwit, hmin⟩
    have hlb : s.long_best = (if (Pos.iterList N).foldl (fun min pos =>
        let len := (s.get pos).len
        if 1 < len ∧ len < min then len else min) (N * N + 1) = N * N + 1 then 1
      else (Pos.iterList N).foldl (fun min pos =>
        let len := (s.get pos).len
        if 1 < len ∧ len < min then len else min) (N * N + 1)) := rfl
    by_cases hex : ∃ p0 : Pos, p0.Valid N ∧ 2 ≤ (s.get p0).len
    · rcases hex with ⟨p0, hp0, h2⟩
      rcases best_min_spec N s hcons hhigh p0 hp0 h2 with ⟨⟨pb, hpbv, hpbl⟩, hb2, hbmin⟩
      have hrle : (Pos.iterList N).foldl (fun min pos =>
          let len := (s.get pos).len
          if 1 < len ∧ len < min then len else min) (N * N + 1) ≤ (s.get p0).len :=
        hmin p0 ((Pos.mem_iterList N p0).2 hp0) (by omega)
      have hrne : (Pos.iterList N).foldl (fun min pos =>
          let len := (s.get pos).len
          if 1 < len ∧ len < min then len else min) (N * N + 1) ≠ N * N + 1 := by
        have := hhigh p0 hp0
        omega
      rcases hwit with he | ⟨p, hpmem, hpl, hr1⟩
      · exact absurd he hrne
      have hpv := (Pos.mem_iterList N p).1 hpmem
      rw [hlb, if_neg hrne]
      -- best ≤ r via minimality at the fold witness; r ≤ best via the fold bound at pb
      have h1 : s.best ≤ (Pos.iterList N).foldl (fun min pos =>
          let len := (s.get pos).len
          if 1 < len ∧ len < min then len else min) (N * N + 1) := by
        rw [← hpl]
        exact hbmin p hpv (by rw [hpl]; omega)
      have h2b : (Pos.iterList N).foldl (fun min pos =>
          let len := (s.get pos).len
          if 1 < len ∧ len < min then len else min) (N * N + 1) ≤ s.best := by
        rw [← hpbl]
        exact hmin pb ((Pos.mem_iterList N pb).2 hpbv) (by rw [hpbl]; omega)
      omega
    · push_neg at hex
      have hbest1 : s.best = 1 :=
        best_all_singleton N s hcons (fun p hv => by have := hex p hv; omega)
      rcases hwit with he | ⟨p, hpmem, hpl, hr1⟩
      · rw [hlb, if_pos he]
        exact hbest1
      · exfalso
        have hpv := (Pos.mem_iterList N p).1 hpmem
        have := hex p hpv
        omega
  · intro hall
    apply best_all_singleton N s hcons
    intro p hpv
    rw [hall p hpv]
    omega

theorem claim_C6_witness :
    Consistent 2 (Sudoku.default 2) ∧ (Sudoku.default 2).best = (Sudoku.default 2).long_best :=
  ⟨by decide, (claim_C6 2 (Sudoku.default 2) (by decide) (by decide) (by decide)).1⟩

/-! ## List update helpers -/

theorem getD_set_self (l : List α) (i : Nat) (a d : α) (h : i < l.length) :
    (l.set i a).getD i d = a := by
  simp [List.getD_eq_getElem?_getD, List.getElem?_set_self, h]

theorem getD_set_ne (l : List α) (i j : Nat) (a d : α) (h : i ≠ j) :
    (l.set i a).getD j d = l.getD j d := by
  simp [List.getD_eq_getElem?_getD, List.getElem?_set_ne h]

theorem set_getD_self (l : List α) (i : Nat) (d : α) (h : i < l.length) :
    l.set i (l.getD i d) = l := by
  apply List.ext_getElem?
  intro n
  by_cases hn : n = i
  · subst hn
    simp [List.getElem?_set_self, h, List.getD_eq_getElem?_getD, List.getElem?_eq_getElem h]
  · simp [List.getElem?_set_ne (fun he => hn he.symm)]

theorem getD_mem (l : List α) (i : Nat) (d : α) (h : i < l.length) :
    l.getD i d ∈ l := by
  rw [List.getD_eq_getElem?_getD, List.getElem?_eq_getElem h]
  exact List.getElem_mem h

/-! ## Bit-level facts about `Cell.remove` and restoration -/

theorem testBit_lt_of_lt_two_pow (b k i : Nat) (hb : b < 2 ^ k) (h : b.testBit i = true) :
    i < k := by
  by_contra hge
  push_neg at hge
  rw [Nat.testBit_lt_two_pow (lt_of_lt_of_le hb (Nat.pow_le_pow_right (by omega) hge))] at h
  exact absurd h (by simp)

/-- Bits of `b & !(1 << v)` (`u64` semantics). -/
theorem testBit_and_not_shl (b v i : Nat) (hb : b < U64) (hv : v < 64) :
    (b &&& u64not (1 <<< (v % 64))).testBit i = (b.testBit i && decide (i ≠ v)) := by
  unfold u64not
  rw [Nat.mod_eq_of_lt hv, Nat.shiftLeft_eq, Nat.one_mul]
  rw [Nat.testBit_land, Nat.testBit_xor]
  by_cases hi : i < 64
  · have h1 : Nat.testBit (U64 - 1) i = true := by
      unfold U64
      rw [Nat.testBit_two_pow_sub_one]
      simp [hi]
    rw [h1]
    by_cases he : i = v
    · subst he
      rw [Nat.testBit_two_pow_self]
      simp
    · rw [Nat.testBit_two_pow_of_ne (fun hc => he hc.symm)]
      simp [he]
  · push_neg at hi
    have h1 : b.testBit i = false :=
      Nat.testBit_lt_two_pow (lt_of_lt_of_le hb (Nat.pow_le_pow_right (by omega) hi))
    have h2 : Nat.testBit (2 ^ v) i = false := Nat.testBit_two_pow_of_ne (by omega)
    have h3 : Nat.testBit (U64 - 1) i = false := by
      unfold U64
      rw [Nat.testBit_two_pow_sub_one]
      simp
      omega
    rw [h1, h2, h3]
    simp

theorem and_not_shl_lt (b v : Nat) (hb : b < U64) : b &&& u64not (1 <<< (v % 64)) < U64 :=
  lt_of_le_of_lt Nat.and_le_left hb

/-- Popcount drops by one when a set bit is cleared. -/
theorem popCount_and_not_shl (b v : Nat) (hb : b < U64) (hv : v < 64)
    (h : b.testBit v = true) :
    popCount (b &&& u64not (1 <<< (v % 64))) = popCount b - 1 := by
  rw [popCount_eq_card b hb, popCount_eq_card _ (and_not_shl_lt b v hb)]
  have hset : (Finset.range 64).filter (fun i => (b &&& u64not (1 <<< (v % 64))).testBit i) =
      ((Finset.range 64).filter (fun i => b.testBit i)).erase v := by
    apply Finset.ext
    intro i
    rw [Finset.mem_erase]
    simp only [Finset.mem_filter, Finset.mem_range]
    rw [testBit_and_not_shl b v i hb hv]
    constructor
    · rintro ⟨hi, hbit⟩
      rw [Bool.and_eq_true] at hbit
      exact ⟨by simpa using hbit.2, hi, hbit.1⟩
    · rintro ⟨hne, hi, hbit⟩
      exact ⟨hi, by rw [hbit]; simpa using hne⟩
  rw [hset, Finset.card_erase_of_mem]
  simp only [Finset.mem_filter, Finset.mem_range]
  exact ⟨hv, h⟩

/-- Popcount grows by one when a clear bit is set. -/
theorem popCount_or_shl (b v : Nat) (hb : b < U64) (hv : v < 64)
    (h : b.testBit v = false) :
    popCount (b ||| 2 ^ v) = popCount b + 1 := by
  have hor : b ||| 2 ^ v < U64 :=
    Nat.or_lt_two_pow hb (Nat.pow_lt_pow_right (by omega) hv)
  rw [popCount_eq_card b hb, popCount_eq_card _ hor]
  have hset : (Finset.range 64).filter (fun i => (b ||| 2 ^ v).testBit i) =
      insert v ((Finset.range 64).filter (fun i => b.testBit i)) := by
    apply Finset.ext
    intro i
    rw [Finset.mem_insert]
    simp only [Finset.mem_filter, Finset.mem_range]
    rw [Nat.testBit_lor]
    constructor
    · rintro ⟨hi, hbit⟩
      rw [Bool.or_eq_true] at hbit
      rcases hbit with hb1 | hb2
      · exact Or.inr ⟨hi, hb1⟩
      · left
        by_contra hne
        rw [Nat.testBit_two_pow_of_ne (fun he => hne he.symm)] at hb2
        exact absurd hb2 (by simp)
    · rintro (rfl | ⟨hi, hbit⟩)
      · exact ⟨hv, by rw [Nat.testBit_two_pow_self]; simp⟩
      · exact ⟨hi, by rw [hbit]; simp⟩
  rw [hset, Finset.card_insert_of_not_mem]
  simp only [Finset.mem_filter, Finset.mem_range, not_and]
  intro _
  simp [h]

/-- Clearing then restoring a set bit is the identity (`u64` semantics). -/
theorem and_not_or_restore (b v : Nat) (hb : b < U64) (hv : v < 64)
    (h : b.testBit v = true) :
    (b &&& u64not (1 <<< (v % 64))) ||| (1 <<< (v % 64)) = b := by
  rw [Nat.mod_eq_of_lt hv, Nat.shiftLeft_eq, Nat.one_mul]
  apply Nat.eq_of_testBit_eq
  intro i
  rw [Nat.testBit_lor]
  have := testBit_and_not_shl b v i hb hv
  rw [Nat.mod_eq_of_lt hv, Nat.shiftLeft_eq, Nat.one_mul] at this
  rw [this]
  by_cases he : i = v
  · subst he
    rw [Nat.testBit_two_pow_self, h]
    simp
  · rw [Nat.testBit_two_pow_of_ne (fun hc => he hc.symm)]
    simp [he]

/-! ## Grid invariants -/

/-- Structural well-formedness: array lengths and `usize`-bounded buckets. -/
def WF (N : Nat) (s : Sudoku N) : Prop :=
  s.grid.length = N * N * N * N ∧ s.buckets.length = N * N ∧ ∀ b ∈ s.buckets, b < U64

/-- Every cell's bitset stays within the `R = N*N` value bits (`⊆ FULL`). -/
def CellsBounded (N : Nat) (s : Sudoku N) : Prop :=
  ∀ p : Pos, p.Valid N → (s.get p).bitset < 2 ^ (N * N)

/-- No cell is ever `EMPTY`. -/
def NoEmptyCell (N : Nat) (s : Sudoku N) : Prop :=
  ∀ p : Pos, p.Valid N → (s.get p).bitset ≠ 0

/-- The move log is coherent with the grid: replayed top-down, each logged
`(value, pos)` restores a currently-absent, in-range bit of a valid cell. -/
def MovesOk (N : Nat) : List (Cell N) → List (Nat × Pos) → Prop
  | _, [] => True
  | g, (v, p) :: rest => p.Valid N ∧ v < N * N ∧
      (g.getD (p.idx N) (Cell.EMPTY N)).bitset.testBit v = false ∧
      MovesOk N (g.set (p.idx N)
        ((g.getD (p.idx N) (Cell.EMPTY N)).or (Cell.from_value N v))) rest

/-- The conjunction of all per-state grid invariants. -/
def Good (N : Nat) (s : Sudoku N) : Prop :=
  WF N s ∧ CellsBounded N s ∧ NoEmptyCell N s ∧ Consistent N s ∧ MovesOk N s.grid s.moves

/-- Worklist invariant: the presence mask marks exactly the queued positions,
which are valid and pairwise distinct. -/
def DeferOk (N : Nat) (d : Defer N) : Prop :=
  d.grid.length = N * N * N * N ∧ (∀ p ∈ d.queue, p.Valid N) ∧ d.queue.Nodup ∧
  (∀ p : Pos, p.Valid N → (d.grid.getD (p.idx N) false = true ↔ p ∈ d.queue))

/-- The propagated-singleton invariant: any determined cell either still waits
in the worklist or has had its value scrubbed from every correlated cell. -/
def QueueConflictFree (N : Nat) (s : Sudoku N) (d : Defer N) : Prop :=
  ∀ p : Pos, p.Valid N → ∀ v, s.get p = Cell.from_value N v →
    p ∈ d.queue ∨ ∀ q ∈ correlated N p, (s.get q).bitset.testBit v = false

/-- As `QueueConflictFree`, but with one position (the one being processed by
the cascade body) exempted. -/
def QueueConflictFreeExcept (N : Nat) (p0 : Pos) (s : Sudoku N) (d : Defer N) : Prop :=
  ∀ p : Pos, p.Valid N → ∀ v, s.get p = Cell.from_value N v →
    p = p0 ∨ p ∈ d.queue ∨ ∀ q ∈ correlated N p, (s.get q).bitset.testBit v = false

/-- Fully-propagated conflict-freedom (empty worklist). -/
def NoConflict (N : Nat) (s : Sudoku N) : Prop :=
  ∀ p : Pos, p.Valid N → ∀ v, s.get p = Cell.from_value N v →
    ∀ q ∈ correlated N p, (s.get q).bitset.testBit v = false

/-! ## Basic bridges -/

theorem contains_iff_testBit (N : Nat) (c : Cell N) (v : Nat) (hv : v < 64) :
    c.contains v = true ↔ c.bitset.testBit v = true := by
  unfold Cell.contains
  rw [Nat.mod_eq_of_lt hv, Nat.shiftLeft_eq, Nat.one_mul]
  rw [bne_iff_ne]
  constructor
  · intro h
    by_contra hbit
    have hodd : c.bitset / 2 ^ v % 2 = 0 := by
      rw [Nat.testBit_to_div_mod] at hbit
      revert hbit
      cases hx : decide (c.bitset / 2 ^ v % 2 = 1) with
      | true => intro hc; exact absurd (of_decide_eq_true hx) (by simp_all)
      | false =>
        intro _
        have := of_decide_eq_false hx
        omega
    apply h
    apply Nat.eq_of_testBit_eq
    intro i
    rw [Nat.testBit_land, Nat.zero_testBit]
    by_cases he : i = v
    · subst he
      rw [Nat.testBit_to_div_mod]
      simp [hodd]
    · rw [Nat.testBit_two_pow_of_ne (fun hc => he hc.symm)]
      simp
  · intro h hz
    have : (c.bitset &&& 2 ^ v).testBit v = true := by
      rw [Nat.testBit_land, h, Nat.testBit_two_pow_self]
      rfl
    rw [hz, Nat.zero_testBit] at this
    exact absurd this (by simp)

theorem contains_false_iff (N : Nat) (c : Cell N) (v : Nat) (hv : v < 64) :
    c.contains v = false ↔ c.bitset.testBit v = false := by
  constructor
  · intro h
    by_contra hb
    have : c.bitset.testBit v = true := by revert hb; cases c.bitset.testBit v <;> simp
    rw [← contains_iff_testBit N c v hv] at this
    rw [h] at this
    exact absurd this (by simp)
  · intro h
    by_contra hb
    have : c.contains v = true := by revert hb; cases c.contains v <;> simp
    rw [contains_iff_testBit N c v hv] at this
    rw [h] at this
    exact absurd this (by simp)

/-- A determined cell (`get_value = some v`) is exactly the single-bit cell
`from_value v`, and `v` is within the value range when the cell is. -/
theorem get_value_some (N : Nat) (c : Cell N) (hb : c.bitset < U64) (v : Nat)
    (h : c.get_value = some v) : c = Cell.from_value N v ∧ v < 64 := by
  unfold Cell.get_value at h
  by_cases hpc : popCount c.bitset = 1
  · rw [if_pos hpc] at h
    injection h with h
    rcases (popCount_eq_one_iff c.bitset hb).1 hpc with ⟨w, hw, hcw⟩
    have htz : trailing_zeros c.bitset = w := by
      rw [hcw]
      exact trailing_zeros_two_pow w hw
    subst h
    rw [htz]
    constructor
    · unfold Cell.from_value
      cases c
      simp only [Cell.mk.injEq]
      rw [Nat.mod_eq_of_lt hw, Nat.shiftLeft_eq, Nat.one_mul]
      simp_all
    · exact hw
  · rw [if_neg hpc] at h
    exact absurd h (by simp)

theorem get_value_none (N : Nat) (c : Cell N) (h : c.get_value = none) :
    popCount c.bitset ≠ 1 := by
  unfold Cell.get_value at h
  by_cases hpc : popCount c.bitset = 1
  · rw [if_pos hpc] at h
    exact absurd h (by simp)
  · exact hpc

theorem from_value_len (N : Nat) (v : Nat) (hv : v < 64) :
    (Cell.from_value N v).len = 1 := by
  unfold Cell.len
  rw [Cell.from_value_eq N v hv]
  exact popCount_two_pow v hv

/-- `len = 1` identifies the cell as `from_value` of its lowest bit. -/
theorem len_one_from_value (N : Nat) (c : Cell N) (hb : c.bitset < U64)
    (h : c.len = 1) : ∃ v, v < 64 ∧ c = Cell.from_value N v := by
  unfold Cell.len at h
  rcases (popCount_eq_one_iff c.bitset hb).1 h with ⟨w, hw, hcw⟩
  refine ⟨w, hw, ?_⟩
  cases c
  unfold Cell.from_value
  simp only [Cell.mk.injEq]
  rw [Nat.mod_eq_of_lt hw, Nat.shiftLeft_eq, Nat.one_mul]
  simp_all

theorem popCount_le_of_lt_two_pow (b k : Nat) (hk : k ≤ 64) (hb : b < 2 ^ k) :
    popCount b ≤ k := by
  have hb64 : b < U64 := lt_of_lt_of_le hb (Nat.pow_le_pow_right (by omega) hk)
  rw [popCount_eq_card b hb64]
  have hsub : (Finset.range 64).filter (fun i => b.testBit i) ⊆ Finset.range k := by
    intro i hi
    simp only [Finset.mem_filter, Finset.mem_range] at hi
    exact Finset.mem_range.2 (testBit_lt_of_lt_two_pow b k i hb hi.2)
  calc ((Finset.range 64).filter (fun i => b.testBit i)).card
      ≤ (Finset.range k).card := Finset.card_le_card hsub
    _ = k := Finset.card_range k

theorem length_flatMap_const (l : List α) (f : α → List β) (c : Nat)
    (h : ∀ x ∈ l, (f x).length = c) : (l.flatMap f).length = l.length * c := by
  induction l with
  | nil => simp
  | cons a t ih =>
    rw [List.flatMap_cons, List.length_append, h a (List.mem_cons_self a t),
      ih (fun x hx => h x (List.mem_cons_of_mem a hx))]
    simp only [List.length_cons]
    ring

theorem length_iterList (N : Nat) : (Pos.iterList N).length = N * N * N * N := by
  unfold Pos.iterList
  rw [length_flatMap_const (c := N * N * N)]
  · rw [List.length_range]
    ring
  · intro y_1 _
    rw [length_flatMap_const (c := N * N)]
    · rw [List.length_range]
      ring
    · intro y_2 _
      rw [length_flatMap_const (c := N)]
      · rw [List.length_range]
      · intro x_1 _
        rw [List.length_map, List.length_range]

theorem nodup_iterList (N : Nat) : (Pos.iterList N).Nodup := by
  unfold Pos.iterList
  rw [List.nodup_flatMap]
  constructor
  · intro y_1 _
    rw [List.nodup_flatMap]
    constructor
    · intro y_2 _
      rw [List.nodup_flatMap]
      constructor
      · intro x_1 _
        refine List.Nodup.map ?_ (List.nodup_range N)
        intro a b hab
        simpa using congrArg Pos.x_2 hab
      · apply (List.pairwise_lt_range N).imp
        intro a b hab q hqa hqb
        beta_reduce at hqa hqb
        simp only [List.mem_map, List.mem_range] at hqa hqb
        rcases hqa with ⟨a2, _, rfl⟩
        rcases hqb with ⟨b2, _, he⟩
        have := congrArg Pos.x_1 he
        simp only at this
        omega
    · apply (List.pairwise_lt_range N).imp
      intro a b hab q hqa hqb
      beta_reduce at hqa hqb
      simp only [List.mem_flatMap, List.mem_map, List.mem_range] at hqa hqb
      rcases hqa with ⟨xa, _, a2, _, rfl⟩
      rcases hqb with ⟨xb, _, b2, _, he⟩
      have := congrArg Pos.y_2 he
      simp only at this
      omega
  · apply (List.pairwise_lt_range N).imp
    intro a b hab q hqa hqb
    beta_reduce at hqa hqb
    simp only [List.mem_flatMap, List.mem_map, List.mem_range] at hqa hqb
    rcases hqa with ⟨ya, _, xa, _, a2, _, rfl⟩
    rcases hqb with ⟨yb, _, xb, _, b2, _, he⟩
    have := congrArg Pos.y_1 he
    simp only at this
    omega

theorem countP_update [DecidableEq α] (l : List α) (hl : l.Nodup) (a : α) (ha : a ∈ l)
    (f g : α → Bool) (h : ∀ x ∈ l, x ≠ a → f x = g x) :
    l.countP f + (if g a then 1 else 0) = l.countP g + (if f a then 1 else 0) := by
  induction l with
  | nil => cases ha
  | cons b t ih =>
    rw [List.countP_cons, List.countP_cons]
    rcases List.mem_cons.1 ha with rfl | hat
    · have hfg : List.countP f t = List.countP g t := by
        apply List.countP_congr
        intro x hx
        have hx2 : f x = g x := by
          apply h x (List.mem_cons_of_mem _ hx)
          intro he
          subst he
          exact (List.nodup_cons.1 hl).1 hx
        rw [hx2]
      rw [hfg]
      by_cases hf : f a <;> by_cases hg : g a <;> simp [hf, hg] <;> omega
    · have hba : b ≠ a := by
        intro he
        subst he
        exact (List.nodup_cons.1 hl).1 hat
      have hfb : f b = g b := h b (List.mem_cons_self b t) hba
      have hrec := ih (List.nodup_cons.1 hl).2 hat
        (fun x hx hne => h x (List.mem_cons_of_mem _ hx) hne)
      rw [hfb]
      by_cases hg : g b <;> simp [hg] <;> omega


/-! ## The elementary removal step -/

theorem remove_one_unfold (N : Nat) (v : Nat) (p : Pos) (s : Sudoku N) (d : Defer N)
    (k : Nat) (c' : Cell N)
    (hc' : (s.grid.set (p.idx N) ((s.get p).remove v)).getD (p.idx N) (Cell.EMPTY N) = c') :
    Sudoku.remove_one v p (s, d, k) =
      (({ grid := s.grid.set (p.idx N) ((s.get p).remove v),
          moves := (v, p) :: s.moves,
          buckets := (s.buckets.set (c'.len - 0) (u64dec (s.buckets.getD (c'.len - 0) 0))).set
            (c'.len - 1) (u64inc ((s.buckets.set (c'.len - 0)
              (u64dec (s.buckets.getD (c'.len - 0) 0))).getD (c'.len - 1) 0)) } : Sudoku N),
       d.push p, k + 1) := by
  subst hc'
  rfl

/-- The grid state after one elementary removal, with all reads resolved
(assuming the position is in bounds, see `remove_one_eq_removedState`). -/
def removedState (N : Nat) (s : Sudoku N) (v : Nat) (p : Pos) : Sudoku N :=
  { grid := s.grid.set (p.idx N) ((s.get p).remove v),
    moves := (v, p) :: s.moves,
    buckets := (s.buckets.set ((s.get p).remove v).len
      (u64dec (s.buckets.getD ((s.get p).remove v).len 0))).set
      (((s.get p).remove v).len - 1)
      (u64inc (s.buckets.getD (((s.get p).remove v).len - 1) 0)) }

theorem remove_one_eq_removedState (N : Nat) (v : Nat) (p : Pos) (s : Sudoku N) (d : Defer N)
    (k : Nat)
    (hidx : p.idx N < s.grid.length)
    (hlne : ((s.get p).remove v).len - 1 ≠ ((s.get p).remove v).len) :
    Sudoku.remove_one v p (s, d, k) = (removedState N s v p, d.push p, k + 1) := by
  have hgetset : (s.grid.set (p.idx N) ((s.get p).remove v)).getD (p.idx N) (Cell.EMPTY N)
      = (s.get p).remove v := getD_set_self _ _ _ _ hidx
  rw [remove_one_unfold N v p s d k ((s.get p).remove v) hgetset]
  unfold removedState
  simp only [Nat.sub_zero]
  rw [getD_set_ne _ _ _ _ _ (fun he => hlne he.symm)]

theorem pop_one_unfold (N : Nat) (s : Sudoku N) (v : Nat) (p : Pos) (rest : List (Nat × Pos))
    (h : s.moves = (v, p) :: rest) (c1 : Cell N)
    (hc1 : s.grid.getD (p.idx N) (Cell.EMPTY N) = c1) :
    s.pop_one = { grid := s.grid.set (p.idx N) (c1.or (Cell.from_value N v)),
                  moves := rest,
                  buckets := (s.buckets.set c1.len (u64inc (s.buckets.getD c1.len 0))).set
                    (c1.len - 1) (u64dec ((s.buckets.set c1.len
                      (u64inc (s.buckets.getD c1.len 0))).getD (c1.len - 1) 0)) } := by
  subst hc1
  cases s with
  | mk g m b =>
    replace h : m = (v, p) :: rest := h
    subst h
    rfl

theorem mul_self_le_64 (N : Nat) (h : N ≤ 8) : N * N ≤ 64 :=
  le_trans (Nat.mul_le_mul h h) (by omega)

theorem iterList_card_le (N : Nat) (h : N ≤ 8) : N * N * N * N ≤ 4096 :=
  le_trans (Nat.mul_le_mul (Nat.mul_le_mul (Nat.mul_le_mul h h) h) h) (by omega)

theorem countP_le_card (N : Nat) (h : N ≤ 8) (f : Pos → Bool) :
    (Pos.iterList N).countP f ≤ 4096 := by
  calc (Pos.iterList N).countP f ≤ (Pos.iterList N).length := List.countP_le_length f
    _ = N * N * N * N := length_iterList N
    _ ≤ 4096 := iterList_card_le N h

theorem cell_ext (N : Nat) (x y : Cell N) (h : x.bitset = y.bitset) : x = y := by
  cases x
  cases y
  simpa using h

theorem removedState_get_self (N : Nat) (s : Sudoku N) (v : Nat) (p : Pos)
    (hidx : p.idx N < s.grid.length) :
    (removedState N s v p).get p = (s.get p).remove v :=
  getD_set_self _ _ _ _ hidx

theorem removedState_get_ne (N : Nat) (s : Sudoku N) (v : Nat) (p : Pos) (q : Pos)
    (hpv : p.Valid N) (hqv : q.Valid N) (hqne : q ≠ p) :
    (removedState N s v p).get q = s.get q := by
  show (s.grid.set (p.idx N) ((s.get p).remove v)).getD (q.idx N) (Cell.EMPTY N) = _
  rw [getD_set_ne]
  · rfl
  · intro he
    exact hqne (Pos.idx_inj N q p hqv hpv he.symm)

/-- The elementary removal preserves all grid invariants, logs its move, and
is exactly inverted by one `pop_n_moves` step. -/
theorem remove_one_spec (N : Nat) (hN8 : N ≤ 8) (s : Sudoku N) (v : Nat) (p : Pos)
    (hG : Good N s) (hpv : p.Valid N)
    (hbit : (s.get p).bitset.testBit v = true) (hlen2 : 2 ≤ (s.get p).len) :
    Good N (removedState N s v p) ∧
    (removedState N s v p).pop_one = s ∧
    (removedState N s v p).get p = (s.get p).remove v ∧
    (∀ q : Pos, q.Valid N → q ≠ p → (removedState N s v p).get q = s.get q) := by
  obtain ⟨⟨hgl, hbl, hbu⟩, hcb, hnoe, hcons, hmoves⟩ := hG
  have hR64 : N * N ≤ 64 := mul_self_le_64 N hN8
  have hcbp : (s.get p).bitset < 2 ^ (N * N) := hcb p hpv
  have hU : (s.get p).bitset < U64 :=
    lt_of_lt_of_le hcbp (Nat.pow_le_pow_right (by omega) hR64)
  have hvR : v < N * N := testBit_lt_of_lt_two_pow _ _ _ hcbp hbit
  have hv64 : v < 64 := lt_of_lt_of_le hvR hR64
  have hc'bits : ((s.get p).remove v).bitset =
      (s.get p).bitset &&& u64not (1 <<< (v % 64)) := rfl
  have hc'U : ((s.get p).remove v).bitset < U64 := by
    rw [hc'bits]; exact and_not_shl_lt _ _ hU
  have hc'lt : ((s.get p).remove v).bitset < 2 ^ (N * N) := by
    rw [hc'bits]
    exact lt_of_le_of_lt Nat.and_le_left hcbp
  have hlenc : (s.get p).len ≤ N * N := popCount_le_of_lt_two_pow _ _ hR64 hcbp
  have hlrel : ((s.get p).remove v).len = (s.get p).len - 1 := by
    show popCount ((s.get p).remove v).bitset = popCount (s.get p).bitset - 1
    rw [hc'bits]
    exact popCount_and_not_shl _ _ hU hv64 hbit
  have hl1 : 1 ≤ ((s.get p).remove v).len := by omega
  have hlR : ((s.get p).remove v).len ≤ N * N - 1 := by omega
  have hidx : p.idx N < s.grid.length := by
    rw [hgl]; exact Pos.idx_lt N p hpv
  have hlne : ((s.get p).remove v).len - 1 ≠ ((s.get p).remove v).len := by omega
  have hllt : ((s.get p).remove v).len < s.buckets.length := by rw [hbl]; omega
  have hl1lt : ((s.get p).remove v).len - 1 < s.buckets.length := by rw [hbl]; omega
  have hget_self := removedState_get_self N s v p hidx
  have hget_ne := removedState_get_ne N s v p
  have hbuget : ∀ i, i < s.buckets.length → s.buckets.getD i 0 < U64 :=
    fun i hi => hbu _ (getD_mem _ _ _ hi)
  have hrestore : ((s.get p).remove v).or (Cell.from_value N v) = s.get p := by
    apply cell_ext
    show (((s.get p).bitset &&& u64not (1 <<< (v % 64))) ||| (1 <<< (v % 64))) = _
    exact and_not_or_restore (s.get p).bitset v hU hv64 hbit
  have hrs_grid : (removedState N s v p).grid =
      s.grid.set (p.idx N) ((s.get p).remove v) := rfl
  have hrs_moves : (removedState N s v p).moves = (v, p) :: s.moves := rfl
  have hrs_buckets : (removedState N s v p).buckets =
      (s.buckets.set ((s.get p).remove v).len
        (u64dec (s.buckets.getD ((s.get p).remove v).len 0))).set
        (((s.get p).remove v).len - 1)
        (u64inc (s.buckets.getD (((s.get p).remove v).len - 1) 0)) := rfl
  refine ⟨⟨⟨?_, ?_, ?_⟩, ?_, ?_, ?_, ?_⟩, ?_, hget_self, fun q hqv hqne => hget_ne q hpv hqv hqne⟩
  · rw [hrs_grid]
    simp only [List.length_set]
    exact hgl
  · rw [hrs_buckets]
    simp only [List.length_set]
    exact hbl
  · rw [hrs_buckets]
    intro x hx
    rcases List.mem_or_eq_of_mem_set hx with hx2 | hxe
    · rcases List.mem_or_eq_of_mem_set hx2 with hx3 | hxe2
      · exact hbu x hx3
      · rw [hxe2]
        exact u64dec_lt _
    · rw [hxe]
      exact u64inc_lt _
  · -- CellsBounded
    intro q hqv
    by_cases hqp : q = p
    · subst hqp
      rw [hget_self]
      exact hc'lt
    · rw [hget_ne q hpv hqv hqp]
      exact hcb q hqv
  · -- NoEmptyCell
    intro q hqv
    by_cases hqp : q = p
    · rw [hqp, hget_self]
      intro hz
      have h0 : ((s.get p).remove v).len = 0 := by
        show popCount ((s.get p).remove v).bitset = 0
        rw [hz]
        rfl
      omega
    · rw [hget_ne q hpv hqv hqp]
      exact hnoe q hqv
  · -- Consistent
    intro i hi
    have hmem_p : p ∈ Pos.iterList N := (Pos.mem_iterList N p).2 hpv
    have hagree : ∀ q ∈ Pos.iterList N, q ≠ p →
        (fun q => (((removedState N s v p).get q).len == i + 1)) q =
        (fun q => ((s.get q).len == i + 1)) q := by
      intro q hq hqp
      simp only
      rw [hget_ne q hpv ((Pos.mem_iterList N q).1 hq) hqp]
    have hupd := countP_update (Pos.iterList N) (nodup_iterList N) p hmem_p _ _ hagree
    simp only at hupd
    rw [hget_self] at hupd
    have hcons_i : s.buckets.getD i 0 =
        (Pos.iterList N).countP (fun p => (s.get p).len == i + 1) := hcons i hi
    show (removedState N s v p).buckets.getD i 0 = _
    rw [hrs_buckets]
    have hcountlt : ∀ f : Pos → Bool, (Pos.iterList N).countP f < U64 := by
      intro f
      have h1 := countP_le_card N hN8 f
      have h2 : (4096 : Nat) < U64 := by unfold U64; norm_num
      omega
    by_cases hiℓ : i = ((s.get p).remove v).len
    · subst hiℓ
      rw [getD_set_ne _ _ _ _ _ hlne, getD_set_self _ _ _ _ hllt]
      have hold_p : ((s.get p).len == ((s.get p).remove v).len + 1) = true := by
        rw [Nat.beq_eq_true_eq]
        omega
      have hnew_p : (((s.get p).remove v).len == ((s.get p).remove v).len + 1) = false := by
        rw [beq_eq_false_iff_ne]
        omega
      rw [hold_p, hnew_p] at hupd
      rw [if_pos rfl, if_neg Bool.false_ne_true] at hupd
      have hpos : 1 ≤ (Pos.iterList N).countP
          (fun q => (s.get q).len == ((s.get p).remove v).len + 1) := by
        apply List.countP_pos_iff.2
        exact ⟨p, hmem_p, hold_p⟩
      rw [hcons_i]
      rw [u64dec_eq_sub_one _ hpos (hcountlt _)]
      omega
    · by_cases hiℓ1 : i = ((s.get p).remove v).len - 1
      · subst hiℓ1
        have hl1lt' : ((s.get p).remove v).len - 1 <
            (s.buckets.set ((s.get p).remove v).len
              (u64dec (s.buckets.getD ((s.get p).remove v).len 0))).length := by
          rw [List.length_set]
          exact hl1lt
        rw [getD_set_self _ _ _ _ hl1lt']
        have hip1 : ((s.get p).remove v).len - 1 + 1 = ((s.get p).remove v).len := by omega
        have hold_p : ((s.get p).len == ((s.get p).remove v).len - 1 + 1) = false := by
          rw [beq_eq_false_iff_ne, hip1]
          omega
        have hnew_p : (((s.get p).remove v).len == ((s.get p).remove v).len - 1 + 1) = true := by
          rw [Nat.beq_eq_true_eq, hip1]
        rw [hold_p, hnew_p] at hupd
        rw [if_neg Bool.false_ne_true, if_pos rfl] at hupd
        rw [hcons_i]
        have hsmall : (Pos.iterList N).countP
            (fun q => (s.get q).len == ((s.get p).remove v).len - 1 + 1) + 1 < U64 := by
          have h1 := countP_le_card N hN8
            (fun q => (s.get q).len == ((s.get p).remove v).len - 1 + 1)
          have h2 : (4096 : Nat) + 1 < U64 := by unfold U64; norm_num
          omega
        rw [u64inc_eq_add_one _ hsmall]
        omega
      · rw [getD_set_ne _ _ _ _ _ (fun he => hiℓ1 he.symm),
          getD_set_ne _ _ _ _ _ (fun he => hiℓ he.symm)]
        have hold_p : ((s.get p).len == i + 1) = false := by
          rw [beq_eq_false_iff_ne]
          omega
        have hnew_p : (((s.get p).remove v).len == i + 1) = false := by
          rw [beq_eq_false_iff_ne]
          omega
        rw [hold_p, hnew_p] at hupd
        rw [if_neg Bool.false_ne_true] at hupd
        rw [hcons_i]
        omega
  · -- MovesOk
    rw [hrs_grid, hrs_moves]
    refine ⟨hpv, hvR, ?_, ?_⟩
    · rw [getD_set_self _ _ _ _ hidx]
      show (((s.get p).bitset &&& u64not (1 <<< (v % 64)))).testBit v = false
      rw [testBit_and_not_shl _ _ _ hU hv64]
      simp
    · rw [getD_set_self _ _ _ _ hidx]
      have hgd : s.get p = s.grid.getD (p.idx N) (Cell.EMPTY N) := rfl
      rw [List.set_set, hrestore, hgd, set_getD_self _ _ _ hidx]
      exact hmoves
  · -- pop_one undoes
    have hgetset : (s.grid.set (p.idx N) ((s.get p).remove v)).getD (p.idx N) (Cell.EMPTY N)
        = (s.get p).remove v := getD_set_self _ _ _ _ hidx
    have hpop := pop_one_unfold N (removedState N s v p) v p s.moves rfl
      ((s.get p).remove v) hgetset
    rw [hpop]
    have hbℓU : s.buckets.getD ((s.get p).remove v).len 0 < U64 := hbuget _ hllt
    have hbℓ1U : s.buckets.getD (((s.get p).remove v).len - 1) 0 < U64 := hbuget _ hl1lt
    have hgrid : ((removedState N s v p).grid).set (p.idx N)
        (((s.get p).remove v).or (Cell.from_value N v)) = s.grid := by
      have hgd : s.get p = s.grid.getD (p.idx N) (Cell.EMPTY N) := rfl
      rw [hrs_grid, List.set_set, hrestore, hgd, set_getD_self _ _ _ hidx]
    have hstep1 : (removedState N s v p).buckets.getD ((s.get p).remove v).len 0 =
        u64dec (s.buckets.getD ((s.get p).remove v).len 0) := by
      rw [hrs_buckets]
      rw [getD_set_ne _ _ _ _ _ hlne, getD_set_self _ _ _ _ hllt]
    have hb3 : (removedState N s v p).buckets.set ((s.get p).remove v).len
        (u64inc ((removedState N s v p).buckets.getD ((s.get p).remove v).len 0)) =
        s.buckets.set (((s.get p).remove v).len - 1)
          (u64inc (s.buckets.getD (((s.get p).remove v).len - 1) 0)) := by
      rw [hstep1, u64inc_u64dec _ hbℓU, hrs_buckets]
      rw [List.set_comm _ _ _ hlne.symm, List.set_set]
      rw [← getD_set_ne s.buckets (((s.get p).remove v).len - 1) ((s.get p).remove v).len
        (u64inc (s.buckets.getD (((s.get p).remove v).len - 1) 0)) 0 hlne]
      exact set_getD_self _ _ _ (by rw [List.length_set]; exact hllt)
    rw [hb3]
    have hstep2 : (s.buckets.set (((s.get p).remove v).len - 1)
        (u64inc (s.buckets.getD (((s.get p).remove v).len - 1) 0))).getD
        (((s.get p).remove v).len - 1) 0 =
        u64inc (s.buckets.getD (((s.get p).remove v).len - 1) 0) :=
      getD_set_self _ _ _ _ hl1lt
    rw [hstep2, u64dec_u64inc _ hbℓ1U, List.set_set, set_getD_self _ _ _ hl1lt, hgrid]

/-! ## `pop_n_moves` algebra and worklist lemmas -/

theorem pop_n_moves_zero (N : Nat) (s : Sudoku N) : s.pop_n_moves 0 = s := rfl

theorem pop_n_moves_succ (N : Nat) (s : Sudoku N) (n : Nat) :
    s.pop_n_moves (n + 1) = s.pop_one.pop_n_moves n := rfl

theorem pop_n_moves_add (N : Nat) (a : Nat) :
    ∀ (b : Nat) (s : Sudoku N), s.pop_n_moves (a + b) = (s.pop_n_moves b).pop_n_moves a := by
  intro b
  induction b with
  | zero => intro s; rfl
  | succ b ih =>
    intro s
    have h1 : a + (b + 1) = (a + b) + 1 := by omega
    rw [h1, pop_n_moves_succ, ih s.pop_one, pop_n_moves_succ]

theorem getD_replicate_self (n : Nat) (a : α) : ∀ i : Nat, (List.replicate n a).getD i a = a := by
  induction n with
  | zero => intro i; cases i <;> rfl
  | succ n ih =>
    intro i
    cases i with
    | zero => rfl
    | succ i => exact ih i

theorem clear_DeferOk (N : Nat) : DeferOk N (Defer.clear N) := by
  refine ⟨List.length_replicate _ _, ?_, List.nodup_nil, ?_⟩
  · intro p hp
    exact absurd hp (List.not_mem_nil p)
  · intro p _
    show (List.replicate (N * N * N * N) false).getD (p.idx N) false = true ↔ p ∈ ([] : List Pos)
    rw [getD_replicate_self]
    constructor
    · intro h
      exact absurd h (by simp)
    · intro h
      exact absurd h (List.not_mem_nil p)

theorem push_spec (N : Nat) (d : Defer N) (p : Pos) (hd : DeferOk N d) (hp : p.Valid N) :
    DeferOk N (d.push p) ∧ p ∈ (d.push p).queue ∧ ∀ q ∈ d.queue, q ∈ (d.push p).queue := by
  obtain ⟨hlen, hval, hnd, hmask⟩ := hd
  have hidx : p.idx N < d.grid.length := by
    rw [hlen]; exact Pos.idx_lt N p hp
  unfold Defer.push
  by_cases hm : d.grid.getD (p.idx N) false = true
  · rw [if_pos hm]
    exact ⟨⟨hlen, hval, hnd, hmask⟩, (hmask p hp).1 hm, fun q hq => hq⟩
  · have hm' : d.grid.getD (p.idx N) false = false := by
      revert hm; cases d.grid.getD (p.idx N) false <;> simp
    rw [if_neg hm]
    have hpnot : p ∉ d.queue := by
      intro hmem
      rw [← hmask p hp] at hmem
      rw [hm'] at hmem
      exact absurd hmem (by simp)
    refine ⟨⟨?_, ?_, ?_, ?_⟩, List.mem_cons_self p d.queue, fun q hq => List.mem_cons_of_mem p hq⟩
    · show (d.grid.set (p.idx N) true).length = N * N * N * N
      rw [List.length_set]; exact hlen
    · intro q hq
      rcases List.mem_cons.1 hq with rfl | hq2
      · exact hp
      · exact hval q hq2
    · exact List.nodup_cons.2 ⟨hpnot, hnd⟩
    · intro q hqv
      show (d.grid.set (p.idx N) true).getD (q.idx N) false = true ↔ q ∈ p :: d.queue
      by_cases hqp : q = p
      · subst hqp
        rw [getD_set_self _ _ _ _ hidx]
        simp
      · rw [getD_set_ne _ _ _ _ _ (fun he => hqp (Pos.idx_inj N q p hqv hp he.symm))]
        rw [hmask q hqv]
        constructor
        · intro h; exact List.mem_cons_of_mem p h
        · intro h
          rcases List.mem_cons.1 h with rfl | h2
          · exact absurd rfl hqp
          · exact h2

theorem pop_eq_none (N : Nat) (d : Defer N) (h : d.pop = none) : d.queue = [] := by
  unfold Defer.pop at h
  cases hq : d.queue with
  | nil => rfl
  | cons p rest =>
    rw [hq] at h
    exact absurd h (by simp)

theorem pop_spec (N : Nat) (d : Defer N) (p : Pos) (d' : Defer N) (hd : DeferOk N d)
    (h : d.pop = some (p, d')) :
    p.Valid N ∧ DeferOk N d' ∧ d.queue = p :: d'.queue := by
  obtain ⟨hlen, hval, hnd, hmask⟩ := hd
  unfold Defer.pop at h
  cases hq : d.queue with
  | nil => rw [hq] at h; exact absurd h (by simp)
  | cons p0 rest =>
    rw [hq] at h
    injection h with h
    injection h with h1 h2
    subst h1
    subst h2
    have hpv : p0.Valid N := hval p0 (by rw [hq]; exact List.mem_cons_self p0 rest)
    have hidx : p0.idx N < d.grid.length := by
      rw [hlen]; exact Pos.idx_lt N p0 hpv
    have hndc := List.nodup_cons.1 (hq ▸ hnd)
    refine ⟨hpv, ⟨?_, ?_, hndc.2, ?_⟩, ?_⟩
    · show (d.grid.set (p0.idx N) false).length = N * N * N * N
      rw [List.length_set]; exact hlen
    · intro q hqmem
      exact hval q (by rw [hq]; exact List.mem_cons_of_mem p0 hqmem)
    · intro q hqv
      show (d.grid.set (p0.idx N) false).getD (q.idx N) false = true ↔ q ∈ rest
      by_cases hqp : q = p0
      · subst hqp
        rw [getD_set_self _ _ _ _ hidx]
        constructor
        · intro hc; exact absurd hc (by simp)
        · intro hc; exact absurd hc hndc.1
      · rw [getD_set_ne _ _ _ _ _ (fun he => hqp (Pos.idx_inj N q p0 hqv hpv he.symm))]
        rw [hmask q hqv, hq]
        constructor
        · intro h
          rcases List.mem_cons.1 h with rfl | h2
          · exact absurd rfl hqp
          · exact h2
        · intro h; exact List.mem_cons_of_mem p0 h
    · rfl

/-! ## The cascade invariant -/

/-- The cascade invariant relative to the grid state `s0` at `remove` entry:
the grid invariants hold, the worklist is well-formed, and the `pushed`
counter names exactly the log entries added since `s0`, whose popping
restores `s0` bit-for-bit. -/
def StOk (N : Nat) (s0 : Sudoku N) : Sudoku.CascadeSt N → Prop
  | (s, d, pushed) => Good N s ∧ DeferOk N d ∧
      s.moves.length = pushed + s0.moves.length ∧ s.pop_n_moves pushed = s0

/-- A property holding on both the success and the contradiction payload of a
cascade outcome. -/
def ExcOk (N : Nat) (P : Sudoku.CascadeSt N → Prop) : Except (Sudoku.CascadeSt N) (Sudoku.CascadeSt N) → Prop
  | .ok st => P st
  | .error st => P st

theorem two_le_popCount (b a c : Nat) (hb : b < U64) (hne : a ≠ c)
    (ha : b.testBit a = true) (hc : b.testBit c = true) : 2 ≤ popCount b := by
  rw [popCount_eq_card b hb]
  have ha64 : a < 64 := testBit_lt_of_lt_two_pow b 64 a hb ha
  have hc64 : c < 64 := testBit_lt_of_lt_two_pow b 64 c hb hc
  have hsub : ({a, c} : Finset ℕ) ⊆ (Finset.range 64).filter (fun i => b.testBit i) := by
    intro i hi
    rcases Finset.mem_insert.1 hi with rfl | hi2
    · exact Finset.mem_filter.2 ⟨Finset.mem_range.2 ha64, ha⟩
    · rw [Finset.mem_singleton] at hi2
      subst hi2
      exact Finset.mem_filter.2 ⟨Finset.mem_range.2 hc64, hc⟩
  calc 2 = ({a, c} : Finset ℕ).card := (Finset.card_pair hne).symm
    _ ≤ _ := Finset.card_le_card hsub

theorem len_two_of_bit_ne (N : Nat) (c : Cell N) (hb : c.bitset < U64) (v : Nat)
    (hbit : c.bitset.testBit v = true) (hne : c ≠ Cell.from_value N v) : 2 ≤ c.len := by
  have h0 : c.bitset ≠ 0 := by
    intro hz
    rw [hz, Nat.zero_testBit] at hbit
    exact absurd hbit (by simp)
  have h1 : popCount c.bitset ≠ 0 := fun h => h0 ((popCount_eq_zero _ hb).1 h)
  have hne1 : popCount c.bitset ≠ 1 := by
    intro h
    rcases len_one_from_value N c hb h with ⟨w, hw, hcw⟩
    have hbw : c.bitset = 2 ^ w := by rw [hcw]; exact Cell.from_value_eq N w hw
    rw [hbw] at hbit
    have hvw : v = w := by
      by_contra hvw
      rw [Nat.testBit_two_pow_of_ne (fun he => hvw he.symm)] at hbit
      exact absurd hbit (by simp)
    subst hvw
    exact hne hcw
  show 2 ≤ popCount c.bitset
  omega

theorem from_value_inj (N a b : Nat) (ha : a < 64) (hb : b < 64)
    (h : Cell.from_value N a = Cell.from_value N b) : a = b := by
  have hbits : (Cell.from_value N a).bitset = (Cell.from_value N b).bitset := by rw [h]
  rw [Cell.from_value_eq N a ha, Cell.from_value_eq N b hb] at hbits
  exact Nat.pow_right_injective (by omega) hbits

theorem sortedBits_zero : sortedBits 0 = [] := by
  unfold sortedBits
  simp [Nat.zero_testBit]

theorem toListAux_eq_sortedBits (fuel : Nat) : ∀ b : Nat, b < U64 → popCount b ≤ fuel →
    Cell.toListAux fuel b = sortedBits b := by
  induction fuel with
  | zero =>
    intro b hb hf
    have hz : b = 0 := (popCount_eq_zero b hb).1 (by omega)
    subst hz
    rw [sortedBits_zero]
    rfl
  | succ fuel ih =>
    intro b hb hf
    by_cases hz : b = 0
    · subst hz
      rw [sortedBits_zero]
      rfl
    · show (if b = 0 then [] else trailing_zeros b ::
        Cell.toListAux fuel (b &&& u64not (1 <<< (trailing_zeros b % 64)))) = _
      rw [if_neg hz]
      have hpc : 1 ≤ popCount b := by
        have := (popCount_eq_zero b hb).2
        by_contra hc
        exact hz ((popCount_eq_zero b hb).1 (by omega))
      have hcl : (b &&& u64not (1 <<< (trailing_zeros b % 64))) = clearLowest b := rfl
      rw [hcl, ih (clearLowest b) (clearLowest_lt b hb)
        (by rw [popCount_clearLowest b hz hb]; omega)]
      exact (sortedBits_cons b hz hb).symm

theorem mem_toList (N : Nat) (c : Cell N) (hb : c.bitset < U64) (i : Nat) :
    i ∈ c.toList ↔ i < 64 ∧ c.bitset.testBit i = true := by
  show i ∈ Cell.toListAux 64 c.bitset ↔ _
  rw [toListAux_eq_sortedBits 64 c.bitset hb (popCount_le _ hb)]
  exact mem_sortedBits _ i

theorem nodup_toList (N : Nat) (c : Cell N) (hb : c.bitset < U64) : c.toList.Nodup := by
  show (Cell.toListAux 64 c.bitset).Nodup
  rw [toListAux_eq_sortedBits 64 c.bitset hb (popCount_le _ hb)]
  exact sortedBits_nodup _

theorem sub_testBit (N : Nat) (hN8 : N ≤ 8) (c : Cell N) (hc : c.bitset < 2 ^ (N * N))
    (v j : Nat) (hv : v < 64) :
    (c.sub v).bitset.testBit j = (c.bitset.testBit j && decide (j ≠ v)) := by
  have hcU : c.bitset < U64 :=
    lt_of_lt_of_le hc (Nat.pow_le_pow_right (by omega) (mul_self_le_64 N hN8))
  show (c.bitset &&& (u64not (1 <<< (v % 64)) &&& (Cell.FULL N).bitset)).testBit j = _
  rw [← Nat.land_assoc, Nat.testBit_land, testBit_and_not_shl c.bitset v j hcU hv]
  rw [Cell.FULL_eq N hN8, Nat.testBit_two_pow_sub_one]
  by_cases hj : c.bitset.testBit j = true
  · have hjlt : j < N * N := testBit_lt_of_lt_two_pow _ _ _ hc hj
    simp [hj, hjlt]
  · have hj' : c.bitset.testBit j = false := by
      revert hj; cases c.bitset.testBit j <;> simp
    simp [hj']

theorem bucket_pos_at (N : Nat) (s : Sudoku N) (hcons : Consistent N s) (p : Pos)
    (hpv : p.Valid N) (hl : 1 ≤ (s.get p).len) (hh : (s.get p).len ≤ N * N) :
    1 ≤ s.bucketGet ((s.get p).len - 1) := by
  rw [hcons _ (by omega)]
  apply List.countP_pos_iff.2
  refine ⟨p, (Pos.mem_iterList N p).2 hpv, ?_⟩
  rw [Nat.beq_eq_true_eq]
  omega

/-! ## Invariant preservation through the cascade -/

theorem remove_one_StOk (N : Nat) (hN8 : N ≤ 8) (s0 : Sudoku N) (s : Sudoku N) (d : Defer N)
    (k : Nat) (h : StOk N s0 (s, d, k)) (v : Nat) (p : Pos) (hpv : p.Valid N)
    (hbit : (s.get p).bitset.testBit v = true) (hlen2 : 2 ≤ (s.get p).len) :
    Sudoku.remove_one v p (s, d, k) = (removedState N s v p, d.push p, k + 1) ∧
    StOk N s0 (removedState N s v p, d.push p, k + 1) ∧
    (removedState N s v p).get p = (s.get p).remove v ∧
    (∀ q : Pos, q.Valid N → q ≠ p → (removedState N s v p).get q = s.get q) := by
  obtain ⟨hG, hd, hml, hpop⟩ := h
  have hidx : p.idx N < s.grid.length := by
    rw [hG.1.1]; exact Pos.idx_lt N p hpv
  have hbU : (s.get p).bitset < U64 :=
    lt_of_lt_of_le (hG.2.1 p hpv) (Nat.pow_le_pow_right (by omega) (mul_self_le_64 N hN8))
  have hv64 : v < 64 := testBit_lt_of_lt_two_pow _ 64 v hbU hbit
  have hlrel : ((s.get p).remove v).len = (s.get p).len - 1 := by
    show popCount ((s.get p).bitset &&& u64not (1 <<< (v % 64))) = popCount (s.get p).bitset - 1
    exact popCount_and_not_shl _ v hbU hv64 hbit
  have hlne : ((s.get p).remove v).len - 1 ≠ ((s.get p).remove v).len := by omega
  rcases remove_one_spec N hN8 s v p hG hpv hbit hlen2 with ⟨hG', hpop1, hself, hneq⟩
  refine ⟨remove_one_eq_removedState N v p s d k hidx hlne,
    ⟨hG', (push_spec N d p hd hpv).1, ?_, ?_⟩, hself, hneq⟩
  · show ((v, p) :: s.moves).length = k + 1 + s0.moves.length
    rw [List.length_cons, hml]
    omega
  · rw [pop_n_moves_succ, hpop1]
    exact hpop

theorem cascadeNaked_StOk (N : Nat) (hN8 : N ≤ 8) (s0 : Sudoku N) (value : Nat)
    (hv64 : value < 64) :
    ∀ (l : List Pos), (∀ q ∈ l, q.Valid N) → ∀ st : Sudoku.CascadeSt N, StOk N s0 st →
      ExcOk N (StOk N s0) (Sudoku.cascadeNaked value l st) := by
  intro l
  induction l with
  | nil =>
    intro _ st hst
    obtain ⟨s, d, k⟩ := st
    exact hst
  | cons q rest ih =>
    intro hval st hst
    obtain ⟨s, d, k⟩ := st
    have hqv := hval q (List.mem_cons_self q rest)
    have hrest := fun r hr => hval r (List.mem_cons_of_mem q hr)
    simp only [Sudoku.cascadeNaked]
    by_cases hcon : (s.get q).contains value = true
    · rw [if_pos hcon]
      by_cases heq : s.get q = Cell.from_value N value
      · rw [if_pos heq]
        exact hst
      · rw [if_neg heq]
        have hbit := (contains_iff_testBit N _ value hv64).1 hcon
        have hbU : (s.get q).bitset < U64 :=
          lt_of_lt_of_le (hst.1.2.1 q hqv) (Nat.pow_le_pow_right (by omega) (mul_self_le_64 N hN8))
        have hlen2 : 2 ≤ (s.get q).len := len_two_of_bit_ne N _ hbU value hbit heq
        rcases remove_one_StOk N hN8 s0 s d k hst value q hqv hbit hlen2 with ⟨heq1, hst', _, _⟩
        rw [heq1]
        exact ih hrest _ hst'
    · rw [if_neg hcon]
      exact ih hrest _ hst

theorem removeExtras_StOk (N : Nat) (hN8 : N ≤ 8) (s0 : Sudoku N) (value : Nat)
    (q : Pos) (hqv : q.Valid N) :
    ∀ (l : List Nat), l.Nodup → value ∉ l →
      ∀ (s : Sudoku N) (d : Defer N) (k : Nat), StOk N s0 (s, d, k) →
        (∀ iv ∈ l, (s.get q).bitset.testBit iv = true) →
        (s.get q).bitset.testBit value = true →
        ExcOk N (StOk N s0) (Sudoku.removeExtras value q l (s, d, k)) := by
  intro l
  induction l with
  | nil =>
    intro _ _ s d k hst _ _
    exact hst
  | cons iv rest ih =>
    intro hnd hvnot s d k hst hbits hbv
    simp only [Sudoku.removeExtras]
    by_cases heq : s.get q = Cell.from_value N value
    · rw [if_pos heq]
      exact hst
    · rw [if_neg heq]
      have hiless := hbits iv (List.mem_cons_self iv rest)
      have hivne : iv ≠ value := fun he => hvnot (he ▸ List.mem_cons_self iv rest)
      have hbU : (s.get q).bitset < U64 :=
        lt_of_lt_of_le (hst.1.2.1 q hqv) (Nat.pow_le_pow_right (by omega) (mul_self_le_64 N hN8))
      have hlen2 : 2 ≤ (s.get q).len := two_le_popCount _ iv value hbU hivne hiless hbv
      rcases remove_one_StOk N hN8 s0 s d k hst iv q hqv hiless hlen2 with ⟨heq1, hst', hself, _⟩
      rw [heq1]
      have hiv64 : iv < 64 := testBit_lt_of_lt_two_pow _ 64 iv hbU hiless
      have hnew : ∀ j, ((removedState N s iv q).get q).bitset.testBit j =
          ((s.get q).bitset.testBit j && decide (j ≠ iv)) := by
        intro j
        rw [hself]
        exact testBit_and_not_shl _ iv j hbU hiv64
      apply ih (List.nodup_cons.1 hnd).2 (fun hm => hvnot (List.mem_cons_of_mem _ hm)) _ _ _ hst'
      · intro j hj
        rw [hnew j]
        have hjne : j ≠ iv := fun he => (List.nodup_cons.1 hnd).1 (he ▸ hj)
        simp [hbits j (List.mem_cons_of_mem _ hj), hjne]
      · rw [hnew value]
        simp [hbv, Ne.symm hivne]

theorem unicRowAux_lt (N : Nat) (hN8 : N ≤ 8) (s : Sudoku N) (pos : Pos) :
    ∀ (l : List Nat) (acc : Cell N), (Sudoku.unicRowAux s pos l acc).bitset < 2 ^ (N * N) := by
  intro l
  induction l with
  | nil =>
    intro acc
    show (u64not acc.bitset &&& (Cell.FULL N).bitset) < 2 ^ (N * N)
    calc u64not acc.bitset &&& (Cell.FULL N).bitset ≤ (Cell.FULL N).bitset := Nat.and_le_right
      _ < 2 ^ (N * N) := by
          rw [Cell.FULL_eq N hN8]
          have h0 : 0 < 2 ^ (N * N) := Nat.pos_pow_of_pos _ (by omega)
          omega
  | cons x rest ih =>
    intro acc
    simp only [Sudoku.unicRowAux]
    split
    · show (0 : Nat) < 2 ^ (N * N)
      exact Nat.pos_pow_of_pos _ (by omega)
    · exact ih _

theorem unicColumnAux_lt (N : Nat) (hN8 : N ≤ 8) (s : Sudoku N) (pos : Pos) :
    ∀ (l : List Nat) (acc : Cell N), (Sudoku.unicColumnAux s pos l acc).bitset < 2 ^ (N * N) := by
  intro l
  induction l with
  | nil =>
    intro acc
    show (u64not acc.bitset &&& (Cell.FULL N).bitset) < 2 ^ (N * N)
    calc u64not acc.bitset &&& (Cell.FULL N).bitset ≤ (Cell.FULL N).bitset := Nat.and_le_right
      _ < 2 ^ (N * N) := by
          rw [Cell.FULL_eq N hN8]
          have h0 : 0 < 2 ^ (N * N) := Nat.pos_pow_of_pos _ (by omega)
          omega
  | cons x rest ih =>
    intro acc
    simp only [Sudoku.unicColumnAux]
    split
    · show (0 : Nat) < 2 ^ (N * N)
      exact Nat.pos_pow_of_pos _ (by omega)
    · exact ih _

theorem unicSquareAux_lt (N : Nat) (hN8 : N ≤ 8) (s : Sudoku N) (pos : Pos) :
    ∀ (l : List Nat) (acc : Cell N), (Sudoku.unicSquareAux s pos l acc).bitset < 2 ^ (N * N) := by
  intro l
  induction l with
  | nil =>
    intro acc
    show (u64not acc.bitset &&& (Cell.FULL N).bitset) < 2 ^ (N * N)
    calc u64not acc.bitset &&& (Cell.FULL N).bitset ≤ (Cell.FULL N).bitset := Nat.and_le_right
      _ < 2 ^ (N * N) := by
          rw [Cell.FULL_eq N hN8]
          have h0 : 0 < 2 ^ (N * N) := Nat.pos_pow_of_pos _ (by omega)
          omega
  | cons x rest ih =>
    intro acc
    simp only [Sudoku.unicSquareAux]
    split
    · show (0 : Nat) < 2 ^ (N * N)
      exact Nat.pos_pow_of_pos _ (by omega)
    · exact ih _

theorem unic_lt (N : Nat) (hN8 : N ≤ 8) (s : Sudoku N) (q : Pos) :
    (((s.unic_on_row q).or (s.unic_on_column q)).or (s.unic_on_square q)).bitset
      < 2 ^ (N * N) := by
  show ((s.unic_on_row q).bitset ||| (s.unic_on_column q).bitset) |||
    (s.unic_on_square q).bitset < 2 ^ (N * N)
  apply Nat.or_lt_two_pow
  · apply Nat.or_lt_two_pow
    · exact unicRowAux_lt N hN8 s q _ _
    · exact unicColumnAux_lt N hN8 s q _ _
  · exact unicSquareAux_lt N hN8 s q _ _

theorem cascadeHidden_StOk (N : Nat) (hN8 : N ≤ 8) (s0 : Sudoku N) :
    ∀ (l : List Pos), (∀ q ∈ l, q.Valid N) → ∀ st : Sudoku.CascadeSt N, StOk N s0 st →
      ExcOk N (StOk N s0) (Sudoku.cascadeHidden l st) := by
  intro l
  induction l with
  | nil =>
    intro _ st hst
    obtain ⟨s, d, k⟩ := st
    exact hst
  | cons q rest ih =>
    intro hval st hst
    obtain ⟨s, d, k⟩ := st
    have hqv := hval q (List.mem_cons_self q rest)
    have hrest := fun r hr => hval r (List.mem_cons_of_mem q hr)
    simp only [Sudoku.cascadeHidden]
    by_cases h1 : (s.get q).len = 1
    · rw [if_pos h1]
      exact ih hrest _ hst
    · rw [if_neg h1]
      by_cases h0 : (((s.unic_on_row q).or (s.unic_on_column q)).or (s.unic_on_square q)).len = 0
      · rw [if_pos h0]
        exact ih hrest _ hst
      · rw [if_neg h0]
        cases hgv : (((s.unic_on_row q).or (s.unic_on_column q)).or (s.unic_on_square q)).get_value with
        | none => exact hst
        | some value =>
          have hunicU : (((s.unic_on_row q).or (s.unic_on_column q)).or
              (s.unic_on_square q)).bitset < U64 :=
            lt_of_lt_of_le (unic_lt N hN8 s q)
              (Nat.pow_le_pow_right (by omega) (mul_self_le_64 N hN8))
          rcases get_value_some N _ hunicU value hgv with ⟨_, hv64⟩
          show ExcOk N (StOk N s0)
            (if ¬(s.get q).contains value = true then Except.error (s, d, k)
             else
               match Sudoku.removeExtras value q ((s.get q).sub value).toList (s, d, k) with
               | Except.error st => Except.error st
               | Except.ok st => Sudoku.cascadeHidden rest st)
          by_cases hcont : (s.get q).contains value = true
          · rw [if_neg (not_not_intro hcont)]
            have hc2 : (s.get q).bitset < 2 ^ (N * N) := hst.1.2.1 q hqv
            have hcU : (s.get q).bitset < U64 :=
              lt_of_lt_of_le hc2 (Nat.pow_le_pow_right (by omega) (mul_self_le_64 N hN8))
            have hsubU : ((s.get q).sub value).bitset < U64 :=
              lt_of_le_of_lt Nat.and_le_left hcU
            have hst' : ∀ j, ((s.get q).sub value).bitset.testBit j =
                ((s.get q).bitset.testBit j && decide (j ≠ value)) :=
              fun j => sub_testBit N hN8 _ hc2 value j hv64
            have hbv : (s.get q).bitset.testBit value = true :=
              (contains_iff_testBit N _ value hv64).1 hcont
            have hexc := removeExtras_StOk N hN8 s0 value q hqv
              ((s.get q).sub value).toList (nodup_toList N _ hsubU)
              (by
                intro hm
                rcases (mem_toList N _ hsubU value).1 hm with ⟨_, hbit⟩
                rw [hst' value] at hbit
                simp at hbit)
              s d k hst
              (by
                intro j hj
                rcases (mem_toList N _ hsubU j).1 hj with ⟨_, hbit⟩
                rw [hst' j, Bool.and_eq_true] at hbit
                exact hbit.1)
              hbv
            cases hre : Sudoku.removeExtras value q ((s.get q).sub value).toList (s, d, k) with
            | error st1 =>
              rw [hre] at hexc
              exact hexc
            | ok st1 =>
              rw [hre] at hexc
              exact ih hrest st1 hexc
          · rw [if_pos hcont]
            exact hst

theorem removeLoop_StOk (N : Nat) (hN8 : N ≤ 8) (s0 : Sudoku N) :
    ∀ (fuel : Nat) (st : Sudoku.CascadeSt N), StOk N s0 st →
      ∀ r, Sudoku.removeLoop fuel st = some r → ExcOk N (StOk N s0) r := by
  intro fuel
  induction fuel with
  | zero =>
    intro st hst r hr
    exact absurd hr (by simp [Sudoku.removeLoop])
  | succ fuel ih =>
    intro st hst r hr
    obtain ⟨s, d, k⟩ := st
    simp only [Sudoku.removeLoop] at hr
    split at hr
    next hpop =>
      injection hr with hr
      subst hr
      exact hst
    next pos d' hpop =>
      rcases pop_spec N d pos d' hst.2.1 hpop with ⟨hposv, hd', _⟩
      have hst1 : StOk N s0 (s, d', k) := ⟨hst.1, hd', hst.2.2⟩
      have hcval : ∀ q ∈ correlated N pos, q.Valid N :=
        fun q hq => mem_correlated_valid N pos q hposv hq
      have hafter : ∀ st1, (match (s.get pos).get_value with
          | some value => Sudoku.cascadeNaked value (correlated N pos) (s, d', k)
          | none => Except.ok (s, d', k)) = Except.ok st1 → StOk N s0 st1 := by
        intro st1 hb
        cases hgv : (s.get pos).get_value with
        | none =>
          rw [hgv] at hb
          replace hb : Except.ok (s, d', k) = Except.ok st1 := hb
          injection hb with hb
          rw [← hb]
          exact hst1
        | some value =>
          rw [hgv] at hb
          replace hb : Sudoku.cascadeNaked value (correlated N pos) (s, d', k) =
            Except.ok st1 := hb
          have hposU : (s.get pos).bitset < U64 :=
            lt_of_lt_of_le (hst.1.2.1 pos hposv)
              (Nat.pow_le_pow_right (by omega) (mul_self_le_64 N hN8))
          rcases get_value_some N _ hposU value hgv with ⟨_, hv64⟩
          have hexn := cascadeNaked_StOk N hN8 s0 value hv64 (correlated N pos) hcval _ hst1
          rw [hb] at hexn
          exact hexn
      have hafterErr : ∀ st1, (match (s.get pos).get_value with
          | some value => Sudoku.cascadeNaked value (correlated N pos) (s, d', k)
          | none => Except.ok (s, d', k)) = Except.error st1 → StOk N s0 st1 := by
        intro st1 hb
        cases hgv : (s.get pos).get_value with
        | none =>
          rw [hgv] at hb
          replace hb : Except.ok (s, d', k) = Except.error st1 := hb
          exact absurd hb (by simp)
        | some value =>
          rw [hgv] at hb
          replace hb : Sudoku.cascadeNaked value (correlated N pos) (s, d', k) =
            Except.error st1 := hb
          have hposU : (s.get pos).bitset < U64 :=
            lt_of_lt_of_le (hst.1.2.1 pos hposv)
              (Nat.pow_le_pow_right (by omega) (mul_self_le_64 N hN8))
          rcases get_value_some N _ hposU value hgv with ⟨_, hv64⟩
          have hexn := cascadeNaked_StOk N hN8 s0 value hv64 (correlated N pos) hcval _ hst1
          rw [hb] at hexn
          exact hexn
      split at hr
      next st1 heq =>
        injection hr with hr
        subst hr
        exact hafterErr st1 heq
      next st1 heq =>
        have hst2 : StOk N s0 st1 := hafter st1 heq
        have hexc := cascadeHidden_StOk N hN8 s0 (correlated N pos) hcval st1 hst2
        split at hr
        next st2 heq2 =>
          injection hr with hr
          subst hr
          rw [heq2] at hexc
          exact hexc
        next st2 heq2 =>
          rw [heq2] at hexc
          exact ih st2 hexc r hr

/-! ## `remove` and `remove_all` specifications -/

theorem remove_spec (N : Nat) (hN8 : N ≤ 8) (fuel : Nat) (s : Sudoku N) (value : Nat) (pos : Pos)
    (hG : Good N s) (hpv : pos.Valid N)
    (hbit : (s.get pos).bitset.testBit value = true) :
    ∀ r, Sudoku.remove fuel s value pos = some r →
      (r.2 = none → r.1 = s) ∧
      (∀ k, r.2 = some k → Good N r.1 ∧ r.1.moves.length = k + s.moves.length ∧
        r.1.pop_n_moves k = s) := by
  intro r hr
  unfold Sudoku.remove at hr
  by_cases heq : s.get pos = Cell.from_value N value
  · rw [if_pos heq] at hr
    injection hr with hr
    subst hr
    exact ⟨fun _ => rfl, fun k hk => absurd hk (by simp)⟩
  · rw [if_neg heq] at hr
    have hst0 : StOk N s (s, Defer.clear N, 0) := ⟨hG, clear_DeferOk N, by simp, rfl⟩
    have hbU : (s.get pos).bitset < U64 :=
      lt_of_lt_of_le (hG.2.1 pos hpv) (Nat.pow_le_pow_right (by omega) (mul_self_le_64 N hN8))
    have hlen2 : 2 ≤ (s.get pos).len := len_two_of_bit_ne N _ hbU value hbit heq
    rcases remove_one_StOk N hN8 s s (Defer.clear N) 0 hst0 value pos hpv hbit hlen2 with
      ⟨heq1, hst1, _, _⟩
    rw [heq1] at hr
    have hex := removeLoop_StOk N hN8 s fuel _ hst1
    cases hrl : Sudoku.removeLoop fuel (removedState N s value pos, (Defer.clear N).push pos, 0 + 1) with
    | none =>
      rw [hrl] at hr
      exact absurd hr (by simp)
    | some res =>
      rw [hrl] at hr
      have hres := hex res hrl
      cases res with
      | error st1 =>
        obtain ⟨s1, d1, pushed⟩ := st1
        injection hr with hr
        subst hr
        exact ⟨fun _ => hres.2.2.2, fun k hk => absurd hk (by simp)⟩
      | ok st1 =>
        obtain ⟨s1, d1, pushed⟩ := st1
        injection hr with hr
        subst hr
        refine ⟨fun hc => absurd hc (by simp), fun k hk => ?_⟩
        have hkp : pushed = k := by injection hk
        subst hkp
        exact ⟨hres.1, hres.2.2.1, hres.2.2.2⟩

theorem removeAllGo_spec (N : Nat) (hN8 : N ≤ 8) (fuel : Nat) (pos : Pos) (hpv : pos.Valid N)
    (s0 : Sudoku N) :
    ∀ (l : List Nat), (∀ iv ∈ l, iv < 64) →
      ∀ (s : Sudoku N) (count : Nat), Good N s →
        s.moves.length = count + s0.moves.length → s.pop_n_moves count = s0 →
        ∀ r, Sudoku.removeAllGo fuel pos l s count = some r →
          (r.2 = none → r.1 = s0) ∧
          (∀ k, r.2 = some k → Good N r.1 ∧ r.1.moves.length = k + s0.moves.length ∧
            r.1.pop_n_moves k = s0) := by
  intro l
  induction l with
  | nil =>
    intro _ s count hG hml hpop r hr
    simp only [Sudoku.removeAllGo] at hr
    injection hr with hr
    subst hr
    refine ⟨fun hc => absurd hc (by simp), fun k hk => ?_⟩
    have hck : count = k := by injection hk
    subst hck
    exact ⟨hG, hml, hpop⟩
  | cons iv rest ih =>
    intro hlt s count hG hml hpop r hr
    simp only [Sudoku.removeAllGo] at hr
    by_cases hcont : (s.get pos).contains iv = true
    · rw [if_pos hcont] at hr
      have hiv64 := hlt iv (List.mem_cons_self iv rest)
      have hbit := (contains_iff_testBit N _ iv hiv64).1 hcont
      cases hrem : Sudoku.remove fuel s iv pos with
      | none =>
        rw [hrem] at hr
        exact absurd hr (by simp)
      | some r1 =>
        rw [hrem] at hr
        have hrs := remove_spec N hN8 fuel s iv pos hG hpv hbit r1 hrem
        obtain ⟨s1, o1⟩ := r1
        cases o1 with
        | none =>
          have hs1 : s1 = s := hrs.1 rfl
          injection hr with hr
          subst hr
          refine ⟨fun _ => ?_, fun k hk => absurd hk (by simp)⟩
          show s1.pop_n_moves count = s0
          rw [hs1]
          exact hpop
        | some n =>
          rcases hrs.2 n rfl with ⟨hG1, hml1, hpop1⟩
          apply ih (fun j hj => hlt j (List.mem_cons_of_mem _ hj)) s1 (count + n) hG1 ?_ ?_ r hr
          · rw [hml1, hml]
            omega
          · rw [pop_n_moves_add N count n s1, hpop1]
            exact hpop
    · rw [if_neg hcont] at hr
      exact ih (fun j hj => hlt j (List.mem_cons_of_mem _ hj)) s count hG hml hpop r hr

theorem remove_all_spec (N : Nat) (hN8 : N ≤ 8) (fuel : Nat) (s : Sudoku N) (values : Cell N)
    (pos : Pos) (hG : Good N s) (hpv : pos.Valid N) :
    ∀ r, Sudoku.remove_all fuel s values pos = some r →
      (r.2 = none → r.1 = s) ∧
      (∀ k, r.2 = some k → Good N r.1 ∧ r.1.moves.length = k + s.moves.length ∧
        r.1.pop_n_moves k = s) := by
  intro r hr
  have hbU : (s.get pos).bitset < U64 :=
    lt_of_lt_of_le (hG.2.1 pos hpv) (Nat.pow_le_pow_right (by omega) (mul_self_le_64 N hN8))
  have handU : ((s.get pos).and values).bitset < U64 := lt_of_le_of_lt Nat.and_le_left hbU
  exact removeAllGo_spec N hN8 fuel pos hpv s ((s.get pos).and values).toList
    (fun iv hiv => ((mem_toList N _ handU iv).1 hiv).1) s 0 hG (by simp) rfl r hr

/-! ## The inverse elementary step -/

/-- The grid state after undoing the most recent move `(v, p)`, with all reads
resolved (assuming the position is in bounds and `1 ≤ (s.get p).len`). -/
def restoredState (N : Nat) (s : Sudoku N) (v : Nat) (p : Pos) : Sudoku N :=
  { grid := s.grid.set (p.idx N) ((s.get p).or (Cell.from_value N v)),
    moves := s.moves.tail,
    buckets := (s.buckets.set (s.get p).len (u64inc (s.buckets.getD (s.get p).len 0))).set
      ((s.get p).len - 1) (u64dec (s.buckets.getD ((s.get p).len - 1) 0)) }

theorem pop_one_eq_restoredState (N : Nat) (s : Sudoku N) (v : Nat) (p : Pos)
    (rest : List (Nat × Pos)) (hmv : s.moves = (v, p) :: rest)
    (hlne : (s.get p).len - 1 ≠ (s.get p).len) :
    s.pop_one = restoredState N s v p := by
  rw [pop_one_unfold N s v p rest hmv (s.get p) rfl]
  unfold restoredState
  rw [hmv]
  simp only [List.tail_cons]
  rw [getD_set_ne _ _ _ _ _ (fun he => hlne he.symm)]

theorem restoredState_get_self (N : Nat) (s : Sudoku N) (v : Nat) (p : Pos)
    (hidx : p.idx N < s.grid.length) :
    (restoredState N s v p).get p = (s.get p).or (Cell.from_value N v) :=
  getD_set_self _ _ _ _ hidx

theorem restoredState_get_ne (N : Nat) (s : Sudoku N) (v : Nat) (p : Pos) (q : Pos)
    (hpv : p.Valid N) (hqv : q.Valid N) (hqne : q ≠ p) :
    (restoredState N s v p).get q = s.get q := by
  show (s.grid.set (p.idx N) ((s.get p).or (Cell.from_value N v))).getD (q.idx N)
    (Cell.EMPTY N) = _
  rw [getD_set_ne]
  · rfl
  · intro he
    exact hqne (Pos.idx_inj N q p hqv hpv he.symm)

/-- Undoing the top move of a well-formed grid preserves all grid invariants
and restores exactly the logged bit. -/
theorem pop_one_spec (N : Nat) (hN8 : N ≤ 8) (s : Sudoku N) (hG : Good N s)
    (v : Nat) (p : Pos) (rest : List (Nat × Pos)) (hmv : s.moves = (v, p) :: rest) :
    Good N s.pop_one ∧ s.pop_one.moves = rest ∧
    (s.pop_one.get p).bitset = (s.get p).bitset ||| 2 ^ v ∧
    (∀ q : Pos, q.Valid N → q ≠ p → s.pop_one.get q = s.get q) := by
  obtain ⟨⟨hgl, hbl, hbu⟩, hcb, hnoe, hcons, hmoves⟩ := hG
  rw [hmv] at hmoves
  obtain ⟨hpv, hvR, habs, hrest⟩ := hmoves
  have hR64 : N * N ≤ 64 := mul_self_le_64 N hN8
  have hcbp : (s.get p).bitset < 2 ^ (N * N) := hcb p hpv
  have hU : (s.get p).bitset < U64 :=
    lt_of_lt_of_le hcbp (Nat.pow_le_pow_right (by omega) hR64)
  have hv64 : v < 64 := lt_of_lt_of_le hvR hR64
  have habs' : (s.get p).bitset.testBit v = false := habs
  have hc'bits : ((s.get p).or (Cell.from_value N v)).bitset = (s.get p).bitset ||| 2 ^ v := by
    show (s.get p).bitset ||| (Cell.from_value N v).bitset = _
    rw [Cell.from_value_eq N v hv64]
  have hc'lt : ((s.get p).or (Cell.from_value N v)).bitset < 2 ^ (N * N) := by
    rw [hc'bits]
    exact Nat.or_lt_two_pow hcbp (Nat.pow_lt_pow_right (by omega) hvR)
  have hc'U : ((s.get p).or (Cell.from_value N v)).bitset < U64 :=
    lt_of_lt_of_le hc'lt (Nat.pow_le_pow_right (by omega) hR64)
  have hlrel : ((s.get p).or (Cell.from_value N v)).len = (s.get p).len + 1 := by
    show popCount ((s.get p).or (Cell.from_value N v)).bitset = popCount (s.get p).bitset + 1
    rw [hc'bits]
    exact popCount_or_shl _ v hU hv64 habs'
  have hnz : (s.get p).bitset ≠ 0 := hnoe p hpv
  have hl1 : 1 ≤ (s.get p).len := by
    have := (popCount_eq_zero (s.get p).bitset hU).2
    show 1 ≤ popCount (s.get p).bitset
    by_contra hc
    exact hnz ((popCount_eq_zero (s.get p).bitset hU).1 (by omega))
  have hlenc : ((s.get p).or (Cell.from_value N v)).len ≤ N * N :=
    popCount_le_of_lt_two_pow _ _ hR64 hc'lt
  have hlR : (s.get p).len ≤ N * N - 1 := by omega
  have hNN1 : 1 ≤ N * N := by omega
  have hidx : p.idx N < s.grid.length := by
    rw [hgl]; exact Pos.idx_lt N p hpv
  have hlne : (s.get p).len - 1 ≠ (s.get p).len := by omega
  have hllt : (s.get p).len < s.buckets.length := by rw [hbl]; omega
  have hl1lt : (s.get p).len - 1 < s.buckets.length := by rw [hbl]; omega
  have hpeq := pop_one_eq_restoredState N s v p rest hmv hlne
  have hget_self := restoredState_get_self N s v p hidx
  have hget_ne := restoredState_get_ne N s v p
  have hrs_grid : (restoredState N s v p).grid =
      s.grid.set (p.idx N) ((s.get p).or (Cell.from_value N v)) := rfl
  have hrs_moves : (restoredState N s v p).moves = s.moves.tail := rfl
  have hrs_buckets : (restoredState N s v p).buckets =
      (s.buckets.set (s.get p).len (u64inc (s.buckets.getD (s.get p).len 0))).set
        ((s.get p).len - 1) (u64dec (s.buckets.getD ((s.get p).len - 1) 0)) := rfl
  rw [hpeq]
  refine ⟨⟨⟨?_, ?_, ?_⟩, ?_, ?_, ?_, ?_⟩, ?_, by rw [hget_self, hc'bits],
    fun q hqv hqne => hget_ne q hpv hqv hqne⟩
  · rw [hrs_grid]
    simp only [List.length_set]
    exact hgl
  · rw [hrs_buckets]
    simp only [List.length_set]
    exact hbl
  · rw [hrs_buckets]
    intro x hx
    rcases List.mem_or_eq_of_mem_set hx with hx2 | hxe
    · rcases List.mem_or_eq_of_mem_set hx2 with hx3 | hxe2
      · exact hbu x hx3
      · rw [hxe2]
        exact u64inc_lt _
    · rw [hxe]
      exact u64dec_lt _
  · -- CellsBounded
    intro q hqv
    by_cases hqp : q = p
    · rw [hqp, hget_self]
      exact hc'lt
    · rw [hget_ne q hpv hqv hqp]
      exact hcb q hqv
  · -- NoEmptyCell
    intro q hqv
    by_cases hqp : q = p
    · rw [hqp, hget_self]
      intro hz
      have hbt : (((s.get p).or (Cell.from_value N v)).bitset).testBit v = true := by
        rw [hc'bits, Nat.testBit_lor, Nat.testBit_two_pow_self]
        simp
      rw [hz, Nat.zero_testBit] at hbt
      exact absurd hbt (by simp)
    · rw [hget_ne q hpv hqv hqp]
      exact hnoe q hqv
  · -- Consistent
    intro i hi
    have hmem_p : p ∈ Pos.iterList N := (Pos.mem_iterList N p).2 hpv
    have hagree : ∀ q ∈ Pos.iterList N, q ≠ p →
        (fun q => (((restoredState N s v p).get q).len == i + 1)) q =
        (fun q => ((s.get q).len == i + 1)) q := by
      intro q hq hqp
      simp only
      rw [hget_ne q hpv ((Pos.mem_iterList N q).1 hq) hqp]
    have hupd := countP_update (Pos.iterList N) (nodup_iterList N) p hmem_p _ _ hagree
    simp only at hupd
    rw [hget_self] at hupd
    have hcons_i : s.buckets.getD i 0 =
        (Pos.iterList N).countP (fun p => (s.get p).len == i + 1) := hcons i hi
    show (restoredState N s v p).buckets.getD i 0 = _
    rw [hrs_buckets]
    have hcountlt : ∀ f : Pos → Bool, (Pos.iterList N).countP f < U64 := by
      intro f
      have h1 := countP_le_card N hN8 f
      have h2 : (4096 : Nat) < U64 := by unfold U64; norm_num
      omega
    by_cases hiℓ : i = (s.get p).len
    · subst hiℓ
      have hllt' : (s.get p).len <
          (s.buckets.set (s.get p).len (u64inc (s.buckets.getD (s.get p).len 0))).length := by
        rw [List.length_set]
        exact hllt
      rw [getD_set_ne _ _ _ _ _ hlne, getD_set_self _ _ _ _ hllt]
      have hold_p : ((s.get p).len == (s.get p).len + 1) = false := by
        rw [beq_eq_false_iff_ne]
        omega
      have hnew_p : (((s.get p).or (Cell.from_value N v)).len == (s.get p).len + 1) = true := by
        rw [Nat.beq_eq_true_eq]
        omega
      rw [hold_p, hnew_p] at hupd
      rw [if_neg Bool.false_ne_true, if_pos rfl] at hupd
      rw [hcons_i]
      have hsmall : (Pos.iterList N).countP
          (fun q => (s.get q).len == (s.get p).len + 1) + 1 < U64 := by
        have h1 := countP_le_card N hN8 (fun q => (s.get q).len == (s.get p).len + 1)
        have h2 : (4096 : Nat) + 1 < U64 := by unfold U64; norm_num
        omega
      rw [u64inc_eq_add_one _ hsmall]
      omega
    · by_cases hiℓ1 : i = (s.get p).len - 1
      · subst hiℓ1
        have hl1lt' : (s.get p).len - 1 <
            (s.buckets.set (s.get p).len (u64inc (s.buckets.getD (s.get p).len 0))).length := by
          rw [List.length_set]
          exact hl1lt
        rw [getD_set_self _ _ _ _ hl1lt']
        have hip1 : (s.get p).len - 1 + 1 = (s.get p).len := by omega
        have hold_p : ((s.get p).len == (s.get p).len - 1 + 1) = true := by
          rw [Nat.beq_eq_true_eq, hip1]
        have hnew_p : (((s.get p).or (Cell.from_value N v)).len ==
            (s.get p).len - 1 + 1) = false := by
          rw [beq_eq_false_iff_ne, hip1]
          omega
        rw [hold_p, hnew_p] at hupd
        rw [if_pos rfl, if_neg Bool.false_ne_true] at hupd
        have hpos : 1 ≤ (Pos.iterList N).countP
            (fun q => (s.get q).len == (s.get p).len - 1 + 1) := by
          apply List.countP_pos_iff.2
          exact ⟨p, hmem_p, hold_p⟩
        rw [hcons_i]
        rw [u64dec_eq_sub_one _ hpos (hcountlt _)]
        omega
      · rw [getD_set_ne _ _ _ _ _ (fun he => hiℓ1 he.symm),
          getD_set_ne _ _ _ _ _ (fun he => hiℓ he.symm)]
        have hold_p : ((s.get p).len == i + 1) = false := by
          rw [beq_eq_false_iff_ne]
          omega
        have hnew_p : (((s.get p).or (Cell.from_value N v)).len == i + 1) = false := by
          rw [beq_eq_false_iff_ne]
          omega
        rw [hold_p, hnew_p] at hupd
        rw [if_neg Bool.false_ne_true] at hupd
        rw [hcons_i]
        omega
  · -- MovesOk
    rw [hrs_grid, hrs_moves, hmv]
    simp only [List.tail_cons]
    exact hrest
  · -- moves
    rw [hrs_moves, hmv]
    rfl

/-! ## Reachability -/

theorem popCount_two_pow_sub_one (k : Nat) (hk : k ≤ 64) : popCount (2 ^ k - 1) = k := by
  have hlt : 2 ^ k - 1 < U64 := by
    have h1 : 2 ^ k ≤ 2 ^ 64 := Nat.pow_le_pow_right (by omega) hk
    have h2 : 0 < 2 ^ k := Nat.pos_pow_of_pos _ (by omega)
    unfold U64
    omega
  rw [popCount_eq_card _ hlt]
  have hset : (Finset.range 64).filter (fun i => (2 ^ k - 1).testBit i) = Finset.range k := by
    apply Finset.ext
    intro i
    simp only [Finset.mem_filter, Finset.mem_range, Nat.testBit_two_pow_sub_one,
      decide_eq_true_eq]
    omega
  rw [hset, Finset.card_range]

theorem getD_replicate_lt (n : Nat) (a d : α) : ∀ i : Nat, i < n →
    (List.replicate n a).getD i d = a := by
  induction n with
  | zero => intro i hi; omega
  | succ n ih =>
    intro i hi
    cases i with
    | zero => rfl
    | succ i => exact ih i (by omega)

theorem default_get (N : Nat) (p : Pos) (hpv : p.Valid N) :
    (Sudoku.default N).get p = Cell.FULL N := by
  show (List.replicate (N * N * N * N) (Cell.FULL N)).getD (p.idx N) (Cell.EMPTY N) = _
  exact getD_replicate_lt _ _ _ _ (Pos.idx_lt N p hpv)

theorem FULL_len (N : Nat) (hN8 : N ≤ 8) : (Cell.FULL N).len = N * N := by
  show popCount (Cell.FULL N).bitset = N * N
  rw [Cell.FULL_eq N hN8]
  exact popCount_two_pow_sub_one _ (mul_self_le_64 N hN8)

theorem good_default (N : Nat) (hN1 : 1 ≤ N) (hN8 : N ≤ 8) : Good N (Sudoku.default N) := by
  have hfull : (Cell.FULL N).bitset = 2 ^ (N * N) - 1 := Cell.FULL_eq N hN8
  have h2NN : 2 ≤ 2 ^ (N * N) := by
    calc 2 = 2 ^ 1 := rfl
      _ ≤ 2 ^ (N * N) := Nat.pow_le_pow_right (by omega) (by nlinarith)
  have hblen : ((List.replicate (N * N) 0).set (N * N - 1) (N * N * N * N)).length = N * N := by
    rw [List.length_set, List.length_replicate]
  refine ⟨⟨List.length_replicate _ _, hblen, ?_⟩, ?_, ?_, ?_, trivial⟩
  · intro b hb
    rcases List.mem_or_eq_of_mem_set hb with hb2 | rfl
    · rw [List.eq_of_mem_replicate hb2]
      unfold U64
      omega
    · have := iterList_card_le N hN8
      have : (4096 : Nat) < U64 := by unfold U64; norm_num
      omega
  · intro p hpv
    rw [default_get N p hpv, hfull]
    omega
  · intro p hpv
    rw [default_get N p hpv, hfull]
    omega
  · intro i hi
    have hall : ∀ p ∈ Pos.iterList N, ((Sudoku.default N).get p).len = N * N := by
      intro p hp
      rw [default_get N p ((Pos.mem_iterList N p).1 hp), FULL_len N hN8]
    show ((List.replicate (N * N) 0).set (N * N - 1) (N * N * N * N)).getD i 0 = _
    by_cases hieq : i = N * N - 1
    · subst hieq
      rw [getD_set_self _ _ _ _ (by rw [List.length_replicate]; omega)]
      have hcnt : (Pos.iterList N).countP (fun p => ((Sudoku.default N).get p).len ==
          N * N - 1 + 1) = (Pos.iterList N).length := by
        apply List.countP_eq_length.2
        intro p hp
        rw [hall p hp, Nat.beq_eq_true_eq]
        omega
      rw [hcnt, length_iterList]
    · rw [getD_set_ne _ _ _ _ _ (fun he => hieq he.symm), getD_replicate_lt _ _ _ _ (by omega)]
      have hcnt : (Pos.iterList N).countP
          (fun p => ((Sudoku.default N).get p).len == i + 1) = 0 := by
        apply List.countP_eq_zero.2
        intro p hp
        intro hc
        beta_reduce at hc
        rw [hall p hp, Nat.beq_eq_true_eq] at hc
        omega
      rw [hcnt]

/-- Grids reachable from `Sudoku::default()` by `remove_all` calls (successful
or contradicted) at valid positions and by in-range `pop_n_moves` calls — the
operation sequences claim C4 quantifies over. -/
inductive Reachable (N : Nat) : Sudoku N → Prop where
  | default : Reachable N (Sudoku.default N)
  | removeAll (s s' : Sudoku N) (fuel : Nat) (values : Cell N) (pos : Pos) (o : Option Nat)
      (hpv : pos.Valid N) (h : Reachable N s)
      (hr : s.remove_all fuel values pos = some (s', o)) : Reachable N s'
  | pop (s : Sudoku N) (k : Nat) (h : Reachable N s) (hk : k ≤ s.moves.length) :
      Reachable N (s.pop_n_moves k)

theorem pops_good (N : Nat) (hN8 : N ≤ 8) :
    ∀ (k : Nat) (s : Sudoku N), Good N s → k ≤ s.moves.length →
      Good N (s.pop_n_moves k) ∧ (s.pop_n_moves k).moves.length = s.moves.length - k := by
  intro k
  induction k with
  | zero => intro s hG _; exact ⟨hG, rfl⟩
  | succ k ih =>
    intro s hG hk
    cases hmv : s.moves with
    | nil =>
      rw [hmv] at hk
      exact absurd hk (by simp)
    | cons vp rest =>
      obtain ⟨v, p⟩ := vp
      rw [hmv] at hk
      rcases pop_one_spec N hN8 s hG v p rest hmv with ⟨hG1, hmv1, _, _⟩
      have hlen1 : s.pop_one.moves.length = rest.length := by rw [hmv1]
      have hkr : k ≤ rest.length := by
        rw [List.length_cons] at hk
        omega
      rcases ih s.pop_one hG1 (by omega) with ⟨hG2, hlen2⟩
      rw [pop_n_moves_succ]
      refine ⟨hG2, ?_⟩
      rw [hlen2, hlen1, List.length_cons]
      omega

theorem reachable_good (N : Nat) (hN1 : 1 ≤ N) (hN8 : N ≤ 8) (s : Sudoku N)
    (h : Reachable N s) : Good N s := by
  induction h with
  | default => exact good_default N hN1 hN8
  | removeAll s s' fuel values pos o hpv hre hr ih =>
    have hspec := remove_all_spec N hN8 fuel s values pos ih hpv (s', o) hr
    cases o with
    | none =>
      have : s' = s := hspec.1 rfl
      rw [this]
      exact ih
    | some k => exact (hspec.2 k rfl).1
  | pop s k hre hk ih => exact (pops_good N hN8 k s ih hk).1

/-! ## Claims C2, C3, C4 -/

theorem pops_moves (N : Nat) : ∀ (k : Nat) (s : Sudoku N), k ≤ s.moves.length →
    (s.pop_n_moves k).moves = s.moves.drop k := by
  intro k
  induction k with
  | zero => intro s _; rfl
  | succ k ih =>
    intro s hk
    cases hmv : s.moves with
    | nil =>
      rw [hmv] at hk
      exact absurd hk (by simp)
    | cons vp rest =>
      obtain ⟨v, p⟩ := vp
      have hm1 : s.pop_one.moves = rest := by
        rw [pop_one_unfold N s v p rest hmv (s.grid.getD (p.idx N) (Cell.EMPTY N)) rfl]
      rw [pop_n_moves_succ, ih s.pop_one (by rw [hm1]; rw [hmv] at hk; simpa using hk)]
      rw [hm1, List.drop_succ_cons]

/-- C2: on every reachable grid, a contradicted `remove_all` (and a
contradicted inner `remove`, which `remove_all` only calls on contained
values) returns with the cell array, move log and histogram all exactly equal
to their pre-call values: the failing path leaks no partially-applied
state. -/
theorem claim_C2 (N : Nat) (hN1 : 1 ≤ N) (hN8 : N ≤ 8) (s : Sudoku N) (hre : Reachable N s)
    (fuel : Nat) (pos : Pos) (hpv : pos.Valid N) :
    (∀ (values : Cell N) (s' : Sudoku N),
      s.remove_all fuel values pos = some (s', none) →
        s'.grid = s.grid ∧ s'.moves = s.moves ∧ s'.buckets = s.buckets) ∧
    (∀ (value : Nat) (s' : Sudoku N), (s.get pos).bitset.testBit value = true →
      s.remove fuel value pos = some (s', none) →
        s'.grid = s.grid ∧ s'.moves = s.moves ∧ s'.buckets = s.buckets) := by
  have hG := reachable_good N hN1 hN8 s hre
  constructor
  · intro values s' hr
    have he : s' = s := (remove_all_spec N hN8 fuel s values pos hG hpv (s', none) hr).1 rfl
    rw [he]
    exact ⟨rfl, rfl, rfl⟩
  · intro value s' hbit hr
    have he : s' = s := (remove_spec N hN8 fuel s value pos hG hpv hbit (s', none) hr).1 rfl
    rw [he]
    exact ⟨rfl, rfl, rfl⟩

theorem claim_C2_witness :
    (∀ (values : Cell 2) (s' : Sudoku 2),
      (Sudoku.default 2).remove_all 1 values ⟨0, 0, 0, 0⟩ = some (s', none) →
        s'.grid = (Sudoku.default 2).grid ∧ s'.moves = (Sudoku.default 2).moves ∧
          s'.buckets = (Sudoku.default 2).buckets) ∧
    (∀ (value : Nat) (s' : Sudoku 2),
      ((Sudoku.default 2).get ⟨0, 0, 0, 0⟩).bitset.testBit value = true →
      (Sudoku.default 2).remove 1 value ⟨0, 0, 0, 0⟩ = some (s', none) →
        s'.grid = (Sudoku.default 2).grid ∧ s'.moves = (Sudoku.default 2).moves ∧
          s'.buckets = (Sudoku.default 2).buckets) :=
  claim_C2 2 (by decide) (by decide) (Sudoku.default 2) Reachable.default 1 ⟨0, 0, 0, 0⟩
    (by decide)

/-- C3: on every reachable grid, a successful `remove_all` returning `Some k`
has appended exactly `k` entries to the move log (the old log is the dropped-
by-`k` suffix of the new one), and `pop_n_moves k` immediately afterwards
restores cell array, move log and histogram bit-for-bit. -/
theorem claim_C3 (N : Nat) (hN1 : 1 ≤ N) (hN8 : N ≤ 8) (s : Sudoku N) (hre : Reachable N s)
    (fuel : Nat) (values : Cell N) (pos : Pos) (hpv : pos.Valid N)
    (s' : Sudoku N) (k : Nat) (hr : s.remove_all fuel values pos = some (s', some k)) :
    s'.moves.length = s.moves.length + k ∧
    s'.moves.drop k = s.moves ∧
    (s'.pop_n_moves k).grid = s.grid ∧
    (s'.pop_n_moves k).moves = s.moves ∧
    (s'.pop_n_moves k).buckets = s.buckets := by
  have hG := reachable_good N hN1 hN8 s hre
  rcases (remove_all_spec N hN8 fuel s values pos hG hpv (s', some k) hr).2 k rfl with
    ⟨hG', hml0, hpop0⟩
  have hml : s'.moves.length = k + s.moves.length := hml0
  have hpop : s'.pop_n_moves k = s := hpop0
  refine ⟨by omega, ?_, by rw [hpop], by rw [hpop], by rw [hpop]⟩
  have hdrop := pops_moves N k s' (by omega)
  rw [hpop] at hdrop
  exact hdrop.symm

theorem claim_C3_witness :
    (Sudoku.default 2).moves.length = (Sudoku.default 2).moves.length + 0 ∧
    (Sudoku.default 2).moves.drop 0 = (Sudoku.default 2).moves ∧
    ((Sudoku.default 2).pop_n_moves 0).grid = (Sudoku.default 2).grid ∧
    ((Sudoku.default 2).pop_n_moves 0).moves = (Sudoku.default 2).moves ∧
    ((Sudoku.default 2).pop_n_moves 0).buckets = (Sudoku.default 2).buckets :=
  claim_C3 2 (by decide) (by decide) (Sudoku.default 2) Reachable.default 1 (Cell.EMPTY 2)
    ⟨0, 0, 0, 0⟩ (by decide) (Sudoku.default 2) 0 (by decide)

/-- C4: in every grid reachable by `remove_all` (successful or contradicted)
and in-range `pop_n_moves` operations, for every candidate count `1 ≤ c ≤ N²`
the histogram entry `buckets[(c-1)/N][(c-1)%N]` equals the number of cells
currently holding exactly `c` candidates — the histogram always equals a
fresh recount of the cell array. -/
theorem claim_C4 (N : Nat) (hN1 : 1 ≤ N) (hN8 : N ≤ 8) (s : Sudoku N) (hre : Reachable N s)
    (c : Nat) (hc1 : 1 ≤ c) (hcR : c ≤ N * N) :
    s.buckets.getD ((c - 1) / N * N + (c - 1) % N) 0 =
      (Pos.iterList N).countP (fun p => (s.get p).len == c) := by
  have hG := reachable_good N hN1 hN8 s hre
  have hidx : (c - 1) / N * N + (c - 1) % N = c - 1 := by
    rw [Nat.mul_comm]
    exact Nat.div_add_mod (c - 1) N
  have hcons := hG.2.2.2.1 (c - 1) (by omega)
  have he : c - 1 + 1 = c := by omega
  rw [he] at hcons
  rw [hidx]
  exact hcons

theorem claim_C4_witness :
    (Sudoku.default 2).buckets.getD ((4 - 1) / 2 * 2 + (4 - 1) % 2) 0 =
      (Pos.iterList 2).countP (fun p => ((Sudoku.default 2).get p).len == 4) :=
  claim_C4 2 (by decide) (by decide) (Sudoku.default 2) Reachable.default 4 (by decide)
    (by decide)

/-! ## C5: per-call safety of every elementary removal in the cascade -/

/-- Safety of one elementary removal at its call site, as the spec words it:
the targeted cell holds at least two candidates (so clearing one bit cannot
produce `EMPTY`), and the histogram bucket the update decrements is positive
(no underflow). -/
def RemoveOneSafe (N : Nat) (s : Sudoku N) (value : Nat) (q : Pos) : Prop :=
  2 ≤ (s.get q).len ∧ 1 ≤ s.bucketGet ((s.get q).remove value).len

/-- Mirrors `cascadeNaked`, asserting `RemoveOneSafe` at each performed
`remove_one`. -/
def cascadeNakedSafe (N : Nat) (value : Nat) : List Pos → Sudoku.CascadeSt N → Prop
  | [], _ => True
  | q :: rest, (s, d, pushed) =>
    if (s.get q).contains value then
      if s.get q = Cell.from_value N value then True
      else RemoveOneSafe N s value q ∧
        cascadeNakedSafe N value rest (Sudoku.remove_one value q (s, d, pushed))
    else cascadeNakedSafe N value rest (s, d, pushed)

/-- Mirrors `removeExtras`, asserting `RemoveOneSafe` at each performed
`remove_one`. -/
def removeExtrasSafe (N : Nat) (value : Nat) (q : Pos) :
    List Nat → Sudoku.CascadeSt N → Prop
  | [], _ => True
  | iv :: rest, (s, d, pushed) =>
    if s.get q = Cell.from_value N value then True
    else RemoveOneSafe N s iv q ∧
      removeExtrasSafe N value q rest (Sudoku.remove_one iv q (s, d, pushed))

/-- Mirrors `cascadeHidden`. -/
def cascadeHiddenSafe (N : Nat) : List Pos → Sudoku.CascadeSt N → Prop
  | [], _ => True
  | q :: rest, (s, d, pushed) =>
    if (s.get q).len = 1 then cascadeHiddenSafe N rest (s, d, pushed)
    else
      let unic := ((s.unic_on_row q).or (s.unic_on_column q)).or (s.unic_on_square q)
      if unic.len = 0 then cascadeHiddenSafe N rest (s, d, pushed)
      else
        match unic.get_value with
        | none => True
        | some value =>
          if ¬ (s.get q).contains value then True
          else
            removeExtrasSafe N value q ((s.get q).sub value).toList (s, d, pushed) ∧
            match Sudoku.removeExtras value q ((s.get q).sub value).toList (s, d, pushed) with
            | .error _ => True
            | .ok st => cascadeHiddenSafe N rest st

/-- Mirrors `removeLoop`. -/
def removeLoopSafe (N : Nat) : Nat → Sudoku.CascadeSt N → Prop
  | 0, _ => True
  | fuel + 1, (s, d, pushed) =>
    match d.pop with
    | none => True
    | some (pos, d) =>
      (match (s.get pos).get_value with
       | some value => cascadeNakedSafe N value (correlated N pos) (s, d, pushed)
       | none => True) ∧
      match (match (s.get pos).get_value with
             | some value => Sudoku.cascadeNaked value (correlated N pos) (s, d, pushed)
             | none => .ok (s, d, pushed)) with
      | .error _ => True
      | .ok st =>
        cascadeHiddenSafe N (correlated N pos) st ∧
        match Sudoku.cascadeHidden (correlated N pos) st with
        | .error _ => True
        | .ok st => removeLoopSafe N fuel st

/-- Mirrors `remove`: the singleton guard performs nothing, every other path
performs only safe elementary removals. -/
def removeSafe (N : Nat) (fuel : Nat) (s : Sudoku N) (value : Nat) (pos : Pos) : Prop :=
  if s.get pos = Cell.from_value N value then True
  else RemoveOneSafe N s value pos ∧
    removeLoopSafe N fuel (Sudoku.remove_one value pos (s, Defer.clear N, 0))

/-- Mirrors `removeAllGo`. -/
def removeAllGoSafe (N : Nat) (fuel : Nat) (pos : Pos) : List Nat → Sudoku N → Nat → Prop
  | [], _, _ => True
  | iv :: rest, s, count =>
    if (s.get pos).contains iv then
      removeSafe N fuel s iv pos ∧
      match Sudoku.remove fuel s iv pos with
      | none => True
      | some (s, some n) => removeAllGoSafe N fuel pos rest s (count + n)
      | some (_, none) => True
    else removeAllGoSafe N fuel pos rest s count

/-- Mirrors `remove_all`. -/
def remove_allSafe (N : Nat) (fuel : Nat) (s : Sudoku N) (values : Cell N) (pos : Pos) : Prop :=
  removeAllGoSafe N fuel pos ((s.get pos).and values).toList s 0

theorem remove_one_safe_at (N : Nat) (hN8 : N ≤ 8) (s : Sudoku N) (hG : Good N s)
    (v : Nat) (q : Pos) (hqv : q.Valid N)
    (hbit : (s.get q).bitset.testBit v = true) (hlen2 : 2 ≤ (s.get q).len) :
    RemoveOneSafe N s v q := by
  refine ⟨hlen2, ?_⟩
  have hcbq : (s.get q).bitset < 2 ^ (N * N) := hG.2.1 q hqv
  have hbU : (s.get q).bitset < U64 :=
    lt_of_lt_of_le hcbq (Nat.pow_le_pow_right (by omega) (mul_self_le_64 N hN8))
  have hv64 : v < 64 := testBit_lt_of_lt_two_pow _ 64 v hbU hbit
  have hlrel : ((s.get q).remove v).len = (s.get q).len - 1 := by
    show popCount ((s.get q).bitset &&& u64not (1 <<< (v % 64))) = popCount (s.get q).bitset - 1
    exact popCount_and_not_shl _ v hbU hv64 hbit
  have hhigh : (s.get q).len ≤ N * N :=
    popCount_le_of_lt_two_pow _ _ (mul_self_le_64 N hN8) hcbq
  rw [hlrel]
  have := bucket_pos_at N s hG.2.2.2.1 q hqv (by omega) hhigh
  exact this

theorem cascadeNaked_Safe (N : Nat) (hN8 : N ≤ 8) (s0 : Sudoku N) (value : Nat)
    (hv64 : value < 64) :
    ∀ (l : List Pos), (∀ q ∈ l, q.Valid N) →
      ∀ (s : Sudoku N) (d : Defer N) (k : Nat), StOk N s0 (s, d, k) →
        cascadeNakedSafe N value l (s, d, k) := by
  intro l
  induction l with
  | nil => intro _ s d k _; trivial
  | cons q rest ih =>
    intro hval s d k hst
    have hqv := hval q (List.mem_cons_self q rest)
    have hrest := fun r hr => hval r (List.mem_cons_of_mem q hr)
    simp only [cascadeNakedSafe]
    by_cases hcon : (s.get q).contains value = true
    · rw [if_pos hcon]
      by_cases heq : s.get q = Cell.from_value N value
      · rw [if_pos heq]
        trivial
      · rw [if_neg heq]
        have hbit := (contains_iff_testBit N _ value hv64).1 hcon
        have hbU : (s.get q).bitset < U64 :=
          lt_of_lt_of_le (hst.1.2.1 q hqv) (Nat.pow_le_pow_right (by omega) (mul_self_le_64 N hN8))
        have hlen2 : 2 ≤ (s.get q).len := len_two_of_bit_ne N _ hbU value hbit heq
        rcases remove_one_StOk N hN8 s0 s d k hst value q hqv hbit hlen2 with ⟨heq1, hst', _, _⟩
        refine ⟨remove_one_safe_at N hN8 s hst.1 value q hqv hbit hlen2, ?_⟩
        rw [heq1]
        exact ih hrest _ _ _ hst'
    · rw [if_neg hcon]
      exact ih hrest s d k hst

theorem removeExtras_Safe (N : Nat) (hN8 : N ≤ 8) (s0 : Sudoku N) (value : Nat)
    (q : Pos) (hqv : q.Valid N) :
    ∀ (l : List Nat), l.Nodup → value ∉ l →
      ∀ (s : Sudoku N) (d : Defer N) (k : Nat), StOk N s0 (s, d, k) →
        (∀ iv ∈ l, (s.get q).bitset.testBit iv = true) →
        (s.get q).bitset.testBit value = true →
        removeExtrasSafe N value q l (s, d, k) := by
  intro l
  induction l with
  | nil => intro _ _ s d k _ _ _; trivial
  | cons iv rest ih =>
    intro hnd hvnot s d k hst hbits hbv
    simp only [removeExtrasSafe]
    by_cases heq : s.get q = Cell.from_value N value
    · rw [if_pos heq]
      trivial
    · rw [if_neg heq]
      have hiless := hbits iv (List.mem_cons_self iv rest)
      have hivne : iv ≠ value := fun he => hvnot (he ▸ List.mem_cons_self iv rest)
      have hbU : (s.get q).bitset < U64 :=
        lt_of_lt_of_le (hst.1.2.1 q hqv) (Nat.pow_le_pow_right (by omega) (mul_self_le_64 N hN8))
      have hlen2 : 2 ≤ (s.get q).len := two_le_popCount _ iv value hbU hivne hiless hbv
      rcases remove_one_StOk N hN8 s0 s d k hst iv q hqv hiless hlen2 with ⟨heq1, hst', hself, _⟩
      have hiv64 : iv < 64 := testBit_lt_of_lt_two_pow _ 64 iv hbU hiless
      have hnew : ∀ j, ((removedState N s iv q).get q).bitset.testBit j =
          ((s.get q).bitset.testBit j && decide (j ≠ iv)) := by
        intro j
        rw [hself]
        exact testBit_and_not_shl _ iv j hbU hiv64
      refine ⟨remove_one_safe_at N hN8 s hst.1 iv q hqv hiless hlen2, ?_⟩
      rw [heq1]
      apply ih (List.nodup_cons.1 hnd).2 (fun hm => hvnot (List.mem_cons_of_mem _ hm)) _ _ _ hst'
      · intro j hj
        rw [hnew j]
        have hjne : j ≠ iv := fun he => (List.nodup_cons.1 hnd).1 (he ▸ hj)
        simp [hbits j (List.mem_cons_of_mem _ hj), hjne]
      · rw [hnew value]
        simp [hbv, Ne.symm hivne]

theorem cascadeHidden_Safe (N : Nat) (hN8 : N ≤ 8) (s0 : Sudoku N) :
    ∀ (l : List Pos), (∀ q ∈ l, q.Valid N) →
      ∀ (s : Sudoku N) (d : Defer N) (k : Nat), StOk N s0 (s, d, k) →
        cascadeHiddenSafe N l (s, d, k) := by
  intro l
  induction l with
  | nil => intro _ s d k _; trivial
  | cons q rest ih =>
    intro hval s d k hst
    have hqv := hval q (List.mem_cons_self q rest)
    have hrest := fun r hr => hval r (List.mem_cons_of_mem q hr)
    simp only [cascadeHiddenSafe]
    by_cases h1 : (s.get q).len = 1
    · rw [if_pos h1]
      exact ih hrest s d k hst
    · rw [if_neg h1]
      by_cases h0 : (((s.unic_on_row q).or (s.unic_on_column q)).or (s.unic_on_square q)).len = 0
      · rw [if_pos h0]
        exact ih hrest s d k hst
      · rw [if_neg h0]
        cases hgv : (((s.unic_on_row q).or (s.unic_on_column q)).or
            (s.unic_on_square q)).get_value with
        | none => trivial
        | some value =>
          have hunicU : (((s.unic_on_row q).or (s.unic_on_column q)).or
              (s.unic_on_square q)).bitset < U64 :=
            lt_of_lt_of_le (unic_lt N hN8 s q)
              (Nat.pow_le_pow_right (by omega) (mul_self_le_64 N hN8))
          rcases get_value_some N _ hunicU value hgv with ⟨_, hv64⟩
          show (if ¬(s.get q).contains value = true then True
                else removeExtrasSafe N value q ((s.get q).sub value).toList (s, d, k) ∧
                  match Sudoku.removeExtras value q ((s.get q).sub value).toList (s, d, k) with
                  | Except.error _ => True
                  | Except.ok st => cascadeHiddenSafe N rest st)
          by_cases hcont : (s.get q).contains value = true
          · rw [if_neg (not_not_intro hcont)]
            have hc2 : (s.get q).bitset < 2 ^ (N * N) := hst.1.2.1 q hqv
            have hcU : (s.get q).bitset < U64 :=
              lt_of_lt_of_le hc2 (Nat.pow_le_pow_right (by omega) (mul_self_le_64 N hN8))
            have hsubU : ((s.get q).sub value).bitset < U64 :=
              lt_of_le_of_lt Nat.and_le_left hcU
            have hsb : ∀ j, ((s.get q).sub value).bitset.testBit j =
                ((s.get q).bitset.testBit j && decide (j ≠ value)) :=
              fun j => sub_testBit N hN8 _ hc2 value j hv64
            have hbv : (s.get q).bitset.testBit value = true :=
              (contains_iff_testBit N _ value hv64).1 hcont
            have hnd := nodup_toList N ((s.get q).sub value) hsubU
            have hvnot : value ∉ ((s.get q).sub value).toList := by
              intro hm
              rcases (mem_toList N _ hsubU value).1 hm with ⟨_, hbit⟩
              rw [hsb value] at hbit
              simp at hbit
            have hbits : ∀ iv ∈ ((s.get q).sub value).toList,
                (s.get q).bitset.testBit iv = true := by
              intro j hj
              rcases (mem_toList N _ hsubU j).1 hj with ⟨_, hbit⟩
              rw [hsb j, Bool.and_eq_true] at hbit
              exact hbit.1
            refine ⟨removeExtras_Safe N hN8 s0 value q hqv _ hnd hvnot s d k hst hbits hbv, ?_⟩
            have hexc := removeExtras_StOk N hN8 s0 value q hqv
              ((s.get q).sub value).toList hnd hvnot s d k hst hbits hbv
            cases hre : Sudoku.removeExtras value q ((s.get q).sub value).toList (s, d, k) with
            | error st1 => trivial
            | ok st1 =>
              rw [hre] at hexc
              show cascadeHiddenSafe N rest st1
              obtain ⟨s1, d1, k1⟩ := st1
              exact ih hrest s1 d1 k1 hexc
          · rw [if_pos hcont]
            trivial

theorem removeLoop_Safe (N : Nat) (hN8 : N ≤ 8) (s0 : Sudoku N) :
    ∀ (fuel : Nat) (s : Sudoku N) (d : Defer N) (k : Nat), StOk N s0 (s, d, k) →
      removeLoopSafe N fuel (s, d, k) := by
  intro fuel
  induction fuel with
  | zero => intro s d k _; trivial
  | succ fuel ih =>
    intro s d k hst
    simp only [removeLoopSafe]
    cases hpop : d.pop with
    | none => trivial
    | some pd =>
      obtain ⟨pos, d'⟩ := pd
      rcases pop_spec N d pos d' hst.2.1 hpop with ⟨hposv, hd', _⟩
      have hst1 : StOk N s0 (s, d', k) := ⟨hst.1, hd', hst.2.2⟩
      have hcval : ∀ q ∈ correlated N pos, q.Valid N :=
        fun q hq => mem_correlated_valid N pos q hposv hq
      show (match (s.get pos).get_value with
            | some value => cascadeNakedSafe N value (correlated N pos) (s, d', k)
            | none => True) ∧
          match (match (s.get pos).get_value with
                 | some value => Sudoku.cascadeNaked value (correlated N pos) (s, d', k)
                 | none => .ok (s, d', k)) with
          | .error _ => True
          | .ok st =>
            cascadeHiddenSafe N (correlated N pos) st ∧
            match Sudoku.cascadeHidden (correlated N pos) st with
            | .error _ => True
            | .ok st => removeLoopSafe N fuel st
      constructor
      · cases hgv : (s.get pos).get_value with
        | none => trivial
        | some value =>
          show cascadeNakedSafe N value (correlated N pos) (s, d', k)
          have hposU : (s.get pos).bitset < U64 :=
            lt_of_lt_of_le (hst.1.2.1 pos hposv)
              (Nat.pow_le_pow_right (by omega) (mul_self_le_64 N hN8))
          rcases get_value_some N _ hposU value hgv with ⟨_, hv64⟩
          exact cascadeNaked_Safe N hN8 s0 value hv64 _ hcval s d' k hst1
      · cases hgv : (s.get pos).get_value with
        | none =>
          show cascadeHiddenSafe N (correlated N pos) (s, d', k) ∧
              match Sudoku.cascadeHidden (correlated N pos) (s, d', k) with
              | .error _ => True
              | .ok st => removeLoopSafe N fuel st
          refine ⟨cascadeHidden_Safe N hN8 s0 _ hcval s d' k hst1, ?_⟩
          have hexc := cascadeHidden_StOk N hN8 s0 (correlated N pos) hcval _ hst1
          cases hch : Sudoku.cascadeHidden (correlated N pos) (s, d', k) with
          | error st2 => trivial
          | ok st2 =>
            rw [hch] at hexc
            show removeLoopSafe N fuel st2
            obtain ⟨s2, d2, k2⟩ := st2
            exact ih s2 d2 k2 hexc
        | some value =>
          have hposU : (s.get pos).bitset < U64 :=
            lt_of_lt_of_le (hst.1.2.1 pos hposv)
              (Nat.pow_le_pow_right (by omega) (mul_self_le_64 N hN8))
          rcases get_value_some N _ hposU value hgv with ⟨_, hv64⟩
          show match Sudoku.cascadeNaked value (correlated N pos) (s, d', k) with
               | .error _ => True
               | .ok st =>
                 cascadeHiddenSafe N (correlated N pos) st ∧
                 match Sudoku.cascadeHidden (correlated N pos) st with
                 | .error _ => True
                 | .ok st => removeLoopSafe N fuel st
          have hexn := cascadeNaked_StOk N hN8 s0 value hv64 (correlated N pos) hcval _ hst1
          cases hcn : Sudoku.cascadeNaked value (correlated N pos) (s, d', k) with
          | error st1 => trivial
          | ok st1 =>
            rw [hcn] at hexn
            obtain ⟨s1, d1, k1⟩ := st1
            show cascadeHiddenSafe N (correlated N pos) (s1, d1, k1) ∧
                match Sudoku.cascadeHidden (correlated N pos) (s1, d1, k1) with
                | .error _ => True
                | .ok st => removeLoopSafe N fuel st
            have hstok : StOk N s0 (s1, d1, k1) := hexn
            refine ⟨cascadeHidden_Safe N hN8 s0 _ hcval s1 d1 k1 hstok, ?_⟩
            have hexc := cascadeHidden_StOk N hN8 s0 (correlated N pos) hcval _ hstok
            cases hch : Sudoku.cascadeHidden (correlated N pos) (s1, d1, k1) with
            | error st2 => trivial
            | ok st2 =>
              rw [hch] at hexc
              show removeLoopSafe N fuel st2
              obtain ⟨s2, d2, k2⟩ := st2
              exact ih s2 d2 k2 hexc

theorem remove_Safe (N : Nat) (hN8 : N ≤ 8) (fuel : Nat) (s : Sudoku N) (value : Nat)
    (pos : Pos) (hG : Good N s) (hpv : pos.Valid N)
    (hbit : (s.get pos).bitset.testBit value = true) :
    removeSafe N fuel s value pos := by
  unfold removeSafe
  by_cases heq : s.get pos = Cell.from_value N value
  · rw [if_pos heq]
    trivial
  · rw [if_neg heq]
    have hst0 : StOk N s (s, Defer.clear N, 0) := ⟨hG, clear_DeferOk N, by simp, rfl⟩
    have hbU : (s.get pos).bitset < U64 :=
      lt_of_lt_of_le (hG.2.1 pos hpv) (Nat.pow_le_pow_right (by omega) (mul_self_le_64 N hN8))
    have hlen2 : 2 ≤ (s.get pos).len := len_two_of_bit_ne N _ hbU value hbit heq
    rcases remove_one_StOk N hN8 s s (Defer.clear N) 0 hst0 value pos hpv hbit hlen2 with
      ⟨heq1, hst1, _, _⟩
    refine ⟨remove_one_safe_at N hN8 s hG value pos hpv hbit hlen2, ?_⟩
    rw [heq1]
    exact removeLoop_Safe N hN8 s fuel _ _ _ hst1

theorem removeAllGo_Safe (N : Nat) (hN8 : N ≤ 8) (fuel : Nat) (pos : Pos) (hpv : pos.Valid N) :
    ∀ (l : List Nat), (∀ iv ∈ l, iv < 64) →
      ∀ (s : Sudoku N) (count : Nat), Good N s → removeAllGoSafe N fuel pos l s count := by
  intro l
  induction l with
  | nil => intro _ s count _; trivial
  | cons iv rest ih =>
    intro hlt s count hG
    simp only [removeAllGoSafe]
    by_cases hcont : (s.get pos).contains iv = true
    · rw [if_pos hcont]
      have hiv64 := hlt iv (List.mem_cons_self iv rest)
      have hbit := (contains_iff_testBit N _ iv hiv64).1 hcont
      refine ⟨remove_Safe N hN8 fuel s iv pos hG hpv hbit, ?_⟩
      cases hrem : Sudoku.remove fuel s iv pos with
      | none => trivial
      | some r1 =>
        obtain ⟨s1, o1⟩ := r1
        cases o1 with
        | none => trivial
        | some n =>
          show removeAllGoSafe N fuel pos rest s1 (count + n)
          have hrs := remove_spec N hN8 fuel s iv pos hG hpv hbit (s1, some n) hrem
          have hG1 : Good N s1 := (hrs.2 n rfl).1
          exact ih (fun j hj => hlt j (List.mem_cons_of_mem _ hj)) s1 (count + n) hG1
    · rw [if_neg hcont]
      exact ih (fun j hj => hlt j (List.mem_cons_of_mem _ hj)) s count hG

/-- C5: on every reachable grid, the cascade's elementary removals are all
safe: a `remove` of the last candidate of a singleton cell is an immediate
contradiction that performs nothing, every `remove_one` reached inside
`remove`/`remove_all` targets a cell that holds at least two candidates and
decrements a positive histogram bucket (no underflow), and consequently no
cell of any grid returned by `remove_all` is `EMPTY`. -/
theorem claim_C5 (N : Nat) (hN1 : 1 ≤ N) (hN8 : N ≤ 8) (s : Sudoku N) (hre : Reachable N s)
    (fuel : Nat) (pos : Pos) (hpv : pos.Valid N) :
    (∀ value, s.get pos = Cell.from_value N value →
      s.remove fuel value pos = some (s, none)) ∧
    (∀ value, (s.get pos).bitset.testBit value = true → removeSafe N fuel s value pos) ∧
    (∀ values : Cell N, remove_allSafe N fuel s values pos) ∧
    (∀ (values : Cell N) (s' : Sudoku N) (o : Option Nat),
      s.remove_all fuel values pos = some (s', o) → NoEmptyCell N s') := by
  have hG := reachable_good N hN1 hN8 s hre
  refine ⟨?_, ?_, ?_, ?_⟩
  · intro value heq
    unfold Sudoku.remove
    rw [if_pos heq]
  · intro value hbit
    exact remove_Safe N hN8 fuel s value pos hG hpv hbit
  · intro values
    unfold remove_allSafe
    have hbU : (s.get pos).bitset < U64 :=
      lt_of_lt_of_le (hG.2.1 pos hpv) (Nat.pow_le_pow_right (by omega) (mul_self_le_64 N hN8))
    have handU : ((s.get pos).and values).bitset < U64 := lt_of_le_of_lt Nat.and_le_left hbU
    exact removeAllGo_Safe N hN8 fuel pos hpv _
      (fun iv hiv => ((mem_toList N _ handU iv).1 hiv).1) s 0 hG
  · intro values s' o hr
    have hspec := remove_all_spec N hN8 fuel s values pos hG hpv (s', o) hr
    cases o with
    | none =>
      have he : s' = s := hspec.1 rfl
      rw [he]
      exact hG.2.2.1
    | some k =>
      have hG' : Good N s' := (hspec.2 k rfl).1
      exact hG'.2.2.1

theorem claim_C5_witness :
    (∀ value, (Sudoku.default 2).get ⟨0, 0, 0, 0⟩ = Cell.from_value 2 value →
      (Sudoku.default 2).remove 1 value ⟨0, 0, 0, 0⟩ = some (Sudoku.default 2, none)) ∧
    (∀ value, ((Sudoku.default 2).get ⟨0, 0, 0, 0⟩).bitset.testBit value = true →
      removeSafe 2 1 (Sudoku.default 2) value ⟨0, 0, 0, 0⟩) ∧
    (∀ values : Cell 2, remove_allSafe 2 1 (Sudoku.default 2) values ⟨0, 0, 0, 0⟩) ∧
    (∀ (values : Cell 2) (s' : Sudoku 2) (o : Option Nat),
      (Sudoku.default 2).remove_all 1 values ⟨0, 0, 0, 0⟩ = some (s', o) →
        NoEmptyCell 2 s') :=
  claim_C5 2 (by decide) (by decide) (Sudoku.default 2) Reachable.default 1 ⟨0, 0, 0, 0⟩
    (by decide)

/-! ## C1: conflict-freedom of propagated grids -/

theorem from_value_popCount (N w : Nat) : popCount (Cell.from_value N w).bitset = 1 := by
  show popCount (1 <<< (w % 64)) = 1
  rw [Nat.shiftLeft_eq, Nat.one_mul]
  exact popCount_two_pow _ (Nat.mod_lt _ (by omega))

theorem qcf_except_of_qcf (N : Nat) (p0 : Pos) (s : Sudoku N) (d : Defer N)
    (h : QueueConflictFree N s d) : QueueConflictFreeExcept N p0 s d := by
  intro p hpv v hv
  rcases h p hpv v hv with hm | hs
  · exact Or.inr (Or.inl hm)
  · exact Or.inr (Or.inr hs)

theorem qcf_push (N : Nat) (hN8 : N ≤ 8) (p0 : Pos) (s : Sudoku N) (d : Defer N)
    (hG : Good N s) (hd : DeferOk N d) (q : Pos) (hqv : q.Valid N) (v : Nat) (hv64 : v < 64)
    (hQ : QueueConflictFreeExcept N p0 s d) :
    QueueConflictFreeExcept N p0 (removedState N s v q) (d.push q) := by
  have hidx : q.idx N < s.grid.length := by rw [hG.1.1]; exact Pos.idx_lt N q hqv
  have hqU : (s.get q).bitset < U64 :=
    lt_of_lt_of_le (hG.2.1 q hqv) (Nat.pow_le_pow_right (by omega) (mul_self_le_64 N hN8))
  intro p hpv w hw
  by_cases hpq : p = q
  · subst hpq
    exact Or.inr (Or.inl ((push_spec N d p hd hpv).2.1))
  · rw [removedState_get_ne N s v q p hqv hpv hpq] at hw
    rcases hQ p hpv w hw with h0 | hqm | hscr
    · exact Or.inl h0
    · exact Or.inr (Or.inl ((push_spec N d q hd hqv).2.2 p hqm))
    · refine Or.inr (Or.inr ?_)
      intro r hr
      have hrv : r.Valid N := mem_correlated_valid N p r hpv hr
      by_cases hrq : r = q
      · have habs := hscr r hr
        rw [hrq] at habs ⊢
        rw [removedState_get_self N s v q hidx]
        show ((s.get q).bitset &&& u64not (1 <<< (v % 64))).testBit w = false
        rw [testBit_and_not_shl _ v w hqU hv64, habs]
        rfl
      · rw [removedState_get_ne N s v q r hqv hrv hrq]
        exact hscr r hr

theorem qcf_push_plain (N : Nat) (hN8 : N ≤ 8) (s : Sudoku N) (d : Defer N)
    (hG : Good N s) (hd : DeferOk N d) (q : Pos) (hqv : q.Valid N) (v : Nat) (hv64 : v < 64)
    (hQ : QueueConflictFree N s d) :
    QueueConflictFree N (removedState N s v q) (d.push q) := by
  have h1 := qcf_push N hN8 q s d hG hd q hqv v hv64 (qcf_except_of_qcf N q s d hQ)
  intro p hpv w hw
  rcases h1 p hpv w hw with rfl | h | h
  · exact Or.inl ((push_spec N d p hd hpv).2.1)
  · exact Or.inl h
  · exact Or.inr h

theorem qcf_pop (N : Nat) (s : Sudoku N) (d : Defer N) (pos : Pos) (d' : Defer N)
    (hqueue : d.queue = pos :: d'.queue) (hQ : QueueConflictFree N s d) :
    QueueConflictFreeExcept N pos s d' := by
  intro p hpv w hw
  rcases hQ p hpv w hw with hmem | hscr
  · rw [hqueue] at hmem
    rcases List.mem_cons.1 hmem with rfl | h
    · exact Or.inl rfl
    · exact Or.inr (Or.inl h)
  · exact Or.inr (Or.inr hscr)

theorem qcf_noconflict (N : Nat) (s : Sudoku N) (d : Defer N) (hq : d.queue = [])
    (hQ : QueueConflictFree N s d) : NoConflict N s := by
  intro p hpv w hw
  rcases hQ p hpv w hw with hmem | hscr
  · rw [hq] at hmem
    exact absurd hmem (List.not_mem_nil p)
  · exact hscr

/-- Bits at or above `N²` are never set in a bounded cell, so conflict-freedom
only has content for in-range values. -/
theorem testBit_ge_range (N : Nat) (s : Sudoku N) (hcb : CellsBounded N s) (r : Pos)
    (hrv : r.Valid N) (w : Nat) (hw : N * N ≤ w) : (s.get r).bitset.testBit w = false := by
  by_contra hc
  have ht : (s.get r).bitset.testBit w = true := by
    revert hc; cases (s.get r).bitset.testBit w <;> simp
  have := testBit_lt_of_lt_two_pow _ _ _ (hcb r hrv) ht
  omega

theorem cascadeNaked_conflict (N : Nat) (hN8 : N ≤ 8) (s0 : Sudoku N) (p0 : Pos) (value : Nat)
    (hv64 : value < 64) :
    ∀ (l : List Pos), (∀ q ∈ l, q.Valid N) →
      ∀ (s : Sudoku N) (d : Defer N) (k : Nat), StOk N s0 (s, d, k) →
        QueueConflictFreeExcept N p0 s d →
        ∀ s' d' k', Sudoku.cascadeNaked value l (s, d, k) = .ok (s', d', k') →
          QueueConflictFreeExcept N p0 s' d' ∧
          (∀ q ∈ l, q.Valid N → (s'.get q).bitset.testBit value = false) ∧
          (∀ r : Pos, r.Valid N → ∀ w, (s.get r).bitset.testBit w = false →
            (s'.get r).bitset.testBit w = false) ∧
          (∀ r : Pos, r.Valid N → r ∉ l → s'.get r = s.get r) := by
  intro l
  induction l with
  | nil =>
    intro _ s d k hst hQ s' d' k' hrun
    replace hrun : (Except.ok (s, d, k) : Except (Sudoku.CascadeSt N) (Sudoku.CascadeSt N)) =
        Except.ok (s', d', k') := hrun
    injection hrun with hrun
    injection hrun with hs hdk
    injection hdk with hd2 hk2
    subst hs
    subst hd2
    refine ⟨hQ, ?_, fun r _ w h => h, fun r _ _ => rfl⟩
    intro q hq
    exact absurd hq (List.not_mem_nil q)
  | cons q rest ih =>
    intro hval s d k hst hQ s' d' k' hrun
    have hqv := hval q (List.mem_cons_self q rest)
    have hrest := fun r hr => hval r (List.mem_cons_of_mem q hr)
    simp only [Sudoku.cascadeNaked] at hrun
    by_cases hcon : (s.get q).contains value = true
    · rw [if_pos hcon] at hrun
      by_cases heq : s.get q = Cell.from_value N value
      · rw [if_pos heq] at hrun
        exact absurd hrun (by simp)
      · rw [if_neg heq] at hrun
        have hbit := (contains_iff_testBit N _ value hv64).1 hcon
        have hbU : (s.get q).bitset < U64 :=
          lt_of_lt_of_le (hst.1.2.1 q hqv)
            (Nat.pow_le_pow_right (by omega) (mul_self_le_64 N hN8))
        have hlen2 : 2 ≤ (s.get q).len := len_two_of_bit_ne N _ hbU value hbit heq
        rcases remove_one_StOk N hN8 s0 s d k hst value q hqv hbit hlen2 with
          ⟨heq1, hst', hself, hne⟩
        rw [heq1] at hrun
        have hidx : q.idx N < s.grid.length := by rw [hst.1.1.1]; exact Pos.idx_lt N q hqv
        have hQ' := qcf_push N hN8 p0 s d hst.1 hst.2.1 q hqv value hv64 hQ
        have hmbits : ∀ r : Pos, r.Valid N → ∀ w, (s.get r).bitset.testBit w = false →
            ((removedState N s value q).get r).bitset.testBit w = false := by
          intro r hrv w hw
          by_cases hrq : r = q
          · rw [hrq] at hw ⊢
            rw [hself]
            show ((s.get q).bitset &&& u64not (1 <<< (value % 64))).testBit w = false
            rw [testBit_and_not_shl _ value w hbU hv64, hw]
            rfl
          · rw [hne r hrv hrq]
            exact hw
        rcases ih hrest _ _ _ hst' hQ' s' d' k' hrun with ⟨c1, c2, c3, c4⟩
        refine ⟨c1, ?_, ?_, ?_⟩
        · intro r hr hrv
          rcases List.mem_cons.1 hr with rfl | hr2
          · apply c3 r hrv value
            rw [hself]
            show ((s.get r).bitset &&& u64not (1 <<< (value % 64))).testBit value = false
            rw [testBit_and_not_shl _ value value hbU hv64]
            simp
          · exact c2 r hr2 hrv
        · intro r hrv w hw
          exact c3 r hrv w (hmbits r hrv w hw)
        · intro r hrv hnotin
          have hrq : r ≠ q := fun he => hnotin (he ▸ List.mem_cons_self q rest)
          rw [c4 r hrv (fun hm => hnotin (List.mem_cons_of_mem q hm))]
          exact hne r hrv hrq
    · rw [if_neg hcon] at hrun
      rcases ih hrest _ _ _ hst hQ s' d' k' hrun with ⟨c1, c2, c3, c4⟩
      refine ⟨c1, ?_, c3, ?_⟩
      · intro r hr hrv
        rcases List.mem_cons.1 hr with rfl | hr2
        · apply c3 r hrv value
          exact (contains_false_iff N _ value hv64).1 (by
            revert hcon; cases (s.get r).contains value <;> simp)
        · exact c2 r hr2 hrv
      · intro r hrv hnotin
        exact c4 r hrv (fun hm => hnotin (List.mem_cons_of_mem q hm))

theorem removeExtras_conflict (N : Nat) (hN8 : N ≤ 8) (s0 : Sudoku N) (value : Nat)
    (q : Pos) (hqv : q.Valid N) :
    ∀ (l : List Nat), l.Nodup → value ∉ l →
      ∀ (s : Sudoku N) (d : Defer N) (k : Nat), StOk N s0 (s, d, k) →
        (∀ iv ∈ l, (s.get q).bitset.testBit iv = true) →
        (s.get q).bitset.testBit value = true →
        QueueConflictFree N s d →
        ∀ s' d' k', Sudoku.removeExtras value q l (s, d, k) = .ok (s', d', k') →
          QueueConflictFree N s' d' := by
  intro l
  induction l with
  | nil =>
    intro _ _ s d k hst _ _ hQ s' d' k' hrun
    replace hrun : (Except.ok (s, d, k) : Except (Sudoku.CascadeSt N) (Sudoku.CascadeSt N)) =
        Except.ok (s', d', k') := hrun
    injection hrun with hrun
    injection hrun with hs hdk
    injection hdk with hd2 hk2
    subst hs
    subst hd2
    exact hQ
  | cons iv rest ih =>
    intro hnd hvnot s d k hst hbits hbv hQ s' d' k' hrun
    simp only [Sudoku.removeExtras] at hrun
    by_cases heq : s.get q = Cell.from_value N value
    · rw [if_pos heq] at hrun
      exact absurd hrun (by simp)
    · rw [if_neg heq] at hrun
      have hiless := hbits iv (List.mem_cons_self iv rest)
      have hivne : iv ≠ value := fun he => hvnot (he ▸ List.mem_cons_self iv rest)
      have hbU : (s.get q).bitset < U64 :=
        lt_of_lt_of_le (hst.1.2.1 q hqv) (Nat.pow_le_pow_right (by omega) (mul_self_le_64 N hN8))
      have hlen2 : 2 ≤ (s.get q).len := two_le_popCount _ iv value hbU hivne hiless hbv
      rcases remove_one_StOk N hN8 s0 s d k hst iv q hqv hiless hlen2 with ⟨heq1, hst', hself, _⟩
      rw [heq1] at hrun
      have hiv64 : iv < 64 := testBit_lt_of_lt_two_pow _ 64 iv hbU hiless
      have hnew : ∀ j, ((removedState N s iv q).get q).bitset.testBit j =
          ((s.get q).bitset.testBit j && decide (j ≠ iv)) := by
        intro j
        rw [hself]
        exact testBit_and_not_shl _ iv j hbU hiv64
      have hQ' := qcf_push_plain N hN8 s d hst.1 hst.2.1 q hqv iv hiv64 hQ
      apply ih (List.nodup_cons.1 hnd).2 (fun hm => hvnot (List.mem_cons_of_mem _ hm))
        _ _ _ hst' ?_ ?_ hQ' s' d' k' hrun
      · intro j hj
        rw [hnew j]
        have hjne : j ≠ iv := fun he => (List.nodup_cons.1 hnd).1 (he ▸ hj)
        simp [hbits j (List.mem_cons_of_mem _ hj), hjne]
      · rw [hnew value]
        simp [hbv, Ne.symm hivne]

theorem cascadeHidden_conflict (N : Nat) (hN8 : N ≤ 8) (s0 : Sudoku N) :
    ∀ (l : List Pos), (∀ q ∈ l, q.Valid N) →
      ∀ (s : Sudoku N) (d : Defer N) (k : Nat), StOk N s0 (s, d, k) →
        QueueConflictFree N s d →
        ∀ s' d' k', Sudoku.cascadeHidden l (s, d, k) = .ok (s', d', k') →
          QueueConflictFree N s' d' := by
  intro l
  induction l with
  | nil =>
    intro _ s d k _ hQ s' d' k' hrun
    replace hrun : (Except.ok (s, d, k) : Except (Sudoku.CascadeSt N) (Sudoku.CascadeSt N)) =
        Except.ok (s', d', k') := hrun
    injection hrun with hrun
    injection hrun with hs hdk
    injection hdk with hd2 hk2
    subst hs
    subst hd2
    exact hQ
  | cons q rest ih =>
    intro hval s d k hst hQ s' d' k' hrun
    have hqv := hval q (List.mem_cons_self q rest)
    have hrest := fun r hr => hval r (List.mem_cons_of_mem q hr)
    simp only [Sudoku.cascadeHidden] at hrun
    by_cases h1 : (s.get q).len = 1
    · rw [if_pos h1] at hrun
      exact ih hrest _ _ _ hst hQ s' d' k' hrun
    · rw [if_neg h1] at hrun
      by_cases h0 : (((s.unic_on_row q).or (s.unic_on_column q)).or (s.unic_on_square q)).len = 0
      · rw [if_pos h0] at hrun
        exact ih hrest _ _ _ hst hQ s' d' k' hrun
      · rw [if_neg h0] at hrun
        cases hgv : (((s.unic_on_row q).or (s.unic_on_column q)).or
            (s.unic_on_square q)).get_value with
        | none =>
          rw [hgv] at hrun
          replace hrun : (Except.error (s, d, k) :
              Except (Sudoku.CascadeSt N) (Sudoku.CascadeSt N)) = Except.ok (s', d', k') := hrun
          exact absurd hrun (by simp)
        | some value =>
          rw [hgv] at hrun
          replace hrun :
              (if ¬(s.get q).contains value = true then Except.error (s, d, k)
               else
                 match Sudoku.removeExtras value q ((s.get q).sub value).toList (s, d, k) with
                 | Except.error st => Except.error st
                 | Except.ok st => Sudoku.cascadeHidden rest st) = Except.ok (s', d', k') := hrun
          have hunicU : (((s.unic_on_row q).or (s.unic_on_column q)).or
              (s.unic_on_square q)).bitset < U64 :=
            lt_of_lt_of_le (unic_lt N hN8 s q)
              (Nat.pow_le_pow_right (by omega) (mul_self_le_64 N hN8))
          rcases get_value_some N _ hunicU value hgv with ⟨_, hv64⟩
          by_cases hcont : (s.get q).contains value = true
          · rw [if_neg (not_not_intro hcont)] at hrun
            have hc2 : (s.get q).bitset < 2 ^ (N * N) := hst.1.2.1 q hqv
            have hcU : (s.get q).bitset < U64 :=
              lt_of_lt_of_le hc2 (Nat.pow_le_pow_right (by omega) (mul_self_le_64 N hN8))
            have hsubU : ((s.get q).sub value).bitset < U64 :=
              lt_of_le_of_lt Nat.and_le_left hcU
            have hsb : ∀ j, ((s.get q).sub value).bitset.testBit j =
                ((s.get q).bitset.testBit j && decide (j ≠ value)) :=
              fun j => sub_testBit N hN8 _ hc2 value j hv64
            have hbv : (s.get q).bitset.testBit value = true :=
              (contains_iff_testBit N _ value hv64).1 hcont
            have hnd := nodup_toList N ((s.get q).sub value) hsubU
            have hvnot : value ∉ ((s.get q).sub value).toList := by
              intro hm
              rcases (mem_toList N _ hsubU value).1 hm with ⟨_, hbit⟩
              rw [hsb value] at hbit
              simp at hbit
            have hbits : ∀ iv ∈ ((s.get q).sub value).toList,
                (s.get q).bitset.testBit iv = true := by
              intro j hj
              rcases (mem_toList N _ hsubU j).1 hj with ⟨_, hbit⟩
              rw [hsb j, Bool.and_eq_true] at hbit
              exact hbit.1
            have hexc := removeExtras_StOk N hN8 s0 value q hqv
              ((s.get q).sub value).toList hnd hvnot s d k hst hbits hbv
            cases hre : Sudoku.removeExtras value q ((s.get q).sub value).toList (s, d, k) with
            | error st1 =>
              rw [hre] at hrun
              exact absurd hrun (by simp)
            | ok st1 =>
              rw [hre] at hrun
              rw [hre] at hexc
              obtain ⟨s1, d1, k1⟩ := st1
              have hst1 : StOk N s0 (s1, d1, k1) := hexc
              have hQ1 := removeExtras_conflict N hN8 s0 value q hqv
                ((s.get q).sub value).toList hnd hvnot s d k hst hbits hbv hQ s1 d1 k1 hre
              exact ih hrest _ _ _ hst1 hQ1 s' d' k' hrun
          · rw [if_pos hcont] at hrun
            exact absurd hrun (by simp)

theorem removeLoop_conflict (N : Nat) (hN8 : N ≤ 8) (s0 : Sudoku N) :
    ∀ (fuel : Nat) (s : Sudoku N) (d : Defer N) (k : Nat), StOk N s0 (s, d, k) →
      QueueConflictFree N s d →
      ∀ s' d' k', Sudoku.removeLoop fuel (s, d, k) = some (.ok (s', d', k')) →
        NoConflict N s' := by
  intro fuel
  induction fuel with
  | zero =>
    intro s d k _ _ s' d' k' hr
    exact absurd hr (by simp [Sudoku.removeLoop])
  | succ fuel ih =>
    intro s d k hst hQ s' d' k' hr
    simp only [Sudoku.removeLoop] at hr
    split at hr
    next hpop =>
      injection hr with hr
      injection hr with hr
      injection hr with hs hdk
      injection hdk with hd2 hk2
      subst hs
      subst hd2
      exact qcf_noconflict N s d (pop_eq_none N d hpop) hQ
    next pos d1 hpop =>
      rcases pop_spec N d pos d1 hst.2.1 hpop with ⟨hposv, hd1, hqueue⟩
      have hst1 : StOk N s0 (s, d1, k) := ⟨hst.1, hd1, hst.2.2⟩
      have hQE : QueueConflictFreeExcept N pos s d1 := qcf_pop N s d pos d1 hqueue hQ
      have hcval : ∀ q ∈ correlated N pos, q.Valid N :=
        fun q hq => mem_correlated_valid N pos q hposv hq
      split at hr
      next st1 heq =>
        injection hr with hr
        exact absurd hr (by simp)
      next st1 heq =>
        obtain ⟨s1, dd1, k1⟩ := st1
        have hmain : StOk N s0 (s1, dd1, k1) ∧ QueueConflictFree N s1 dd1 := by
          cases hgv : (s.get pos).get_value with
          | none =>
            rw [hgv] at heq
            replace heq : (Except.ok (s, d1, k) :
                Except (Sudoku.CascadeSt N) (Sudoku.CascadeSt N)) =
                Except.ok (s1, dd1, k1) := heq
            injection heq with heq
            injection heq with hs hdk
            injection hdk with hd2 hk2
            subst hs
            subst hd2
            subst hk2
            refine ⟨hst1, ?_⟩
            intro p hpv w hw
            rcases hQE p hpv w hw with hppos | h | h
            · exfalso
              have hne1 := get_value_none N (s.get pos) hgv
              rw [hppos] at hw
              rw [hw] at hne1
              exact hne1 (from_value_popCount N w)
            · exact Or.inl h
            · exact Or.inr h
          | some value =>
            rw [hgv] at heq
            replace heq : Sudoku.cascadeNaked value (correlated N pos) (s, d1, k) =
                Except.ok (s1, dd1, k1) := heq
            have hposU : (s.get pos).bitset < U64 :=
              lt_of_lt_of_le (hst.1.2.1 pos hposv)
                (Nat.pow_le_pow_right (by omega) (mul_self_le_64 N hN8))
            rcases get_value_some N _ hposU value hgv with ⟨hfv, hv64⟩
            have hexn := cascadeNaked_StOk N hN8 s0 value hv64 (correlated N pos) hcval _ hst1
            rw [heq] at hexn
            have hstok1 : StOk N s0 (s1, dd1, k1) := hexn
            rcases cascadeNaked_conflict N hN8 s0 pos value hv64 (correlated N pos) hcval
              s d1 k hst1 hQE s1 dd1 k1 heq with ⟨c1, c2, c3, c4⟩
            refine ⟨hstok1, ?_⟩
            intro p hpv w hw
            rcases c1 p hpv w hw with hppos | h | h
            · refine Or.inr ?_
              rw [hppos] at hw hpv ⊢
              intro r hr2
              have hrv := mem_correlated_valid N pos r hpv hr2
              by_cases hwN : N * N ≤ w
              · exact testBit_ge_range N s1 hstok1.1.2.1 r hrv w hwN
              · push_neg at hwN
                have hw64 : w < 64 := lt_of_lt_of_le hwN (mul_self_le_64 N hN8)
                have hps : s1.get pos = s.get pos :=
                  c4 pos hpv (self_not_mem_correlated N pos)
                rw [hps] at hw
                have hwv : w = value :=
                  from_value_inj N w value hw64 hv64 (hw.symm.trans hfv)
                rw [hwv]
                exact c2 r hr2 hrv
            · exact Or.inl h
            · exact Or.inr h
        split at hr
        next st2 heq2 =>
          injection hr with hr
          exact absurd hr (by simp)
        next st2 heq2 =>
          obtain ⟨s2, d2, k2⟩ := st2
          have hexc := cascadeHidden_StOk N hN8 s0 (correlated N pos) hcval _ hmain.1
          rw [heq2] at hexc
          have hQ2 := cascadeHidden_conflict N hN8 s0 (correlated N pos) hcval
            s1 dd1 k1 hmain.1 hmain.2 s2 d2 k2 heq2
          exact ih s2 d2 k2 hexc hQ2 s' d' k' hr

theorem remove_conflict (N : Nat) (hN8 : N ≤ 8) (fuel : Nat) (s : Sudoku N) (value : Nat)
    (pos : Pos) (hG : Good N s) (hNC : NoConflict N s) (hpv : pos.Valid N)
    (hbit : (s.get pos).bitset.testBit value = true) :
    ∀ s' k, Sudoku.remove fuel s value pos = some (s', some k) → NoConflict N s' := by
  intro s' k hr
  unfold Sudoku.remove at hr
  by_cases heq : s.get pos = Cell.from_value N value
  · rw [if_pos heq] at hr
    injection hr with hr
    injection hr with h1 h2
    exact absurd h2 (by simp)
  · rw [if_neg heq] at hr
    have hst0 : StOk N s (s, Defer.clear N, 0) := ⟨hG, clear_DeferOk N, by simp, rfl⟩
    have hQ0 : QueueConflictFree N s (Defer.clear N) :=
      fun p hpv2 w hw => Or.inr (hNC p hpv2 w hw)
    have hbU : (s.get pos).bitset < U64 :=
      lt_of_lt_of_le (hG.2.1 pos hpv) (Nat.pow_le_pow_right (by omega) (mul_self_le_64 N hN8))
    have hv64 : value < 64 := testBit_lt_of_lt_two_pow _ 64 value hbU hbit
    have hlen2 : 2 ≤ (s.get pos).len := len_two_of_bit_ne N _ hbU value hbit heq
    rcases remove_one_StOk N hN8 s s (Defer.clear N) 0 hst0 value pos hpv hbit hlen2 with
      ⟨heq1, hst1, _, _⟩
    rw [heq1] at hr
    have hQ1 := qcf_push_plain N hN8 s (Defer.clear N) hG (clear_DeferOk N) pos hpv value
      hv64 hQ0
    cases hrl : Sudoku.removeLoop fuel (removedState N s value pos,
        (Defer.clear N).push pos, 0 + 1) with
    | none =>
      rw [hrl] at hr
      exact absurd hr (by simp)
    | some res =>
      rw [hrl] at hr
      cases res with
      | error st1 =>
        obtain ⟨s1, dd1, p1⟩ := st1
        injection hr with hr
        injection hr with h1 h2
        exact absurd h2 (by simp)
      | ok st1 =>
        obtain ⟨s1, dd1, p1⟩ := st1
        injection hr with hr
        injection hr with h1 h2
        subst h1
        exact removeLoop_conflict N hN8 s fuel (removedState N s value pos)
          ((Defer.clear N).push pos) (0 + 1) hst1 hQ1 s1 dd1 p1 hrl

theorem removeAllGo_conflict (N : Nat) (hN8 : N ≤ 8) (fuel : Nat) (pos : Pos)
    (hpv : pos.Valid N) :
    ∀ (l : List Nat), (∀ iv ∈ l, iv < 64) →
      ∀ (s : Sudoku N) (count : Nat), Good N s → NoConflict N s →
        ∀ s' k, Sudoku.removeAllGo fuel pos l s count = some (s', some k) →
          NoConflict N s' := by
  intro l
  induction l with
  | nil =>
    intro _ s count _ hNC s' k hr
    simp only [Sudoku.removeAllGo] at hr
    injection hr with hr
    injection hr with h1 h2
    subst h1
    exact hNC
  | cons iv rest ih =>
    intro hlt s count hG hNC s' k hr
    simp only [Sudoku.removeAllGo] at hr
    by_cases hcont : (s.get pos).contains iv = true
    · rw [if_pos hcont] at hr
      have hiv64 := hlt iv (List.mem_cons_self iv rest)
      have hbit := (contains_iff_testBit N _ iv hiv64).1 hcont
      cases hrem : Sudoku.remove fuel s iv pos with
      | none =>
        rw [hrem] at hr
        exact absurd hr (by simp)
      | some r1 =>
        rw [hrem] at hr
        obtain ⟨s1, o1⟩ := r1
        cases o1 with
        | none =>
          injection hr with hr
          injection hr with h1 h2
          exact absurd h2 (by simp)
        | some n =>
          have hrs := remove_spec N hN8 fuel s iv pos hG hpv hbit (s1, some n) hrem
          have hG1 : Good N s1 := (hrs.2 n rfl).1
          have hNC1 : NoConflict N s1 :=
            remove_conflict N hN8 fuel s iv pos hG hNC hpv hbit s1 n hrem
          exact ih (fun j hj => hlt j (List.mem_cons_of_mem _ hj)) s1 (count + n) hG1 hNC1
            s' k hr
    · rw [if_neg hcont] at hr
      exact ih (fun j hj => hlt j (List.mem_cons_of_mem _ hj)) s count hG hNC s' k hr

theorem remove_all_conflict (N : Nat) (hN8 : N ≤ 8) (fuel : Nat) (s : Sudoku N)
    (values : Cell N) (pos : Pos) (hG : Good N s) (hNC : NoConflict N s) (hpv : pos.Valid N) :
    ∀ s' k, Sudoku.remove_all fuel s values pos = some (s', some k) → NoConflict N s' := by
  intro s' k hr
  have hbU : (s.get pos).bitset < U64 :=
    lt_of_lt_of_le (hG.2.1 pos hpv) (Nat.pow_le_pow_right (by omega) (mul_self_le_64 N hN8))
  have handU : ((s.get pos).and values).bitset < U64 := lt_of_le_of_lt Nat.and_le_left hbU
  exact removeAllGo_conflict N hN8 fuel pos hpv ((s.get pos).and values).toList
    (fun jv hjv => ((mem_toList N _ handU jv).1 hjv).1) s 0 hG hNC s' k hr

/-- Grids reachable from `Sudoku::default()` by successful `remove_all` calls
at valid positions — claim C1's reachability. -/
inductive ReachableRA (N : Nat) : Sudoku N → Prop where
  | default : ReachableRA N (Sudoku.default N)
  | step (s s' : Sudoku N) (fuel : Nat) (values : Cell N) (pos : Pos) (k : Nat)
      (hpv : pos.Valid N) (h : ReachableRA N s)
      (hr : s.remove_all fuel values pos = some (s', some k)) : ReachableRA N s'

theorem default_noconflict (N : Nat) (hN1 : 1 ≤ N) (hN8 : N ≤ 8) :
    NoConflict N (Sudoku.default N) := by
  intro p hpv w hw
  rw [default_get N p hpv] at hw
  intro q hq
  by_cases hN : N = 1
  · subst hN
    exfalso
    obtain ⟨hx1, hx2, hy1, hy2⟩ := hpv
    rcases (mem_correlated 1 p q).1 hq with ⟨_, _, l1, hne, _⟩ | ⟨_, _, l1, hne, _⟩ |
      ⟨e1, e2, l1, l2, hne⟩
    · omega
    · omega
    · apply hne
      obtain ⟨qx1, qx2, qy1, qy2⟩ := q
      obtain ⟨px1, px2, py1, py2⟩ := p
      simp_all
  · exfalso
    have h1 : popCount (Cell.FULL N).bitset = N * N := FULL_len N hN8
    rw [hw, from_value_popCount N w] at h1
    have hN2 : 2 ≤ N := by omega
    nlinarith

theorem reachableRA_good_noconflict (N : Nat) (hN1 : 1 ≤ N) (hN8 : N ≤ 8) (s : Sudoku N)
    (h : ReachableRA N s) : Good N s ∧ NoConflict N s := by
  induction h with
  | default => exact ⟨good_default N hN1 hN8, default_noconflict N hN1 hN8⟩
  | step s s' fuel values pos k hpv hre hr ih =>
    have hspec := remove_all_spec N hN8 fuel s values pos ih.1 hpv (s', some k) hr
    have hG' : Good N s' := (hspec.2 k rfl).1
    exact ⟨hG', remove_all_conflict N hN8 fuel s values pos ih.1 ih.2 hpv s' k hr⟩

/-! ## Soundness of the search loop -/

/-- Invariant of the explicit backtracking stack: popping each frame's count
in turn walks back through earlier conflict-free search states. -/
def StackOk (N : Nat) : Sudoku N → List (Nat × Cell N × Pos) → Prop
  | _, [] => True
  | s, (unpush, _, pos) :: rest =>
      pos.Valid N ∧ Good N (s.pop_n_moves unpush) ∧ NoConflict N (s.pop_n_moves unpush) ∧
      StackOk N (s.pop_n_moves unpush) rest

theorem min_bifurc_valid (N : Nat) (hN1 : 1 ≤ N) (s : Sudoku N) (m : Nat) :
    (s.min_bifurc m).Valid N := by
  unfold Sudoku.min_bifurc
  cases hf : (Pos.iterList N).find? (fun pos => (s.get pos).len == m) with
  | none =>
    show (Pos.mk 0 0 0 0).Valid N
    exact ⟨hN1, hN1, hN1, hN1⟩
  | some p =>
    show p.Valid N
    exact (Pos.mem_iterList N p).1 (List.mem_of_find?_eq_some hf)

theorem bruteForceGo_sound (N : Nat) (σ : Type) (hN1 : 1 ≤ N) (hN8 : N ≤ 8)
    (fuel : Nat) (ch : Chooser N σ) :
    ∀ (n : Nat) (cst : σ) (s : Sudoku N) (pos : Pos) (cell : Cell N)
      (stack : List (Nat × Cell N × Pos)) (acc : List (Sudoku N)) (sols : List (Sudoku N)),
      Good N s → NoConflict N s → pos.Valid N → StackOk N s stack →
      (∀ g ∈ acc, Good N g ∧ NoConflict N g ∧ g.best = 1) →
      Sudoku.bruteForceGo fuel ch n cst s pos cell stack acc = some sols →
      ∀ g ∈ sols, Good N g ∧ NoConflict N g ∧ g.best = 1 := by
  intro n
  induction n with
  | zero =>
    intro cst s pos cell stack acc sols _ _ _ _ hacc hr g hg
    replace hr : some acc.reverse = some sols := hr
    injection hr with hr
    subst hr
    exact hacc g (List.mem_reverse.1 hg)
  | succ n ih =>
    intro cst s pos cell stack acc sols hG hNC hposv hstk hacc hr g hg
    simp only [Sudoku.bruteForceGo] at hr
    split at hr
    next value cell2 cst2 hstep =>
      split at hr
      next hra =>
        exact absurd hr (by simp)
      next s1 moved hra =>
        have hspec := remove_all_spec N hN8 fuel s ((Cell.from_value N value).compl) pos hG
          hposv (s1, some moved) hra
        have hG1 : Good N s1 := (hspec.2 moved rfl).1
        have hpop1 : s1.pop_n_moves moved = s := (hspec.2 moved rfl).2.2
        have hNC1 : NoConflict N s1 :=
          remove_all_conflict N hN8 fuel s _ pos hG hNC hposv s1 moved hra
        have hstk1 : StackOk N s1 ((moved, cell2, pos) :: stack) := by
          show pos.Valid N ∧ Good N (s1.pop_n_moves moved) ∧
            NoConflict N (s1.pop_n_moves moved) ∧ StackOk N (s1.pop_n_moves moved) stack
          rw [hpop1]
          exact ⟨hposv, hG, hNC, hstk⟩
        cases hb0 : s1.best with
        | zero =>
          rw [hb0] at hr
          replace hr : Sudoku.bruteForceGo fuel ch n cst2 s1 (s1.min_bifurc 0)
              (s1.get (s1.min_bifurc 0)) ((moved, cell2, pos) :: stack) acc = some sols := hr
          exact ih cst2 s1 (s1.min_bifurc 0) (s1.get (s1.min_bifurc 0))
            ((moved, cell2, pos) :: stack) acc sols hG1 hNC1 (min_bifurc_valid N hN1 s1 0)
            hstk1 hacc hr g hg
        | succ m =>
          cases m with
          | zero =>
            rw [hb0] at hr
            replace hr : Sudoku.bruteForceGo fuel ch n cst2 (s1.pop_n_moves moved) pos cell2
                stack (s1 :: acc) = some sols := hr
            rw [hpop1] at hr
            have hacc1 : ∀ g ∈ s1 :: acc, Good N g ∧ NoConflict N g ∧ g.best = 1 := by
              intro g2 hg2
              rcases List.mem_cons.1 hg2 with rfl | hg3
              · exact ⟨hG1, hNC1, hb0⟩
              · exact hacc g2 hg3
            exact ih cst2 s pos cell2 stack (s1 :: acc) sols hG hNC hposv hstk hacc1 hr g hg
          | succ m2 =>
            rw [hb0] at hr
            replace hr : Sudoku.bruteForceGo fuel ch n cst2 s1 (s1.min_bifurc (m2 + 2))
                (s1.get (s1.min_bifurc (m2 + 2))) ((moved, cell2, pos) :: stack) acc =
                some sols := hr
            exact ih cst2 s1 (s1.min_bifurc (m2 + 2)) (s1.get (s1.min_bifurc (m2 + 2)))
              ((moved, cell2, pos) :: stack) acc sols hG1 hNC1
              (min_bifurc_valid N hN1 s1 (m2 + 2)) hstk1 hacc hr g hg
      next s1 hra =>
        have hspec := remove_all_spec N hN8 fuel s ((Cell.from_value N value).compl) pos hG
          hposv (s1, none) hra
        have he : s1 = s := hspec.1 rfl
        rw [he] at hr
        exact ih cst2 s pos cell2 stack acc sols hG hNC hposv hstk hacc hr g hg
    next c2 cst2 hstep =>
      split at hr
      next hstack =>
        injection hr with hr
        subst hr
        exact hacc g (List.mem_reverse.1 hg)
      next =>
        rename_i unpush prev_cell prev_pos stack2
        have hstk2 : prev_pos.Valid N ∧ Good N (s.pop_n_moves unpush) ∧
            NoConflict N (s.pop_n_moves unpush) ∧ StackOk N (s.pop_n_moves unpush) stack2 :=
          hstk
        exact ih cst2 (s.pop_n_moves unpush) prev_pos prev_cell stack2 acc sols hstk2.2.1
          hstk2.2.2.1 hstk2.1 hstk2.2.2.2 hacc hr g hg

/-! ## Rows, columns and boxes as position lists -/

/-- The row through `(y_1, y_2)`, in the sweep order of `correlated`'s row
phase. -/
def rowList (N : Nat) (y_1 y_2 : Nat) : List Pos :=
  (List.range N).flatMap fun x_1 => (List.range N).map fun x_2 => ⟨x_1, x_2, y_1, y_2⟩

/-- The column through `(x_1, x_2)`. -/
def colList (N : Nat) (x_1 x_2 : Nat) : List Pos :=
  (List.range N).flatMap fun y_1 => (List.range N).map fun y_2 => ⟨x_1, x_2, y_1, y_2⟩

/-- The box (square) at chunk coordinates `(y_1, x_1)`. -/
def boxList (N : Nat) (y_1 x_1 : Nat) : List Pos :=
  (List.range N).flatMap fun y_2 => (List.range N).map fun x_2 => ⟨x_1, x_2, y_1, y_2⟩

theorem mem_rowList (N y_1 y_2 : Nat) (q : Pos) :
    q ∈ rowList N y_1 y_2 ↔ q.x_1 < N ∧ q.x_2 < N ∧ q.y_1 = y_1 ∧ q.y_2 = y_2 := by
  unfold rowList
  simp only [List.mem_flatMap, List.mem_range, List.mem_map]
  constructor
  · rintro ⟨x_1, h1, x_2, h2, rfl⟩
    exact ⟨h1, h2, rfl, rfl⟩
  · rintro ⟨h1, h2, h3, h4⟩
    refine ⟨q.x_1, h1, q.x_2, h2, ?_⟩
    cases q
    simp_all

theorem mem_colList (N x_1 x_2 : Nat) (q : Pos) :
    q ∈ colList N x_1 x_2 ↔ q.y_1 < N ∧ q.y_2 < N ∧ q.x_1 = x_1 ∧ q.x_2 = x_2 := by
  unfold colList
  simp only [List.mem_flatMap, List.mem_range, List.mem_map]
  constructor
  · rintro ⟨y_1, h1, y_2, h2, rfl⟩
    exact ⟨h1, h2, rfl, rfl⟩
  · rintro ⟨h1, h2, h3, h4⟩
    refine ⟨q.y_1, h1, q.y_2, h2, ?_⟩
    cases q
    simp_all

theorem mem_boxList (N y_1 x_1 : Nat) (q : Pos) :
    q ∈ boxList N y_1 x_1 ↔ q.y_2 < N ∧ q.x_2 < N ∧ q.y_1 = y_1 ∧ q.x_1 = x_1 := by
  unfold boxList
  simp only [List.mem_flatMap, List.mem_range, List.mem_map]
  constructor
  · rintro ⟨y_2, h1, x_2, h2, rfl⟩
    exact ⟨h1, h2, rfl, rfl⟩
  · rintro ⟨h1, h2, h3, h4⟩
    refine ⟨q.y_2, h1, q.x_2, h2, ?_⟩
    cases q
    simp_all

theorem length_rowList (N y_1 y_2 : Nat) : (rowList N y_1 y_2).length = N * N := by
  unfold rowList
  rw [length_flatMap_const (List.range N) _ N
    (fun x _ => by rw [List.length_map, List.length_range]), List.length_range]

theorem length_colList (N x_1 x_2 : Nat) : (colList N x_1 x_2).length = N * N := by
  unfold colList
  rw [length_flatMap_const (List.range N) _ N
    (fun x _ => by rw [List.length_map, List.length_range]), List.length_range]

theorem length_boxList (N y_1 x_1 : Nat) : (boxList N y_1 x_1).length = N * N := by
  unfold boxList
  rw [length_flatMap_const (List.range N) _ N
    (fun x _ => by rw [List.length_map, List.length_range]), List.length_range]

theorem nodup_rowList (N y_1 y_2 : Nat) : (rowList N y_1 y_2).Nodup := by
  unfold rowList
  rw [List.nodup_flatMap]
  constructor
  · intro x_1 _
    refine List.Nodup.map ?_ (List.nodup_range N)
    intro a b hab
    simpa using congrArg Pos.x_2 hab
  · apply (List.pairwise_lt_range N).imp
    intro a b hab q hqa hqb
    beta_reduce at hqa hqb
    simp only [List.mem_map, List.mem_range] at hqa hqb
    rcases hqa with ⟨a2, _, rfl⟩
    rcases hqb with ⟨b2, _, he⟩
    have := congrArg Pos.x_1 he
    simp only at this
    omega

theorem nodup_colList (N x_1 x_2 : Nat) : (colList N x_1 x_2).Nodup := by
  unfold colList
  rw [List.nodup_flatMap]
  constructor
  · intro y_1 _
    refine List.Nodup.map ?_ (List.nodup_range N)
    intro a b hab
    simpa using congrArg Pos.y_2 hab
  · apply (List.pairwise_lt_range N).imp
    intro a b hab q hqa hqb
    beta_reduce at hqa hqb
    simp only [List.mem_map, List.mem_range] at hqa hqb
    rcases hqa with ⟨a2, _, rfl⟩
    rcases hqb with ⟨b2, _, he⟩
    have := congrArg Pos.y_1 he
    simp only at this
    omega

theorem nodup_boxList (N y_1 x_1 : Nat) : (boxList N y_1 x_1).Nodup := by
  unfold boxList
  rw [List.nodup_flatMap]
  constructor
  · intro y_2 _
    refine List.Nodup.map ?_ (List.nodup_range N)
    intro a b hab
    simpa using congrArg Pos.x_2 hab
  · apply (List.pairwise_lt_range N).imp
    intro a b hab q hqa hqb
    beta_reduce at hqa hqb
    simp only [List.mem_map, List.mem_range] at hqa hqb
    rcases hqa with ⟨a2, _, rfl⟩
    rcases hqb with ⟨b2, _, he⟩
    have := congrArg Pos.y_2 he
    simp only at this
    omega

theorem all_singleton_of_best_one (N : Nat) (hN8 : N ≤ 8) (g : Sudoku N) (hG : Good N g)
    (hb : g.best = 1) : ∀ p : Pos, p.Valid N → (g.get p).len = 1 := by
  intro p hpv
  have hU : (g.get p).bitset < U64 :=
    lt_of_lt_of_le (hG.2.1 p hpv) (Nat.pow_le_pow_right (by omega) (mul_self_le_64 N hN8))
  have hlow : 1 ≤ (g.get p).len := by
    have hnz := hG.2.2.1 p hpv
    show 1 ≤ popCount (g.get p).bitset
    by_contra hc
    exact hnz ((popCount_eq_zero _ hU).1 (by omega))
  by_contra hc
  have h2 : 2 ≤ (g.get p).len := by
    rcases Nat.lt_or_ge (g.get p).len 2 with h | h
    · omega
    · exact h
  rcases best_min_spec N g hG.2.2.2.1
    (fun q hq => popCount_le_of_lt_two_pow _ _ (mul_self_le_64 N hN8) (hG.2.1 q hq))
    p hpv h2 with ⟨_, hb2, _⟩
  omega

theorem cell_value_spec (N : Nat) (hN8 : N ≤ 8) (g : Sudoku N) (hG : Good N g)
    (hall : ∀ p : Pos, p.Valid N → (g.get p).len = 1) (p : Pos) (hpv : p.Valid N) :
    ∃ v, v < N * N ∧ (g.get p).bitset = 2 ^ v ∧ trailing_zeros (g.get p).bitset = v := by
  have hU : (g.get p).bitset < U64 :=
    lt_of_lt_of_le (hG.2.1 p hpv) (Nat.pow_le_pow_right (by omega) (mul_self_le_64 N hN8))
  rcases len_one_from_value N (g.get p) hU (hall p hpv) with ⟨w, hw, hcw⟩
  have hb : (g.get p).bitset = 2 ^ w := by
    rw [hcw]
    exact Cell.from_value_eq N w hw
  have hvN : w < N * N := by
    by_contra hcn
    push_neg at hcn
    have h1 := hG.2.1 p hpv
    rw [hb] at h1
    have h2 : 2 ^ (N * N) ≤ 2 ^ w := Nat.pow_le_pow_right (by omega) hcn
    omega
  refine ⟨w, hvN, hb, ?_⟩
  rw [hb]
  exact trailing_zeros_two_pow w hw

theorem group_perm (N : Nat) (hN8 : N ≤ 8) (g : Sudoku N) (hG : Good N g)
    (hNC : NoConflict N g) (hall : ∀ p : Pos, p.Valid N → (g.get p).len = 1)
    (l : List Pos) (hlen : l.length = N * N) (hnd : l.Nodup)
    (hvalid : ∀ p ∈ l, p.Valid N)
    (hcorr : ∀ p ∈ l, ∀ q ∈ l, p ≠ q → q ∈ correlated N p) :
    (l.map fun p => trailing_zeros (g.get p).bitset).Perm (List.range (N * N)) := by
  have hval : ∀ p ∈ l, ∃ v, v < N * N ∧ (g.get p).bitset = 2 ^ v ∧
      trailing_zeros (g.get p).bitset = v :=
    fun p hp => cell_value_spec N hN8 g hG hall p (hvalid p hp)
  have hinj : ∀ p ∈ l, ∀ q ∈ l, trailing_zeros (g.get p).bitset =
      trailing_zeros (g.get q).bitset → p = q := by
    intro p hp q hq he
    by_contra hne
    rcases hval p hp with ⟨vp, hvpN, hbp, htp⟩
    rcases hval q hq with ⟨vq, hvqN, hbq, htq⟩
    have hvv : vp = vq := by rw [← htp, ← htq, he]
    have hqc : q ∈ correlated N p := hcorr p hp q hq hne
    have hfp : g.get p = Cell.from_value N vp := by
      apply cell_ext
      rw [hbp, Cell.from_value_eq N vp (lt_of_lt_of_le hvpN (mul_self_le_64 N hN8))]
    have habs := hNC p (hvalid p hp) vp hfp q hqc
    rw [hbq, ← hvv, Nat.testBit_two_pow_self] at habs
    exact absurd habs (by simp)
  have hnd2 : (l.map fun p => trailing_zeros (g.get p).bitset).Nodup :=
    List.Nodup.map_on hinj hnd
  have hsub : ∀ v ∈ l.map fun p => trailing_zeros (g.get p).bitset,
      v ∈ List.range (N * N) := by
    intro v hv
    rcases List.mem_map.1 hv with ⟨p, hp, rfl⟩
    rcases hval p hp with ⟨vp, hvpN, _, htp⟩
    rw [htp]
    exact List.mem_range.2 hvpN
  apply List.perm_of_nodup_nodup_toFinset_eq hnd2 (List.nodup_range (N * N))
  apply Finset.eq_of_subset_of_card_le
  · intro v hv
    rw [List.mem_toFinset] at hv ⊢
    exact hsub v hv
  · rw [List.toFinset_card_of_nodup hnd2, List.toFinset_card_of_nodup (List.nodup_range _)]
    rw [List.length_map, hlen, List.length_range]

/-- `ChooseFirst`'s strategy as a `Chooser`: `choose_pop_value_in_cell` picks
`Cell::first` and strips it from the tracked cell (`*cell = *cell - value`). -/
def chooseFirst (N : Nat) : Chooser N Unit :=
  ⟨fun u c =>
    match Cell.first N c with
    | some v => (some v, c.sub v, u)
    | none => (none, c, u)⟩

/-- C1: on every grid reachable from the default grid by successful
`remove_all` calls, every grid yielded by `brute_force` (any strategy, any
budget) has exactly one candidate per cell, and the determined values of
every row, every column and every box are a permutation of `0..N²-1`. -/
theorem claim_C1 (N : Nat) (σ : Type) (hN1 : 1 ≤ N) (hN8 : N ≤ 8)
    (s : Sudoku N) (hre : ReachableRA N s) (fuel : Nat) (ch : Chooser N σ) (cst : σ)
    (ttl : Nat) (sols : List (Sudoku N))
    (hrun : s.brute_force fuel ch cst ttl = some sols) :
    ∀ g ∈ sols,
      (∀ p : Pos, p.Valid N → (g.get p).len = 1) ∧
      (∀ y_1 < N, ∀ y_2 < N,
        ((rowList N y_1 y_2).map fun p => trailing_zeros (g.get p).bitset).Perm
          (List.range (N * N))) ∧
      (∀ x_1 < N, ∀ x_2 < N,
        ((colList N x_1 x_2).map fun p => trailing_zeros (g.get p).bitset).Perm
          (List.range (N * N))) ∧
      (∀ y_1 < N, ∀ x_1 < N,
        ((boxList N y_1 x_1).map fun p => trailing_zeros (g.get p).bitset).Perm
          (List.range (N * N))) := by
  rcases reachableRA_good_noconflict N hN1 hN8 s hre with ⟨hG, hNC⟩
  have hsols : ∀ g ∈ sols, Good N g ∧ NoConflict N g ∧ g.best = 1 := by
    unfold Sudoku.brute_force at hrun
    cases hb0 : s.best with
    | zero =>
      rw [hb0] at hrun
      replace hrun : Sudoku.bruteForceGo fuel ch ttl cst s (s.min_bifurc 0)
          (s.get (s.min_bifurc 0)) [] [] = some sols := hrun
      exact bruteForceGo_sound N σ hN1 hN8 fuel ch ttl cst s (s.min_bifurc 0)
        (s.get (s.min_bifurc 0)) [] [] sols hG hNC (min_bifurc_valid N hN1 s 0) trivial
        (fun g hg => absurd hg (List.not_mem_nil g)) hrun
    | succ m =>
      cases m with
      | zero =>
        rw [hb0] at hrun
        replace hrun : some [s] = some sols := hrun
        injection hrun with hrun
        subst hrun
        intro g hg
        rcases List.mem_singleton.1 hg with rfl
        exact ⟨hG, hNC, hb0⟩
      | succ m2 =>
        rw [hb0] at hrun
        replace hrun : Sudoku.bruteForceGo fuel ch ttl cst s (s.min_bifurc (m2 + 2))
            (s.get (s.min_bifurc (m2 + 2))) [] [] = some sols := hrun
        exact bruteForceGo_sound N σ hN1 hN8 fuel ch ttl cst s (s.min_bifurc (m2 + 2))
          (s.get (s.min_bifurc (m2 + 2))) [] [] sols hG hNC
          (min_bifurc_valid N hN1 s (m2 + 2)) trivial
          (fun g hg => absurd hg (List.not_mem_nil g)) hrun
  intro g hg
  rcases hsols g hg with ⟨hGg, hNCg, hbg⟩
  have hall := all_singleton_of_best_one N hN8 g hGg hbg
  refine ⟨hall, ?_, ?_, ?_⟩
  · intro y_1 hy1 y_2 hy2
    apply group_perm N hN8 g hGg hNCg hall (rowList N y_1 y_2) (length_rowList N y_1 y_2)
      (nodup_rowList N y_1 y_2)
    · intro p hp
      rcases (mem_rowList N y_1 y_2 p).1 hp with ⟨h1, h2, h3, h4⟩
      exact ⟨h1, h2, by omega, by omega⟩
    · intro p hp q hq hne
      rcases (mem_rowList N y_1 y_2 p).1 hp with ⟨hpx1, hpx2, hpy1, hpy2⟩
      rcases (mem_rowList N y_1 y_2 q).1 hq with ⟨hqx1, hqx2, hqy1, hqy2⟩
      rw [mem_correlated]
      by_cases hx1 : q.x_1 = p.x_1
      · exact Or.inr (Or.inr ⟨by rw [hqy1, hpy1], hx1, by omega, hqx2, Ne.symm hne⟩)
      · exact Or.inl ⟨by rw [hqy1, hpy1], by rw [hqy2, hpy2], hqx1, hx1, hqx2⟩
  · intro x_1 hx1 x_2 hx2
    apply group_perm N hN8 g hGg hNCg hall (colList N x_1 x_2) (length_colList N x_1 x_2)
      (nodup_colList N x_1 x_2)
    · intro p hp
      rcases (mem_colList N x_1 x_2 p).1 hp with ⟨h1, h2, h3, h4⟩
      exact ⟨by omega, by omega, h1, h2⟩
    · intro p hp q hq hne
      rcases (mem_colList N x_1 x_2 p).1 hp with ⟨hpy1, hpy2, hpx1, hpx2⟩
      rcases (mem_colList N x_1 x_2 q).1 hq with ⟨hqy1, hqy2, hqx1, hqx2⟩
      rw [mem_correlated]
      by_cases hy1d : q.y_1 = p.y_1
      · exact Or.inr (Or.inr ⟨hy1d, by rw [hqx1, hpx1], hqy2, by omega, Ne.symm hne⟩)
      · exact Or.inr (Or.inl ⟨by rw [hqx1, hpx1], by rw [hqx2, hpx2], hqy1, hy1d, hqy2⟩)
  · intro y_1 hy1 x_1 hx1
    apply group_perm N hN8 g hGg hNCg hall (boxList N y_1 x_1) (length_boxList N y_1 x_1)
      (nodup_boxList N y_1 x_1)
    · intro p hp
      rcases (mem_boxList N y_1 x_1 p).1 hp with ⟨h1, h2, h3, h4⟩
      exact ⟨by omega, h2, by omega, h1⟩
    · intro p hp q hq hne
      rcases (mem_boxList N y_1 x_1 p).1 hp with ⟨hpy2, hpx2, hpy1, hpx1⟩
      rcases (mem_boxList N y_1 x_1 q).1 hq with ⟨hqy2, hqx2, hqy1, hqx1⟩
      rw [mem_correlated]
      exact Or.inr (Or.inr ⟨by rw [hqy1, hpy1], by rw [hqx1, hpx1], hqy2, hqx2,
        Ne.symm hne⟩)

theorem claim_C1_witness :
    ((Sudoku.default 1).get ⟨0, 0, 0, 0⟩).len = 1 ∧
    ((rowList 1 0 0).map fun p => trailing_zeros ((Sudoku.default 1).get p).bitset).Perm
      (List.range (1 * 1)) :=
  ⟨((claim_C1 1 Unit (by decide) (by decide) (Sudoku.default 1) ReachableRA.default 1
      (chooseFirst 1) () 0 [Sudoku.default 1] (by decide)) (Sudoku.default 1)
      (List.mem_singleton.2 rfl)).1 ⟨0, 0, 0, 0⟩ (by decide),
   ((claim_C1 1 Unit (by decide) (by decide) (Sudoku.default 1) ReachableRA.default 1
      (chooseFirst 1) () 0 [Sudoku.default 1] (by decide)) (Sudoku.default 1)
      (List.mem_singleton.2 rfl)).2.1 0 (by decide) 0 (by decide)⟩
